import Mathlib

/-!
Verification of the widget-tree core of the `tint-rs` (derin) repository.

This file shallowly embeds, in Lean 4, the parts of the repository that the
claims under study talk about:

* `derin_core/src/widget_traverser/virtual_widget_tree.rs`
  (`VirtualWidgetTree` with `insert`, `remove`, `parent`,
  `sibling_wrapping`, `child_index`, `path_reversed`);
* `derin_core/src/offset_widget.rs` (`OffsetWidget` with `rect`/`set_rect`);
* `derin_core/src/event_translator/mod.rs`
  (`translate_window_event`, mouse-button arms);
* `derin_core/src/widget.rs` (`WidgetTag` and its `Clone` impl).

Modelling conventions:

* `WidgetId` is modelled as `Nat`; the `HashMap<WidgetId, WidgetTreeNode>`
  is modelled as an association list `List (Nat × WidgetTreeNode)` whose
  keys are kept distinct by the operations (in-place updates keep an
  entry's position, fresh inserts append, removals delete the entry).
* Rust panics (`unwrap`, `expect`, indexing a missing key,
  `unimplemented!`) and non-termination (unbounded recursion over a
  cyclic structure) are modelled by `Option`: a `none` result means the
  Rust call does not return normally.  Recursive loops take an explicit
  fuel argument; the fuel passed at each call site is large enough that
  running out of fuel coincides with genuine non-termination of the
  Rust code (see the comments at the call sites).
* `isize` offsets are modelled as unbounded `Int` (the claims are about
  the wrapping arithmetic of the algorithm, not about 64-bit overflow);
  Rust's truncating `%` on `isize` is `Int.tmod`.
* `i32` coordinates in the offset-widget model are modelled as `Int`
  with explicit two's-complement wrapping (`wrap32`), matching release
  mode Rust arithmetic.
* The crate-root helpers `find_index` and `vec_remove_element` live in
  `derin_core/src/lib.rs`, which is not among the provided sources; they
  are modelled from the spec ("detaches from old parent's child list")
  and from the repository's own tests (`widget_trim`), which pin
  remove-first-occurrence-and-shift semantics.
-/

/-- `WidgetIdent` from `derin_core/src/widget.rs`: a parent-relative name. -/
inductive WidgetIdent where
  | Str (s : String)
  | Num (n : Nat)
  | StrCollection (s : String) (i : Nat)
  | NumCollection (a : Nat) (i : Nat)
deriving DecidableEq, Repr

/-- `ROOT_IDENT` from `derin_core/src/widget.rs`. -/
def ROOT_IDENT : WidgetIdent := WidgetIdent.Num 0

/-- `WidgetData` from `virtual_widget_tree.rs`: per-node ident and cached depth
(the `Cell<u32>` is modelled as a plain `Nat` field, mutation as functional
update). -/
structure WidgetData where
  ident : WidgetIdent
  depth : Nat
deriving DecidableEq, Repr

/-- `WidgetTreeNode` from `virtual_widget_tree.rs`. -/
structure WidgetTreeNode where
  parent_id : Nat
  children : List (Option Nat)
  data : WidgetData
deriving DecidableEq, Repr

/-- `WidgetInsertError` from `virtual_widget_tree.rs`. -/
inductive WidgetInsertError where
  | ParentNotInTree
  | WidgetIsRoot
deriving DecidableEq, Repr

/-- `WidgetRelationError` from `virtual_widget_tree.rs`. -/
inductive WidgetRelationError where
  | WidgetNotFound
  | RelationNotFound
deriving DecidableEq, Repr

/-- `VirtualWidgetTree` from `virtual_widget_tree.rs`.  The
`HashMap<WidgetId, WidgetTreeNode, FnvBuildHasher>` is an association list
with distinct keys. -/
structure VirtualWidgetTree where
  root : Nat
  root_data : WidgetData
  root_children : List (Option Nat)
  tree_data : List (Nat × WidgetTreeNode)
deriving DecidableEq, Repr

/-- `PathRevItem` from `virtual_widget_tree.rs`. -/
structure PathRevItem where
  ident : WidgetIdent
  id : Nat
deriving DecidableEq, Repr

/-- Modelled from the spec: `crate::find_index` (from `derin_core/src/lib.rs`,
not among the provided sources) — index of the first element equal to `x`.
Its use sites (`sibling_wrapping`, the repo test `widget_trim`) pin this
semantics. -/
def find_index {α : Type} [DecidableEq α] (x : α) : List α → Option Nat
  | [] => none
  | a :: as => if a = x then some 0 else (find_index x as).map (· + 1)

/-- Modelled from the spec: `crate::vec_remove_element` (from
`derin_core/src/lib.rs`, not among the provided sources) — remove the first
element equal to `x`, shifting later elements left; returns evidence of
whether an element was removed.  The repo test `widget_trim` pins the
shift-left semantics. -/
def vec_remove_element {α : Type} [DecidableEq α] (x : α) (l : List α) :
    Option Nat × List α :=
  match find_index x l with
  | none => (none, l)
  | some i => (some i, l.eraseIdx i)

/-- The `while let Some(None) = children.last() { children.pop(); }` idiom:
drop trailing `none` entries. -/
def trimNones : List (Option Nat) → List (Option Nat)
  | [] => []
  | a :: as =>
    let r := trimNones as
    if r = [] ∧ a = none then [] else a :: r

/-- The detach step `remove` applies to the parent's child list: drop the
widget's slot and trim trailing empties. -/
def detachTrim (x : Nat) (l : List (Option Nat)) : List (Option Nat) :=
  trimNones ((vec_remove_element (some x) l).2)

/-- Association-list lookup, modelling `HashMap::get`. -/
def lookupNode (td : List (Nat × WidgetTreeNode)) (k : Nat) :
    Option WidgetTreeNode :=
  match td with
  | [] => none
  | (k2, n) :: rest => if k2 = k then some n else lookupNode rest k

/-- Association-list in-place update at a key (no-op when absent),
modelling mutation through `HashMap::get_mut` / an occupied entry. -/
def mapNode : List (Nat × WidgetTreeNode) → Nat →
    (WidgetTreeNode → WidgetTreeNode) → List (Nat × WidgetTreeNode)
  | [], _, _ => []
  | (k2, n) :: rest, k, f =>
    (if k2 = k then (k2, f n) else (k2, n)) :: mapNode rest k f

/-- Association-list removal of a key, modelling `HashMap::remove`. -/
def eraseNode : List (Nat × WidgetTreeNode) → Nat → List (Nat × WidgetTreeNode)
  | [], _ => []
  | (k2, n) :: rest, k =>
    if k2 = k then eraseNode rest k else (k2, n) :: eraseNode rest k

namespace VirtualWidgetTree

/-- `VirtualWidgetTree::new`. -/
def new (root : Nat) : VirtualWidgetTree :=
  { root := root
    root_data := { ident := ROOT_IDENT, depth := 0 }
    root_children := []
    tree_data := [] }

/-- The key list of the side table. -/
def keys (t : VirtualWidgetTree) : List Nat := t.tree_data.map Prod.fst

/-- `VirtualWidgetTree::get_widget_node`: data and children of a node,
with the root stored out of the map. -/
def get_widget_node (t : VirtualWidgetTree) (id : Nat) :
    Option (WidgetData × List (Option Nat)) :=
  if t.root = id then some (t.root_data, t.root_children)
  else (lookupNode t.tree_data id).map (fun n => (n.data, n.children))

/-- `VirtualWidgetTree::get_widget`. -/
def get_widget (t : VirtualWidgetTree) (id : Nat) : Option WidgetData :=
  (get_widget_node t id).map Prod.fst

/-- The child list of `id` (empty when `id` is not a node); used to state
invariants. -/
def childrenOf (t : VirtualWidgetTree) (id : Nat) : List (Option Nat) :=
  match get_widget_node t id with
  | some (_, c) => c
  | none => []

/-- The cached depth of `id` (`0` when `id` is not a node); used to state
invariants. -/
def depthOf (t : VirtualWidgetTree) (id : Nat) : Nat :=
  match get_widget_node t id with
  | some (d, _) => d.depth
  | none => 0

/-- Write the child list of a node (root or map entry), modelling mutation
through `get_widget_node_mut`. -/
def setChildren (t : VirtualWidgetTree) (id : Nat) (l : List (Option Nat)) :
    VirtualWidgetTree :=
  if t.root = id then { t with root_children := l }
  else { t with tree_data := mapNode t.tree_data id (fun n => { n with children := l }) }

/-- A widget is present in the tree (the root or a map entry), as observed
by `get_widget_node`. -/
def present (t : VirtualWidgetTree) (id : Nat) : Prop :=
  (get_widget_node t id).isSome

instance (t : VirtualWidgetTree) (id : Nat) : Decidable (present t id) := by
  unfold present; infer_instance

/-- `VirtualWidgetTree::parent`. -/
def parent (t : VirtualWidgetTree) (widget_id : Nat) :
    Except WidgetRelationError Nat :=
  if widget_id = t.root then Except.error WidgetRelationError.RelationNotFound
  else
    match lookupNode t.tree_data widget_id with
    | some node => Except.ok node.parent_id
    | none => Except.error WidgetRelationError.WidgetNotFound

/-- `VirtualWidgetTree::child_index`. -/
def child_index (t : VirtualWidgetTree) (widget_id : Nat) (ci : Nat) :
    Except WidgetRelationError Nat :=
  match get_widget_node t widget_id with
  | none => Except.error WidgetRelationError.WidgetNotFound
  | some (_, children) =>
    match children.getD ci none with
    | some id => Except.ok id
    | none => Except.error WidgetRelationError.RelationNotFound

/-- The `mod_euc` closure from `VirtualWidgetTree::sibling_wrapping`,
verbatim; Rust's truncating `%` on `isize` is `Int.tmod`. -/
def mod_euc (i rhs : Int) : Int :=
  let r := Int.tmod i rhs
  if r < 0 then (if rhs < 0 then r - rhs else r + rhs) else r

/-- `VirtualWidgetTree::sibling_wrapping`.  The outer `Option` is the
panic monad (`unwrap` of `find_index`, `unwrap` of the parent lookup,
remainder by zero); the inner `Option Nat` is the Rust return value —
note the function returns the raw slot `siblings[..]`, which is `None`
for an empty placeholder slot. -/
def sibling_wrapping (t : VirtualWidgetTree) (widget_id : Nat) (offset : Int) :
    Option (Option Nat) :=
  if widget_id = t.root then some (some t.root)
  else
    match lookupNode t.tree_data widget_id with
    | none => some none
    | some node =>
      if offset = 0 then some (some widget_id)
      else
        match get_widget_node t node.parent_id with
        | none => none
        | some (_, siblings) =>
          match find_index (some widget_id) siblings with
          | none => none
          | some idx =>
            if siblings.length = 0 then none
            else some (siblings.getD (mod_euc (idx + offset) siblings.length).toNat none)

/-- Total size of the side table: one unit per entry plus its child slots.
Used as a fuel bound for the removal loop (the loop strictly decreases
this plus the queue length at every step). -/
def totalSize (td : List (Nat × WidgetTreeNode)) : Nat :=
  (td.map (fun e => e.2.children.length + 1)).sum

end VirtualWidgetTree

mutual

/-- `VirtualWidgetTree::update_node_depth`: set the depth of `id` to
`depth` and recursively update its children to `depth + 1`.  The Rust
function recurses along child links without any bound, so it fails to
terminate when the child graph reached from `id` has a cycle; `fuel`
bounds the recursion depth, and the call site passes
`tree_data.length + 2`, which a cycle-free walk can never exhaust
(every root-to-leaf recursion path visits distinct keys).  A lookup of a
missing key (`self.tree_data[&child_id]`) panics; both panic and
non-termination are `none`. -/
def update_node_depth (fuel : Nat) (td : List (Nat × WidgetTreeNode))
    (depth : Nat) (id : Nat) : Option (List (Nat × WidgetTreeNode)) :=
  match fuel with
  | 0 => none
  | f + 1 =>
    match lookupNode td id with
    | none => none
    | some node =>
      let td1 := mapNode td id (fun n => { n with data := { n.data with depth := depth } })
      updateChildrenDepth f td1 (depth + 1) node.children
termination_by (fuel, 0)

/-- The `for child_id in node.children.iter().cloned().flatten()` loop of
`update_node_depth`, threading the table through the recursive calls. -/
def updateChildrenDepth (fuel : Nat) (td : List (Nat × WidgetTreeNode))
    (depth : Nat) (cs : List (Option Nat)) : Option (List (Nat × WidgetTreeNode)) :=
  match cs with
  | [] => some td
  | none :: rest => updateChildrenDepth fuel td depth rest
  | some c :: rest =>
    match update_node_depth fuel td depth c with
    | none => none
    | some td2 => updateChildrenDepth fuel td2 depth rest
termination_by (fuel, cs.length + 1)

end

namespace VirtualWidgetTree

/-- The breadth-first subtree-removal loop of `VirtualWidgetTree::remove`
(`widgets_to_remove`).  `fuel` is passed as `queue.length + totalSize td + 1`
by `remove`; the loop strictly decreases `queue.length + totalSize td`
at every step, so that fuel can never run out (`removeLoop_total`) and a
`none` is exactly the `panic("Bad tree state")` of a missing key. -/
def removeLoop (fuel : Nat) (td : List (Nat × WidgetTreeNode))
    (queue : List (Option Nat)) : Option (List (Nat × WidgetTreeNode)) :=
  match fuel with
  | 0 => none
  | f + 1 =>
    match queue with
    | [] => some td
    | none :: rest => removeLoop f td rest
    | some rid :: rest =>
      match lookupNode td rid with
      | none => none
      | some node => removeLoop f (eraseNode td rid) (rest ++ node.children)

/-- `VirtualWidgetTree::remove`.  Returns `some (none, t)` when the id is
unknown (Rust returns `None`, tree untouched), `some (some data, t2)` on a
successful removal, and `none` when the Rust code panics. -/
def remove (t : VirtualWidgetTree) (widget_id : Nat) :
    Option (Option WidgetData × VirtualWidgetTree) :=
  match lookupNode t.tree_data widget_id with
  | none => some (none, t)
  | some node =>
    let t0 : VirtualWidgetTree := { t with tree_data := eraseNode t.tree_data widget_id }
    match get_widget_node t0 node.parent_id with
    | none => none
    | some (_, pc) =>
      let pc1 := trimNones (vec_remove_element (some widget_id) pc).2
      let t1 := setChildren t0 node.parent_id pc1
      match removeLoop (node.children.length + totalSize t1.tree_data + 1)
          t1.tree_data node.children with
      | none => none
      | some td2 => some (some node.data, { t1 with tree_data := td2 })

/-- The eviction step at the end of `VirtualWidgetTree::insert`:
`if let Some(removed_widget) = removed_widget_id.filter(|id| *id != widget_id)
{ self.remove(removed_widget); }`. -/
def insertEvict (t : VirtualWidgetTree) (removed_widget_id : Option Nat)
    (widget_id : Nat) : Option (Except WidgetInsertError VirtualWidgetTree) :=
  match removed_widget_id with
  | some w =>
    if w = widget_id then some (Except.ok t)
    else
      match remove t w with
      | none => none
      | some (_, t2) => some (Except.ok t2)
  | none => some (Except.ok t)

/-- `VirtualWidgetTree::insert`.  The outer `Option` is the panic/divergence
monad (`expect("Bad tree state")`, `unwrap`, and the unbounded recursion of
`update_node_depth`); `Except` carries the Rust `Result`. -/
def insert (t : VirtualWidgetTree) (parent_id widget_id : Nat)
    (child_index : Nat) (widget_ident : WidgetIdent) :
    Option (Except WidgetInsertError VirtualWidgetTree) :=
  if widget_id = t.root then some (Except.error WidgetInsertError.WidgetIsRoot)
  else
    match get_widget_node t parent_id with
    | none => some (Except.error WidgetInsertError.ParentNotInTree)
    | some (pdata, children0) =>
      let parent_depth := pdata.depth
      let children1 := (vec_remove_element (some widget_id) children0).2
      let children2 :=
        if children1.length ≤ child_index then
          children1 ++ List.replicate (child_index + 1 - children1.length) none
        else children1
      let removed_widget_id := children2.getD child_index none
      let children3 := children2.set child_index (some widget_id)
      let t1 := setChildren t parent_id children3
      match lookupNode t1.tree_data widget_id with
      | some node =>
        let old_parent_id := node.parent_id
        let t2 : VirtualWidgetTree :=
          { t1 with tree_data :=
              mapNode t1.tree_data widget_id (fun n =>
                { n with parent_id := parent_id,
                         data := { n.data with ident := widget_ident } }) }
        match get_widget_node t2 old_parent_id with
        | none => none
        | some (_, opc) =>
          let opc2 := trimNones opc
          let t3 := setChildren t2 old_parent_id opc2
          if old_parent_id = parent_id then
            insertEvict t3 removed_widget_id widget_id
          else
            match vec_remove_element (some widget_id) opc2 with
            | (none, _) => none
            | (some _, opc3) =>
              let t4 := setChildren t3 old_parent_id opc3
              match update_node_depth (t4.tree_data.length + 2) t4.tree_data
                  (parent_depth + 1) widget_id with
              | none => none
              | some td5 =>
                insertEvict { t4 with tree_data := td5 } removed_widget_id widget_id
      | none =>
        let t2 : VirtualWidgetTree :=
          { t1 with tree_data := t1.tree_data ++
              [(widget_id,
                { parent_id := parent_id, children := [],
                  data := { ident := widget_ident, depth := parent_depth + 1 } })] }
        insertEvict t2 removed_widget_id widget_id

/-- The `get_widget_and_parent` closure of
`VirtualWidgetTree::path_reversed`: ident and optional parent of a node
(the exact-size length it also computes feeds only the iterator's
`size_hint` and is immaterial to the yielded items). -/
def get_widget_and_parent (t : VirtualWidgetTree) (id : Nat) :
    Option (WidgetIdent × Option Nat) :=
  if t.root = id then some (t.root_data.ident, none)
  else (lookupNode t.tree_data id).map (fun n => (n.data.ident, some n.parent_id))

/-- The yielded items of the `path_reversed` iterator, starting from a node
whose ident and parent link have been fetched.  Mirrors the closure: an item
is yielded only after the parent fetch for the next step succeeded (the `?`
inside `next` drops the current item on failure); following parent links can
only fail to terminate on a cyclic table, so the call site's fuel
`tree_data.length + 1` (one unit per yielded item, each with a distinct id
on a cycle-free walk) is never exhausted on well-formed trees. -/
def pathRevAux (t : VirtualWidgetTree) :
    Nat → WidgetIdent → Nat → Option Nat → List PathRevItem
  | 0, _, _, _ => []
  | f + 1, ident, id, parentOpt =>
    match parentOpt with
    | none => [{ ident := ident, id := id }]
    | some p =>
      match get_widget_and_parent t p with
      | none => []
      | some (pident, pparent) =>
        { ident := ident, id := id } :: pathRevAux t f pident p pparent

/-- `VirtualWidgetTree::path_reversed`, as the list of items the returned
iterator yields (`none` when the id is unknown). -/
def path_reversed (t : VirtualWidgetTree) (id : Nat) : Option (List PathRevItem) :=
  match get_widget_and_parent t id with
  | none => none
  | some (ident, parentOpt) =>
    some (pathRevAux t (t.tree_data.length + 1) ident id parentOpt)

/-- The chain of ids from `id` to the root following `parent_id` links
(fuel-bounded; the canonical fuel `tree_data.length + 1` suffices on any
acyclic tree).  Used to state the acyclicity and subtree claims. -/
def chainToRoot (t : VirtualWidgetTree) : Nat → Nat → List Nat
  | 0, _ => []
  | f + 1, id =>
    if id = t.root then [id]
    else
      match lookupNode t.tree_data id with
      | none => []
      | some n => id :: chainToRoot t f n.parent_id

/-- One step of the parent relation: the stored node `a` records `b` as
its parent. -/
def parentLink (t : VirtualWidgetTree) (a b : Nat) : Prop :=
  ∃ n, lookupNode t.tree_data a = some n ∧ n.parent_id = b

/-- `y` lies in the subtree rooted at `x` (`x` itself included): `x` occurs
on the parent chain from `y` to the root. -/
def inSubtree (t : VirtualWidgetTree) (x y : Nat) : Prop :=
  x ∈ chainToRoot t (t.tree_data.length + 1) y

instance (t : VirtualWidgetTree) (x y : Nat) : Decidable (inSubtree t x y) := by
  unfold inSubtree; infer_instance

end VirtualWidgetTree

/-- A mutation of the virtual tree: one `insert` or `remove` call. -/
inductive TreeOp where
  | insert (parent_id widget_id child_index : Nat) (ident : WidgetIdent)
  | remove (widget_id : Nat)
deriving DecidableEq, Repr

/-- Apply one operation.  An `insert` that returns an error leaves the tree
unchanged (the Rust checks precede every mutation); `remove` of an unknown
id likewise; `none` is a panic or divergence, after which there is no
resulting tree. -/
def applyOp (t : VirtualWidgetTree) : TreeOp → Option VirtualWidgetTree
  | TreeOp.insert p id ci ident =>
    match VirtualWidgetTree.insert t p id ci ident with
    | none => none
    | some (Except.error _) => some t
    | some (Except.ok t2) => some t2
  | TreeOp.remove id =>
    match VirtualWidgetTree.remove t id with
    | none => none
    | some (_, t2) => some t2

/-- Apply a sequence of operations, aborting on panic/divergence. -/
def applyOps (t : VirtualWidgetTree) : List TreeOp → Option VirtualWidgetTree
  | [] => some t
  | op :: ops =>
    match applyOp t op with
    | none => none
    | some t2 => applyOps t2 ops

/-!  Offset-widget model (`derin_core/src/offset_widget.rs`).

`i32` coordinates are `Int` with explicit two's-complement wrapping, the
release-mode semantics of Rust's `+`/`-` on `i32`. -/

/-- Two's-complement wrap of an integer into the `i32` range. -/
def wrap32 (x : Int) : Int := (x + 2 ^ 31) % 2 ^ 32 - 2 ^ 31

/-- `x` is a representable `i32` value. -/
def isI32 (x : Int) : Prop := -(2 ^ 31) ≤ x ∧ x < 2 ^ 31

instance (x : Int) : Decidable (isI32 x) := by unfold isI32; infer_instance

/-- `cgmath::Point2<i32>` / `Vector2<i32>`. -/
structure Point2 where
  x : Int
  y : Int
deriving DecidableEq, Repr

/-- Componentwise wrapping addition of a vector to a point. -/
def Point2.addv (p v : Point2) : Point2 :=
  { x := wrap32 (p.x + v.x), y := wrap32 (p.y + v.y) }

/-- Componentwise wrapping subtraction of a vector from a point. -/
def Point2.subv (p v : Point2) : Point2 :=
  { x := wrap32 (p.x - v.x), y := wrap32 (p.y - v.y) }

/-- `cgmath_geometry::rect::BoundBox<D2, i32>`: min and max corner. -/
structure BoundBox where
  min : Point2
  max : Point2
deriving DecidableEq, Repr

/-- `BoundBox + Vector2`: shift both corners. -/
def BoundBox.addv (r : BoundBox) (v : Point2) : BoundBox :=
  { min := r.min.addv v, max := r.max.addv v }

/-- `BoundBox - Vector2`: shift both corners back. -/
def BoundBox.subv (r : BoundBox) (v : Point2) : BoundBox :=
  { min := r.min.subv v, max := r.max.subv v }

/-- `OffsetWidget` from `offset_widget.rs`: the wrapped widget is
represented by its stored rectangle (the only field `rect`/`set_rect`
touch), together with the accumulated offset and optional clip. -/
structure OffsetWidget where
  widget_rect : BoundBox
  offset : Point2
  clip : Option BoundBox
deriving DecidableEq, Repr

namespace OffsetWidget

/-- `OffsetWidgetTrait::rect` for `OffsetWidget`:
`self.widget.rect() + self.offset`. -/
def rect (w : OffsetWidget) : BoundBox := w.widget_rect.addv w.offset

/-- `OffsetWidgetTrait::set_rect` for `OffsetWidget`:
`*self.widget.rect_mut() = rect - self.offset`. -/
def set_rect (w : OffsetWidget) (r : BoundBox) : OffsetWidget :=
  { w with widget_rect := r.subv w.offset }

end OffsetWidget

/-!  Widget-tag model (`derin_core/src/widget.rs`).

`WidgetID::new()` comes from the `id!` macro of `derin_common_types`
(not among the provided sources); it is modelled from the spec —
"opaque, globally unique, generated once per widget instance at
construction; never reused" — as a counter threaded through
construction: ids already handed out are exactly those below the
counter. -/

/-- `WidgetTag`: the widget id plus its registered message handlers and
timers (handler/timer payloads are irrelevant to the claims and are
abstracted as `Nat`-keyed entries; the `update_state` back-reference
carries no per-tag observable state). -/
structure WidgetTag where
  widget_id : Nat
  registered_messages : List (Nat × Nat)
  timers : List (Nat × Nat)
deriving DecidableEq, Repr

namespace WidgetTag

/-- Modelled from the spec: `WidgetID::new()` — return a fresh id and the
advanced generator state. -/
def newWidgetID (gen : Nat) : Nat × Nat := (gen, gen + 1)

/-- `WidgetTag::new`: fresh id, no registered messages, no timers. -/
def new (gen : Nat) : WidgetTag × Nat :=
  let (id, gen2) := newWidgetID gen
  ({ widget_id := id, registered_messages := [], timers := [] }, gen2)

/-- `impl Clone for WidgetTag`: "This doesn't actually clone the
`WidgetTag` - it just creates a new one and returns it." -/
def clone (_t : WidgetTag) (gen : Nat) : WidgetTag × Nat := new gen

end WidgetTag

/-!  Event-translator model (`derin_core/src/event_translator/mod.rs`),
restricted to the `MouseDown`/`MouseUp` window-event arms that claim C7
is about.

The held-mouse-buttons collection (`derin_common_types`, not among the
provided sources) is modelled from the spec — "records the button and
position in the held-buttons set" — as a list of (button, down
position) entries.  `widget_stack.move_to_widget_with_tree` is modelled
from the spec — "resolving a tracked widget id that no longer exists in
the virtual tree ... is treated as no such target" — as presence in the
virtual tree. -/

/-- `WidgetEvent` payloads produced by the two modelled arms. -/
inductive WidgetEventM where
  | MouseDown (pos : Point2) (in_widget : Bool) (button : Nat)
  | MouseUp (pos down_pos : Point2) (pressed_in_widget in_widget : Bool) (button : Nat)
deriving DecidableEq, Repr

/-- A queued dispatcher entry: destination widget id and event
(`bubble_source` is `None` in both arms and omitted). -/
structure QueuedEvent where
  destination : Nat
  event : WidgetEventM
deriving DecidableEq, Repr

/-- The input-state fields the two arms read and write. -/
structure InputState where
  mouse_pos : Option Point2
  mouse_buttons_down : List (Nat × Point2)
  mouse_hover_widget : Option Nat
deriving DecidableEq, Repr

/-- Modelled from the spec: `MouseButtonSequenceTrackPos::push_button` —
record the button as held at the given position. -/
def push_button (l : List (Nat × Point2)) (b : Nat) (p : Point2) :
    List (Nat × Point2) :=
  (l.filter (fun e => e.1 ≠ b)) ++ [(b, p)]

/-- Modelled from the spec: `contains` on the held-buttons set — the
recorded down entry for the button, if any. -/
def buttons_contains (l : List (Nat × Point2)) (b : Nat) : Option (Nat × Point2) :=
  l.find? (fun e => e.1 = b)

/-- The two mouse-button window events. -/
inductive MouseWindowEvent where
  | MouseDown (button : Nat)
  | MouseUp (button : Nat)
deriving DecidableEq, Repr

/-- The `queue_hover_event` closure: resolve the tracked hover widget via
the virtual tree and enqueue the event for it (no-op when there is no
resolvable hover target). -/
def queue_hover_event (tree : VirtualWidgetTree) (s : InputState)
    (q : List QueuedEvent) (event : WidgetEventM) : List QueuedEvent :=
  match s.mouse_hover_widget with
  | none => q
  | some w => if VirtualWidgetTree.present tree w then q ++ [⟨w, event⟩] else q

/-- `TranslatorActive::translate_window_event`, `MouseDown`/`MouseUp` arms.
`none` models a panic: the `MouseUp` arm builds
`WidgetEvent::MouseUp { .., pressed_in_widget: unimplemented!(), .. }`,
so whenever the mouse position is known and the button is recorded as
held, the struct-literal evaluation hits `unimplemented!()` and panics
before anything is enqueued or released. -/
def translate_window_event (tree : VirtualWidgetTree)
    (ev : MouseWindowEvent) (s : InputState) (q : List QueuedEvent) :
    Option (InputState × List QueuedEvent) :=
  match ev with
  | MouseWindowEvent.MouseDown b =>
    match s.mouse_pos with
    | none => some (s, q)
    | some p =>
      let q2 := queue_hover_event tree s q (WidgetEventM.MouseDown p true b)
      some ({ s with mouse_buttons_down := push_button s.mouse_buttons_down b p }, q2)
  | MouseWindowEvent.MouseUp b =>
    match s.mouse_pos with
    | none => some (s, q)
    | some _ =>
      match buttons_contains s.mouse_buttons_down b with
      | some _ => none
      | none => some (s, q)

/-!  Helper lemmas for the offset-widget round trip. -/

/-- Every coordinate of the rectangle is a representable `i32` value. -/
def isI32Rect (r : BoundBox) : Prop :=
  isI32 r.min.x ∧ isI32 r.min.y ∧ isI32 r.max.x ∧ isI32 r.max.y

instance (r : BoundBox) : Decidable (isI32Rect r) := by
  unfold isI32Rect; infer_instance

/-- A concrete tag with registered handlers and timers, for the claim-C10
witness. -/
def sampleTag : WidgetTag :=
  { widget_id := 2, registered_messages := [(1, 1)], timers := [(4, 4)] }

/-- The one-node tree and input state of the claim-C7 failing input. -/
def mouseTree : VirtualWidgetTree := VirtualWidgetTree.new 5

/-- Input state with a tracked mouse position and the root as hover
target, no buttons held. -/
def mouseState : InputState :=
  { mouse_pos := some { x := 10, y := 10 },
    mouse_buttons_down := [],
    mouse_hover_widget := some 5 }

/-- Decidable equality on `Except`, needed to evaluate insert results in
the concrete counterexamples. -/
instance {ε α : Type} [DecidableEq ε] [DecidableEq α] : DecidableEq (Except ε α) :=
  fun a b =>
    match a, b with
    | Except.ok x, Except.ok y =>
      decidable_of_iff (x = y) ⟨fun h => by rw [h], fun h => by injection h⟩
    | Except.error x, Except.error y =>
      decidable_of_iff (x = y) ⟨fun h => by rw [h], fun h => by injection h⟩
    | Except.ok _, Except.error _ => Decidable.isFalse (fun hc => Except.noConfusion hc)
    | Except.error _, Except.ok _ => Decidable.isFalse (fun hc => Except.noConfusion hc)

/-- The tree built by inserting widgets 1 and 2 under root 0 at slots
0 and 1. -/
def treeTwoChildren : VirtualWidgetTree :=
  { root := 0
    root_data := { ident := WidgetIdent.Num 0, depth := 0 }
    root_children := [some 1, some 2]
    tree_data :=
      [(1, { parent_id := 0, children := [],
             data := { ident := WidgetIdent.Num 1, depth := 1 } }),
       (2, { parent_id := 0, children := [],
             data := { ident := WidgetIdent.Num 2, depth := 1 } })] }

/-- The tree built by inserting widgets 1, 2 and 3 under root 0 at slots
0, 1 and 2. -/
def treeThreeChildren : VirtualWidgetTree :=
  { root := 0
    root_data := { ident := WidgetIdent.Num 0, depth := 0 }
    root_children := [some 1, some 2, some 3]
    tree_data :=
      [(1, { parent_id := 0, children := [],
             data := { ident := WidgetIdent.Num 1, depth := 1 } }),
       (2, { parent_id := 0, children := [],
             data := { ident := WidgetIdent.Num 2, depth := 1 } }),
       (3, { parent_id := 0, children := [],
             data := { ident := WidgetIdent.Num 3, depth := 1 } })] }

/-- The tree produced by one application of `insert(0, 3, 0, Num 3)` to
`treeTwoChildren`: widget 1 has been evicted. -/
def treeRepeatOnce : VirtualWidgetTree :=
  { root := 0
    root_data := { ident := WidgetIdent.Num 0, depth := 0 }
    root_children := [some 3, some 2]
    tree_data :=
      [(2, { parent_id := 0, children := [],
             data := { ident := WidgetIdent.Num 2, depth := 1 } }),
       (3, { parent_id := 0, children := [],
             data := { ident := WidgetIdent.Num 3, depth := 1 } })] }

/-- The tree produced by a second application of the identical insert:
widget 2 has now been evicted as well. -/
def treeRepeatTwice : VirtualWidgetTree :=
  { root := 0
    root_data := { ident := WidgetIdent.Num 0, depth := 0 }
    root_children := [some 3]
    tree_data :=
      [(3, { parent_id := 0, children := [],
             data := { ident := WidgetIdent.Num 3, depth := 1 } })] }

/-- The tree produced by `insert(0, 1, 2, Num 1)` on `treeThreeChildren`:
the list shifted left after widget 1 was detached, so no eviction
happened and all three widgets survive. -/
def treeShifted : VirtualWidgetTree :=
  { root := 0
    root_data := { ident := WidgetIdent.Num 0, depth := 0 }
    root_children := [some 2, some 3, some 1]
    tree_data :=
      [(1, { parent_id := 0, children := [],
             data := { ident := WidgetIdent.Num 1, depth := 1 } }),
       (2, { parent_id := 0, children := [],
             data := { ident := WidgetIdent.Num 2, depth := 1 } }),
       (3, { parent_id := 0, children := [],
             data := { ident := WidgetIdent.Num 3, depth := 1 } })] }

/-- The tree built by inserting 1 under the root, 2 under 1, and then
removing the leaf 2 again. -/
def treeInsRem : VirtualWidgetTree :=
  { root := 0
    root_data := { ident := WidgetIdent.Num 0, depth := 0 }
    root_children := [some 1]
    tree_data :=
      [(1, { parent_id := 0, children := [],
             data := { ident := WidgetIdent.Num 1, depth := 1 } })] }

/-- A tree with root children 1 (which itself has child 4) and 2; used to
exhibit the destructive overwrite of an occupied slot. -/
def treeC6 : VirtualWidgetTree :=
  { root := 0
    root_data := { ident := WidgetIdent.Num 0, depth := 0 }
    root_children := [some 1, some 2]
    tree_data :=
      [(1, { parent_id := 0, children := [some 4],
             data := { ident := WidgetIdent.Num 1, depth := 1 } }),
       (2, { parent_id := 0, children := [],
             data := { ident := WidgetIdent.Num 2, depth := 1 } }),
       (4, { parent_id := 1, children := [],
             data := { ident := WidgetIdent.Num 4, depth := 2 } })] }

/-- The result of `insert(0, 3, 0, Num 3)` on `treeC6`: widget 3 takes the
root's slot 0 and the displaced occupant 1 is removed with its child 4. -/
def treeC6After : VirtualWidgetTree :=
  { root := 0
    root_data := { ident := WidgetIdent.Num 0, depth := 0 }
    root_children := [some 3, some 2]
    tree_data :=
      [(2, { parent_id := 0, children := [],
             data := { ident := WidgetIdent.Num 2, depth := 1 } }),
       (3, { parent_id := 0, children := [],
             data := { ident := WidgetIdent.Num 3, depth := 1 } })] }

/-- Number of child slots over the whole table referencing widget `c`;
well-formed trees reference every stored widget exactly once (from its
parent's list) and the root never. -/
def refCount (td : List (Nat × WidgetTreeNode)) (c : Nat) : Nat :=
  (td.map (fun e => e.2.children.count (some c))).sum

/-- Reachability along child links in a side table: `ReachTd td a b` holds
when `b` is reached from `a` by following occupied child slots of stored
nodes.  This is the set of nodes `update_node_depth` visits. -/
inductive ReachTd (td : List (Nat × WidgetTreeNode)) : Nat → Nat → Prop where
  | refl (a : Nat) : ReachTd td a a
  | step {a q c : Nat} {n : WidgetTreeNode} :
      ReachTd td a q → lookupNode td q = some n → some c ∈ n.children →
      ReachTd td a c

/-- The link structure of a stored node: its parent pointer and child
slots (everything but the mutable widget data). -/
def nshape (n : WidgetTreeNode) : Nat × List (Option Nat) :=
  (n.parent_id, n.children)

/-- Two side tables with the same keys and the same link structure at
every key; `update_node_depth` only rewrites depths, so it preserves this
relation. -/
def sameShape (td td2 : List (Nat × WidgetTreeNode)) : Prop :=
  td.map Prod.fst = td2.map Prod.fst ∧
  ∀ k, (lookupNode td k).map nshape = (lookupNode td2 k).map nshape

/-- A cycle through `q` along child links: some child of `q` reaches `q`
back.  `update_node_depth` recurses forever exactly on such nodes. -/
def CycAt (td : List (Nat × WidgetTreeNode)) (q : Nat) : Prop :=
  ∃ n, lookupNode td q = some n ∧ ∃ c, some c ∈ n.children ∧ ReachTd td c q

namespace VirtualWidgetTree

/-- Well-formedness of a virtual widget tree.  Every tree reachable from
`VirtualWidgetTree.new` by `insert`/`remove` satisfies it (proved below):
distinct keys, the root outside the table with cached depth 0, every
node's parent resolvable, every node stored in its parent's child list,
every occupied child slot pointing back to a stored node that records
that parent, no widget referenced from two slots, and every node's cached
depth one more than its parent's. -/
def WF (t : VirtualWidgetTree) : Prop :=
  (keys t).Nodup ∧
  t.root ∉ keys t ∧
  t.root_data.depth = 0 ∧
  (∀ e ∈ t.tree_data, e.2.parent_id = t.root ∨ e.2.parent_id ∈ keys t) ∧
  (∀ e ∈ t.tree_data, some e.1 ∈ childrenOf t e.2.parent_id) ∧
  (∀ p ∈ t.root :: keys t, ∀ s ∈ childrenOf t p, ∀ c, s = some c →
      ∃ n, lookupNode t.tree_data c = some n ∧ n.parent_id = p) ∧
  (∀ p ∈ t.root :: keys t, ∀ s ∈ childrenOf t p, s ≠ none →
      (childrenOf t p).count s ≤ 1) ∧
  (∀ e ∈ t.tree_data, e.2.data.depth = depthOf t e.2.parent_id + 1)

instance (t : VirtualWidgetTree) : Decidable (WF t) := by
  unfold WF; infer_instance

/-- The occupant that `insert(parent_id, widget_id, child_index, _)`
displaces from the target slot: the slot's content after the initial
detach of `widget_id` and the padding resize, exactly the code's
`removed_widget_id`. -/
def displacedAt (t : VirtualWidgetTree) (parent_id widget_id child_index : Nat) :
    Option Nat :=
  let children1 := (vec_remove_element (some widget_id) (childrenOf t parent_id)).2
  let children2 :=
    if children1.length ≤ child_index then
      children1 ++ List.replicate (child_index + 1 - children1.length) none
    else children1
  children2.getD child_index none

/-- Well-formedness up to one widget `x` whose membership in its parent's
child list is not required.  This is the state of the tree at the eviction
step inside `insert`: the evicted occupant has been swapped out of the
target slot (so it sits in no child list) but is still stored.  A
well-formed tree satisfies `WFexcept t x` for every `x`. -/
def WFexcept (t : VirtualWidgetTree) (x : Nat) : Prop :=
  (keys t).Nodup ∧
  t.root ∉ keys t ∧
  t.root_data.depth = 0 ∧
  (∀ e ∈ t.tree_data, e.2.parent_id = t.root ∨ e.2.parent_id ∈ keys t) ∧
  (∀ e ∈ t.tree_data, e.1 ≠ x → some e.1 ∈ childrenOf t e.2.parent_id) ∧
  (∀ p ∈ t.root :: keys t, ∀ s ∈ childrenOf t p, ∀ c, s = some c →
      ∃ n, lookupNode t.tree_data c = some n ∧ n.parent_id = p) ∧
  (∀ p ∈ t.root :: keys t, ∀ s ∈ childrenOf t p, s ≠ none →
      (childrenOf t p).count s ≤ 1) ∧
  (∀ e ∈ t.tree_data, e.2.data.depth = depthOf t e.2.parent_id + 1)

end VirtualWidgetTree

/-- Wrapping is a congruence: re-wrapping an already wrapped summand is
absorbed. -/
theorem wrap32_wrap_add (a b : Int) : wrap32 (wrap32 a + b) = wrap32 (a + b) := by
  unfold wrap32
  omega

/-- Wrapping fixes representable values. -/
theorem wrap32_of_isI32 (a : Int) (h : isI32 a) : wrap32 a = a := by
  unfold wrap32 isI32 at *
  omega

/-- Round trip on one coordinate: subtracting and re-adding the same offset
under wrapping returns any representable value unchanged. -/
theorem wrap32_sub_add (a o : Int) (h : isI32 a) :
    wrap32 (wrap32 (a - o) + o) = a := by
  rw [wrap32_wrap_add]
  have : a - o + o = a := by ring
  rw [this, wrap32_of_isI32 a h]

/-- Claim C8: `OffsetWidget::rect()` returns the stored widget rectangle
shifted by the accumulated offset, `set_rect(r)` stores `r` minus the
offset, the rect/set_rect round trip is the identity on representable
rectangles, and neither operation changes the offset or clip fields. -/
theorem offset_widget_rect_set_rect_roundtrip (w : OffsetWidget) (r : BoundBox)
    (h : isI32Rect r) :
    OffsetWidget.rect w = w.widget_rect.addv w.offset ∧
    OffsetWidget.set_rect w r = { w with widget_rect := r.subv w.offset } ∧
    OffsetWidget.rect (OffsetWidget.set_rect w r) = r ∧
    (OffsetWidget.set_rect w r).offset = w.offset ∧
    (OffsetWidget.set_rect w r).clip = w.clip := by
  obtain ⟨h1, h2, h3, h4⟩ := h
  refine ⟨rfl, rfl, ?_, rfl, rfl⟩
  show BoundBox.addv (BoundBox.subv r w.offset) w.offset = r
  unfold BoundBox.addv BoundBox.subv Point2.addv Point2.subv
  cases r with
  | mk rmin rmax =>
    cases rmin; cases rmax
    simp only [BoundBox.mk.injEq, Point2.mk.injEq]
    exact ⟨⟨wrap32_sub_add _ _ h1, wrap32_sub_add _ _ h2⟩,
           wrap32_sub_add _ _ h3, wrap32_sub_add _ _ h4⟩

/-- Witness for claim C8 at a concrete widget and rectangle. -/
theorem offset_widget_rect_set_rect_roundtrip_witness :
    isI32Rect { min := { x := 3, y := 4 }, max := { x := 10, y := 20 } } ∧
    OffsetWidget.rect
      (OffsetWidget.set_rect
        { widget_rect := { min := { x := 0, y := 0 }, max := { x := 1, y := 1 } },
          offset := { x := 7, y := -9 }, clip := none }
        { min := { x := 3, y := 4 }, max := { x := 10, y := 20 } })
      = { min := { x := 3, y := 4 }, max := { x := 10, y := 20 } } :=
  ⟨by decide,
   (offset_widget_rect_set_rect_roundtrip
      { widget_rect := { min := { x := 0, y := 0 }, max := { x := 1, y := 1 } },
        offset := { x := 7, y := -9 }, clip := none }
      { min := { x := 3, y := 4 }, max := { x := 10, y := 20 } }
      (by decide)).2.2.1⟩

/-- Claim C10: cloning a `WidgetTag` does not copy its state — the result
is a freshly constructed tag whose id is newly generated (distinct from
the cloned tag's id and from every previously generated id) with no
registered message handlers and no timers. -/
theorem widget_tag_clone_fresh (t : WidgetTag) (gen : Nat) (generated : List Nat)
    (hgen : ∀ id ∈ generated, id < gen) (ht : t.widget_id ∈ generated) :
    (WidgetTag.clone t gen).1.widget_id ∉ generated ∧
    (WidgetTag.clone t gen).1.widget_id ≠ t.widget_id ∧
    (WidgetTag.clone t gen).1.registered_messages = [] ∧
    (WidgetTag.clone t gen).1.timers = [] := by
  have hclone : (WidgetTag.clone t gen).1.widget_id = gen := rfl
  refine ⟨?_, ?_, rfl, rfl⟩
  · intro hmem
    rw [hclone] at hmem
    exact absurd (hgen gen hmem) (lt_irrefl gen)
  · intro heq
    have hlt := hgen t.widget_id ht
    rw [hclone] at heq
    omega

/-- Witness for claim C10: cloning a tag with id 2 under generator state 5
yields a fresh tag with id 5 and empty handler and timer tables. -/
theorem widget_tag_clone_fresh_witness :
    (WidgetTag.clone sampleTag 5).1.widget_id ∉ [0, 1, 2, 3, 4] ∧
    (WidgetTag.clone sampleTag 5).1.widget_id ≠ sampleTag.widget_id ∧
    (WidgetTag.clone sampleTag 5).1.registered_messages = [] ∧
    (WidgetTag.clone sampleTag 5).1.timers = [] :=
  widget_tag_clone_fresh sampleTag 5 [0, 1, 2, 3, 4] (by decide) (by decide)

/-- Claim C7 (code bug): on an input state with a tracked position and a
resolvable hover widget, translating `MouseDown(0)` enqueues the mouse-down
event and records the button as held — but translating the matching
`MouseUp(0)` then panics (the source builds the `MouseUp` event with
`pressed_in_widget: unimplemented!()`), so no `MouseUp` event is ever
enqueued; a `MouseUp` whose button is not recorded as held enqueues
nothing and leaves the state unchanged. -/
theorem mouse_up_hits_unimplemented :
    translate_window_event mouseTree (MouseWindowEvent.MouseDown 0) mouseState [] =
      some ({ mouseState with mouse_buttons_down := [(0, { x := 10, y := 10 })] },
            [{ destination := 5,
               event := WidgetEventM.MouseDown { x := 10, y := 10 } true 0 }]) ∧
    translate_window_event mouseTree (MouseWindowEvent.MouseUp 0)
      { mouseState with mouse_buttons_down := [(0, { x := 10, y := 10 })] }
      [{ destination := 5,
         event := WidgetEventM.MouseDown { x := 10, y := 10 } true 0 }] = none ∧
    translate_window_event mouseTree (MouseWindowEvent.MouseUp 0) mouseState [] =
      some (mouseState, []) := by
  decide

/-!  Concrete trees for the tree-operation counterexamples. -/

/-- Counterexample to claim C3 as stated: in the reachable tree with the
single child 1 inserted at slot 1 (slot 0 an empty placeholder),
widget 1 is present yet `sibling_wrapping(1, 1)` returns `None` — the
wrapped index lands on the empty slot and the function returns the raw
slot content. -/
theorem sibling_wrapping_sparse_counterexample :
    (applyOps (VirtualWidgetTree.new 0) [TreeOp.insert 0 1 1 (WidgetIdent.Num 1)]).map
        (fun t => ((VirtualWidgetTree.get_widget_node t 1).isSome,
                   t.root_children,
                   VirtualWidgetTree.sibling_wrapping t 1 1)) =
      some (true, [none, some 1], some none) := by
  decide

/-- Counterexample to claim C4 as stated: in a fresh tree the root id 0 is
present (`get_widget` succeeds on it), yet `remove(0)` returns `None`
and leaves the tree unchanged — so "every widget id present in the tree"
must exclude the root. -/
theorem remove_root_counterexample :
    VirtualWidgetTree.get_widget (VirtualWidgetTree.new 0) 0 =
      some { ident := ROOT_IDENT, depth := 0 } ∧
    VirtualWidgetTree.remove (VirtualWidgetTree.new 0) 0 =
      some (none, VirtualWidgetTree.new 0) := by
  decide

/-- Counterexample to claim C5 as stated: on the reachable tree with root
children `[1, 2]`, the call `insert(0, 3, 0, Num 3)` succeeds; applying it
once yields root children `[3, 2]` (widget 1 evicted), but applying the
identical call a second time yields root children `[3]` (widget 2 now
evicted as well) — the second application differs from the first, so the
insert is not idempotent. -/
theorem insert_repeat_counterexample :
    applyOps (VirtualWidgetTree.new 0)
        [TreeOp.insert 0 1 0 (WidgetIdent.Num 1),
         TreeOp.insert 0 2 1 (WidgetIdent.Num 2)] = some treeTwoChildren ∧
    VirtualWidgetTree.insert treeTwoChildren 0 3 0 (WidgetIdent.Num 3) =
      some (Except.ok treeRepeatOnce) ∧
    VirtualWidgetTree.insert treeRepeatOnce 0 3 0 (WidgetIdent.Num 3) =
      some (Except.ok treeRepeatTwice) ∧
    treeRepeatOnce ≠ treeRepeatTwice := by
  decide

/-- Counterexample to claim C6 as stated: on the reachable tree with root
children `[1, 2, 3]`, the slot at index 2 is occupied by widget 3 before
the call, and `insert(0, 1, 2, Num 1)` succeeds (re-parenting widget 1 into
slot 2); yet widget 3 is still present afterwards — detaching widget 1
first shifts the list, so the pre-call occupant of the target slot is not
the widget that gets evicted. -/
theorem insert_evict_counterexample :
    applyOps (VirtualWidgetTree.new 0)
        [TreeOp.insert 0 1 0 (WidgetIdent.Num 1),
         TreeOp.insert 0 2 1 (WidgetIdent.Num 2),
         TreeOp.insert 0 3 2 (WidgetIdent.Num 3)] = some treeThreeChildren ∧
    treeThreeChildren.root_children.getD 2 none = some 3 ∧
    VirtualWidgetTree.insert treeThreeChildren 0 1 2 (WidgetIdent.Num 1) =
      some (Except.ok treeShifted) ∧
    treeShifted.root_children = [some 2, some 3, some 1] ∧
    VirtualWidgetTree.present treeShifted 3 := by
  decide

/-- Unfolding lemma for lookup on a cons cell. -/
theorem lookupNode_cons (e : Nat × WidgetTreeNode)
    (rest : List (Nat × WidgetTreeNode)) (k : Nat) :
    lookupNode (e :: rest) k = if e.1 = k then some e.2 else lookupNode rest k := by
  obtain ⟨a, b⟩ := e
  rfl

/-- Lookup succeeds exactly on the stored keys. -/
theorem lookupNode_isSome_iff (td : List (Nat × WidgetTreeNode)) (k : Nat) :
    (lookupNode td k).isSome ↔ k ∈ td.map Prod.fst := by
  induction td with
  | nil => simp [lookupNode]
  | cons e rest ih =>
    obtain ⟨k2, n⟩ := e
    by_cases h : k2 = k
    · subst h; simp [lookupNode]
    · simp [lookupNode, h, ih, Ne.symm h]

/-- A successful lookup returns a stored entry. -/
theorem mem_of_lookupNode_eq_some {td : List (Nat × WidgetTreeNode)} {k : Nat}
    {n : WidgetTreeNode} (h : lookupNode td k = some n) : (k, n) ∈ td := by
  induction td with
  | nil => simp [lookupNode] at h
  | cons e rest ih =>
    obtain ⟨k2, n2⟩ := e
    by_cases hk : k2 = k
    · subst hk
      simp [lookupNode] at h
      simp [h]
    · simp [lookupNode, hk] at h
      exact List.mem_cons_of_mem _ (ih h)

/-- With distinct keys, every stored entry is found by lookup. -/
theorem lookupNode_eq_some_of_mem {td : List (Nat × WidgetTreeNode)}
    (hnd : (td.map Prod.fst).Nodup) {k : Nat} {n : WidgetTreeNode}
    (hm : (k, n) ∈ td) : lookupNode td k = some n := by
  induction td with
  | nil => simp at hm
  | cons e rest ih =>
    obtain ⟨k2, n2⟩ := e
    simp only [List.map_cons, List.nodup_cons] at hnd
    rcases List.mem_cons.mp hm with h | h
    · injection h with h1 h2
      subst h1; subst h2
      simp [lookupNode]
    · have hne : k2 ≠ k := by
        intro hc
        subst hc
        exact hnd.1 (List.mem_map.mpr ⟨(k2, n), h, rfl⟩)
      simp only [lookupNode, if_neg hne]
      exact ih hnd.2 h

/-- Mapping at a key preserves the key list. -/
theorem mapNode_keys (td : List (Nat × WidgetTreeNode)) (k : Nat)
    (f : WidgetTreeNode → WidgetTreeNode) :
    (mapNode td k f).map Prod.fst = td.map Prod.fst := by
  induction td with
  | nil => rfl
  | cons e rest ih =>
    obtain ⟨k2, n⟩ := e
    by_cases h : k2 = k <;> simp [mapNode, h, ih]

/-- Lookup after mapping at the same key. -/
theorem lookupNode_mapNode_self (td : List (Nat × WidgetTreeNode)) (k : Nat)
    (f : WidgetTreeNode → WidgetTreeNode) :
    lookupNode (mapNode td k f) k = (lookupNode td k).map f := by
  induction td with
  | nil => rfl
  | cons e rest ih =>
    obtain ⟨k2, n⟩ := e
    by_cases h : k2 = k
    · subst h
      rw [mapNode, if_pos rfl, lookupNode_cons, lookupNode_cons]
      simp
    · rw [mapNode, if_neg h, lookupNode_cons, lookupNode_cons]
      simp [h, ih]

/-- Lookup after mapping at a different key. -/
theorem lookupNode_mapNode_ne (td : List (Nat × WidgetTreeNode)) {k j : Nat}
    (f : WidgetTreeNode → WidgetTreeNode) (h : j ≠ k) :
    lookupNode (mapNode td k f) j = lookupNode td j := by
  induction td with
  | nil => rfl
  | cons e rest ih =>
    obtain ⟨k2, n⟩ := e
    by_cases h2 : k2 = k
    · subst h2
      rw [mapNode, if_pos rfl, lookupNode_cons, lookupNode_cons]
      simp [Ne.symm h, ih]
    · rw [mapNode, if_neg h2, lookupNode_cons, lookupNode_cons]
      by_cases h3 : k2 = j <;> simp [h3, ih]

/-- Lookup after erasing the same key. -/
theorem lookupNode_eraseNode_self (td : List (Nat × WidgetTreeNode)) (k : Nat) :
    lookupNode (eraseNode td k) k = none := by
  induction td with
  | nil => rfl
  | cons e rest ih =>
    obtain ⟨k2, n⟩ := e
    by_cases h : k2 = k <;> simp [eraseNode, lookupNode, h, ih]

/-- Lookup after erasing a different key. -/
theorem lookupNode_eraseNode_ne (td : List (Nat × WidgetTreeNode)) {k j : Nat}
    (h : j ≠ k) : lookupNode (eraseNode td k) j = lookupNode td j := by
  induction td with
  | nil => rfl
  | cons e rest ih =>
    obtain ⟨k2, n⟩ := e
    by_cases h2 : k2 = k
    · subst h2
      rw [eraseNode, if_pos rfl, lookupNode_cons]
      simp [Ne.symm h, ih]
    · rw [eraseNode, if_neg h2, lookupNode_cons, lookupNode_cons]
      by_cases h3 : k2 = j <;> simp [h3, ih]

/-- Key membership after erasing. -/
theorem mem_keys_eraseNode (td : List (Nat × WidgetTreeNode)) (k j : Nat) :
    j ∈ (eraseNode td k).map Prod.fst ↔ j ∈ td.map Prod.fst ∧ j ≠ k := by
  induction td with
  | nil => simp [eraseNode]
  | cons e rest ih =>
    obtain ⟨k2, n⟩ := e
    by_cases h : k2 = k
    · subst h
      rw [eraseNode, if_pos rfl, ih]
      simp only [List.map_cons, List.mem_cons]
      constructor
      · rintro ⟨h1, h2⟩
        exact ⟨Or.inr h1, h2⟩
      · rintro ⟨h1 | h1, h2⟩
        · exact absurd h1 h2
        · exact ⟨h1, h2⟩
    · rw [eraseNode, if_neg h]
      simp only [List.map_cons, List.mem_cons, ih]
      constructor
      · rintro (h1 | ⟨h1, h2⟩)
        · exact ⟨Or.inl h1, fun hc => h (h1.symm.trans hc)⟩
        · exact ⟨Or.inr h1, h2⟩
      · rintro ⟨h1 | h1, h2⟩
        · exact Or.inl h1
        · exact Or.inr ⟨h1, h2⟩

/-- Erasing yields a sublist of the table. -/
theorem eraseNode_sublist (td : List (Nat × WidgetTreeNode)) (k : Nat) :
    (eraseNode td k).Sublist td := by
  induction td with
  | nil => simp [eraseNode]
  | cons e rest ih =>
    obtain ⟨k2, n⟩ := e
    by_cases h : k2 = k
    · rw [eraseNode, if_pos h]
      exact ih.cons (k2, n)
    · rw [eraseNode, if_neg h]
      exact ih.cons₂ (k2, n)

/-- Erasing preserves key distinctness. -/
theorem eraseNode_keys_nodup {td : List (Nat × WidgetTreeNode)}
    (h : (td.map Prod.fst).Nodup) (k : Nat) :
    ((eraseNode td k).map Prod.fst).Nodup :=
  ((eraseNode_sublist td k).map Prod.fst).nodup h

/-- Entries of an erased table are entries of the table. -/
theorem mem_of_mem_eraseNode {td : List (Nat × WidgetTreeNode)} {k : Nat}
    {e : Nat × WidgetTreeNode} (h : e ∈ eraseNode td k) : e ∈ td :=
  (eraseNode_sublist td k).mem h

/-- Lookup distributes over append. -/
theorem lookupNode_append (td td2 : List (Nat × WidgetTreeNode)) (k : Nat) :
    lookupNode (td ++ td2) k =
      match lookupNode td k with
      | some n => some n
      | none => lookupNode td2 k := by
  induction td with
  | nil => simp [lookupNode]
  | cons e rest ih =>
    obtain ⟨k2, n⟩ := e
    by_cases h : k2 = k <;> simp [lookupNode, h, ih]

/-- The element search fails exactly on absent elements. -/
theorem find_index_eq_none_iff {α : Type} [DecidableEq α] (x : α) (l : List α) :
    find_index x l = none ↔ x ∉ l := by
  induction l with
  | nil => simp [find_index]
  | cons a as ih =>
    by_cases h : a = x
    · subst h; simp [find_index]
    · rw [find_index, if_neg h]
      rw [List.mem_cons, not_or]
      constructor
      · intro hn
        refine ⟨fun hc => h hc.symm, ?_⟩
        rw [← ih]
        cases hfi : find_index x as with
        | none => rfl
        | some i => rw [hfi] at hn; simp at hn
      · rintro ⟨h1, h2⟩
        rw [← ih] at h2
        rw [h2]
        rfl

/-- The element search succeeds exactly on present elements. -/
theorem find_index_isSome_iff {α : Type} [DecidableEq α] (x : α) (l : List α) :
    (find_index x l).isSome ↔ x ∈ l := by
  rw [← Decidable.not_iff_not, ← find_index_eq_none_iff x l]
  cases find_index x l <;> simp

/-- A found index is in range and points at the element. -/
theorem find_index_get {α : Type} [DecidableEq α] {x : α} {l : List α} {i : Nat}
    (h : find_index x l = some i) : i < l.length ∧ l.get? i = some x := by
  induction l generalizing i with
  | nil => simp [find_index] at h
  | cons a as ih =>
    by_cases ha : a = x
    · subst ha
      simp [find_index] at h
      subst h
      simp
    · simp [find_index, ha] at h
      obtain ⟨j, hj, hij⟩ := h
      subst hij
      obtain ⟨h1, h2⟩ := ih hj
      constructor
      · simpa using Nat.succ_lt_succ h1
      · simpa using h2

/-- The removal helper removes the first occurrence, like `List.erase`. -/
theorem vre_snd_eq_erase (x : Option Nat) (l : List (Option Nat)) :
    (vec_remove_element x l).2 = l.erase x := by
  induction l with
  | nil => rfl
  | cons a as ih =>
    by_cases h : a = x
    · subst h
      simp [vec_remove_element, find_index, List.eraseIdx]
    · rw [List.erase_cons_tail (by simp [h])]
      simp only [vec_remove_element, find_index, if_neg h] at ih ⊢
      cases hfi : find_index x as with
      | none => simp [hfi] at ih ⊢; exact ih
      | some i => simp [hfi, List.eraseIdx] at ih ⊢; exact ih

/-- The removal helper reports whether the element was present. -/
theorem vre_fst_isSome_iff {α : Type} [DecidableEq α] (x : α) (l : List α) :
    (vec_remove_element x l).1.isSome ↔ x ∈ l := by
  rw [← find_index_isSome_iff]
  unfold vec_remove_element
  cases find_index x l <;> simp

/-- Trimming trailing empties yields a sublist. -/
theorem trimNones_sublist (l : List (Option Nat)) : (trimNones l).Sublist l := by
  induction l with
  | nil => simp [trimNones]
  | cons a as ih =>
    simp only [trimNones]
    by_cases h : trimNones as = [] ∧ a = none
    · rw [if_pos h]
      exact List.nil_sublist _
    · rw [if_neg h]
      exact ih.cons₂ a

/-- Trimming drops only `none` entries: occupied-slot counts are
preserved. -/
theorem trimNones_count_some (l : List (Option Nat)) (c : Nat) :
    (trimNones l).count (some c) = l.count (some c) := by
  induction l with
  | nil => simp [trimNones]
  | cons a as ih =>
    simp only [trimNones]
    by_cases h : trimNones as = [] ∧ a = none
    · obtain ⟨h1, h2⟩ := h
      subst h2
      rw [if_pos ⟨h1, rfl⟩]
      have : as.count (some c) = 0 := by rw [← ih, h1]; rfl
      simp [List.count_cons, this]
    · rw [if_neg h]
      simp [List.count_cons, ih]

/-- Trimming preserves membership of occupied slots. -/
theorem trimNones_mem_some (l : List (Option Nat)) (c : Nat) :
    some c ∈ trimNones l ↔ some c ∈ l := by
  rw [← List.count_pos_iff, ← List.count_pos_iff, trimNones_count_some]

/-- Padding with empties preserves occupied-slot counts. -/
theorem count_some_append_replicate (l : List (Option Nat)) (k : Nat) (c : Nat) :
    (l ++ List.replicate k none).count (some c) = l.count (some c) := by
  simp [List.count_append, List.count_replicate]

/-- Erasing one occurrence: counts of other elements are preserved, the
erased element loses one occurrence. -/
theorem count_erase_some (l : List (Option Nat)) (c : Nat) (s : Option Nat) :
    (l.erase (some c)).count s =
      if s = some c then l.count s - 1 else l.count s := by
  by_cases h : s = some c
  · subst h; simp [List.count_erase_self]
  · simp [h, List.count_erase_of_ne h]

/-- Unfolding equation for node access. -/
theorem get_widget_node_eq (t : VirtualWidgetTree) (id : Nat) :
    VirtualWidgetTree.get_widget_node t id =
      if t.root = id then some (t.root_data, t.root_children)
      else (lookupNode t.tree_data id).map (fun n => (n.data, n.children)) := rfl

/-- Node access at the root. -/
theorem get_widget_node_root (t : VirtualWidgetTree) :
    VirtualWidgetTree.get_widget_node t t.root = some (t.root_data, t.root_children) := by
  rw [get_widget_node_eq, if_pos rfl]

/-- The child list of the root. -/
theorem childrenOf_root (t : VirtualWidgetTree) :
    VirtualWidgetTree.childrenOf t t.root = t.root_children := by
  unfold VirtualWidgetTree.childrenOf
  rw [get_widget_node_root]

/-- The child list of a stored node. -/
theorem childrenOf_of_lookup {t : VirtualWidgetTree} {id : Nat}
    {n : WidgetTreeNode} (hne : t.root ≠ id)
    (h : lookupNode t.tree_data id = some n) :
    VirtualWidgetTree.childrenOf t id = n.children := by
  unfold VirtualWidgetTree.childrenOf
  rw [get_widget_node_eq, if_neg hne, h]
  rfl

/-- The child list of an id that is neither the root nor stored. -/
theorem childrenOf_of_none {t : VirtualWidgetTree} {id : Nat}
    (hne : t.root ≠ id) (h : lookupNode t.tree_data id = none) :
    VirtualWidgetTree.childrenOf t id = [] := by
  unfold VirtualWidgetTree.childrenOf
  rw [get_widget_node_eq, if_neg hne, h]
  rfl

/-- The cached depth of the root. -/
theorem depthOf_root (t : VirtualWidgetTree) :
    VirtualWidgetTree.depthOf t t.root = t.root_data.depth := by
  unfold VirtualWidgetTree.depthOf
  rw [get_widget_node_root]

/-- The cached depth of a stored node. -/
theorem depthOf_of_lookup {t : VirtualWidgetTree} {id : Nat}
    {n : WidgetTreeNode} (hne : t.root ≠ id)
    (h : lookupNode t.tree_data id = some n) :
    VirtualWidgetTree.depthOf t id = n.data.depth := by
  unfold VirtualWidgetTree.depthOf
  rw [get_widget_node_eq, if_neg hne, h]
  rfl

/-- Writing a child list does not move the root. -/
theorem setChildren_root (t : VirtualWidgetTree) (p : Nat) (l : List (Option Nat)) :
    (VirtualWidgetTree.setChildren t p l).root = t.root := by
  unfold VirtualWidgetTree.setChildren
  split <;> rfl

/-- Writing a child list does not touch the root data. -/
theorem setChildren_root_data (t : VirtualWidgetTree) (p : Nat) (l : List (Option Nat)) :
    (VirtualWidgetTree.setChildren t p l).root_data = t.root_data := by
  unfold VirtualWidgetTree.setChildren
  split <;> rfl

/-- The root child list after writing a child list. -/
theorem setChildren_root_children (t : VirtualWidgetTree) (p : Nat)
    (l : List (Option Nat)) :
    (VirtualWidgetTree.setChildren t p l).root_children =
      if t.root = p then l else t.root_children := by
  unfold VirtualWidgetTree.setChildren
  split <;> simp_all

/-- The side table after writing a child list. -/
theorem setChildren_tree_data (t : VirtualWidgetTree) (p : Nat)
    (l : List (Option Nat)) :
    (VirtualWidgetTree.setChildren t p l).tree_data =
      if t.root = p then t.tree_data
      else mapNode t.tree_data p (fun n => { n with children := l }) := by
  unfold VirtualWidgetTree.setChildren
  split <;> simp_all

/-- Writing a child list preserves the key list. -/
theorem setChildren_keys (t : VirtualWidgetTree) (p : Nat) (l : List (Option Nat)) :
    VirtualWidgetTree.keys (VirtualWidgetTree.setChildren t p l) =
      VirtualWidgetTree.keys t := by
  unfold VirtualWidgetTree.keys
  rw [setChildren_tree_data]
  split
  · rfl
  · exact mapNode_keys t.tree_data p _

/-- A well-formed tree is well-formed up to any widget. -/
theorem VirtualWidgetTree.WF.toExcept {t : VirtualWidgetTree}
    (h : VirtualWidgetTree.WF t) (x : Nat) : VirtualWidgetTree.WFexcept t x := by
  obtain ⟨h1, h2, h3, h4, h5, h6, h7, h8⟩ := h
  exact ⟨h1, h2, h3, h4, fun e he _ => h5 e he, h6, h7, h8⟩

/-- Erasing an absent key is a no-op. -/
theorem eraseNode_of_lookup_none {td : List (Nat × WidgetTreeNode)} {k : Nat}
    (h : lookupNode td k = none) : eraseNode td k = td := by
  induction td with
  | nil => rfl
  | cons e rest ih =>
    obtain ⟨k2, n2⟩ := e
    rw [lookupNode_cons] at h
    simp only at h
    by_cases hk : k2 = k
    · rw [if_pos hk] at h
      exact absurd h (by simp)
    · rw [if_neg hk] at h
      rw [eraseNode, if_neg hk, ih h]

/-- Unfolding for `refCount` on a cons cell. -/
theorem refCount_cons (e : Nat × WidgetTreeNode) (td : List (Nat × WidgetTreeNode))
    (c : Nat) :
    refCount (e :: td) c = e.2.children.count (some c) + refCount td c := by
  simp [refCount]

/-- A stored entry contributes at most the whole reference count. -/
theorem count_le_refCount {td : List (Nat × WidgetTreeNode)}
    {k : Nat} {n : WidgetTreeNode} (h : (k, n) ∈ td) (c : Nat) :
    n.children.count (some c) ≤ refCount td c := by
  induction td with
  | nil => simp at h
  | cons e rest ih =>
    rw [refCount_cons]
    rcases List.mem_cons.mp h with h1 | h1
    · subst h1
      exact Nat.le_add_right _ _
    · exact Nat.le_add_left .. |>.trans (Nat.add_le_add_left (ih h1) _)

/-- Reference counts after erasing a stored key. -/
theorem refCount_eraseNode {td : List (Nat × WidgetTreeNode)}
    (hnd : (td.map Prod.fst).Nodup) {k : Nat} {n : WidgetTreeNode}
    (h : lookupNode td k = some n) (c : Nat) :
    refCount (eraseNode td k) c = refCount td c - n.children.count (some c) := by
  induction td with
  | nil => simp [lookupNode] at h
  | cons e rest ih =>
    obtain ⟨k2, n2⟩ := e
    simp only [List.map_cons, List.nodup_cons] at hnd
    by_cases hk : k2 = k
    · subst hk
      rw [lookupNode_cons] at h
      simp at h
      subst h
      rw [eraseNode, if_pos rfl, refCount_cons]
      have hnone : lookupNode rest k2 = none := by
        cases hh : lookupNode rest k2 with
        | none => rfl
        | some m =>
          exact absurd (List.mem_map.mpr ⟨(k2, m), mem_of_lookupNode_eq_some hh, rfl⟩)
            hnd.1
      rw [eraseNode_of_lookup_none hnone]
      simp [Nat.add_sub_cancel_left]
    · rw [lookupNode_cons] at h
      simp only at h
      rw [if_neg hk] at h
      rw [eraseNode, if_neg hk, refCount_cons, refCount_cons, ih hnd.2 h]
      have := count_le_refCount (mem_of_lookupNode_eq_some h) c
      omega

/-- Erasing never increases a reference count. -/
theorem refCount_eraseNode_le (td : List (Nat × WidgetTreeNode)) (k c : Nat) :
    refCount (eraseNode td k) c ≤ refCount td c := by
  induction td with
  | nil => simp [eraseNode]
  | cons e rest ih =>
    obtain ⟨k2, n2⟩ := e
    by_cases hk : k2 = k
    · rw [eraseNode, if_pos hk, refCount_cons]
      omega
    · rw [eraseNode, if_neg hk, refCount_cons, refCount_cons]
      omega

/-- Reference counts after replacing the child list of a stored key. -/
theorem refCount_mapNode_children {td : List (Nat × WidgetTreeNode)}
    (hnd : (td.map Prod.fst).Nodup) {k : Nat} {n : WidgetTreeNode}
    (h : lookupNode td k = some n) (l : List (Option Nat)) (c : Nat) :
    refCount (mapNode td k (fun m => { m with children := l })) c =
      refCount td c - n.children.count (some c) + l.count (some c) := by
  induction td with
  | nil => simp [lookupNode] at h
  | cons e rest ih =>
    obtain ⟨k2, n2⟩ := e
    simp only [List.map_cons, List.nodup_cons] at hnd
    by_cases hk : k2 = k
    · subst hk
      rw [lookupNode_cons] at h
      simp at h
      subst h
      rw [mapNode, if_pos rfl, refCount_cons, refCount_cons]
      have heq : refCount (mapNode rest k2 (fun m => { m with children := l })) c =
          refCount rest c := by
        clear ih
        induction rest with
        | nil => rfl
        | cons e2 rest2 ih2 =>
          obtain ⟨k3, n3⟩ := e2
          simp only [List.map_cons] at hnd
          have hk3 : k3 ≠ k2 := by
            intro hc
            subst hc
            exact hnd.1 (by simp)
          rw [mapNode, if_neg hk3, refCount_cons, refCount_cons]
          have hnd2 : k2 ∉ List.map Prod.fst rest2 ∧ (List.map Prod.fst rest2).Nodup := by
            constructor
            · intro hc
              exact hnd.1 (List.mem_cons_of_mem _ hc)
            · exact hnd.2.of_cons
          exact congrArg _ (ih2 ⟨hnd2.1, hnd2.2⟩)
      rw [heq]
      simp
      omega
    · rw [lookupNode_cons] at h
      simp only at h
      rw [if_neg hk] at h
      rw [mapNode, if_neg hk, refCount_cons, refCount_cons, ih hnd.2 h]
      have := count_le_refCount (mem_of_lookupNode_eq_some h) c
      omega

/-- Total size after erasing a stored key. -/
theorem totalSize_eraseNode {td : List (Nat × WidgetTreeNode)}
    (hnd : (td.map Prod.fst).Nodup) {k : Nat} {n : WidgetTreeNode}
    (h : lookupNode td k = some n) :
    VirtualWidgetTree.totalSize (eraseNode td k) =
      VirtualWidgetTree.totalSize td - (n.children.length + 1) := by
  induction td with
  | nil => simp [lookupNode] at h
  | cons e rest ih =>
    obtain ⟨k2, n2⟩ := e
    simp only [List.map_cons, List.nodup_cons] at hnd
    by_cases hk : k2 = k
    · subst hk
      rw [lookupNode_cons] at h
      simp at h
      subst h
      rw [eraseNode, if_pos rfl]
      have hnone : lookupNode rest k2 = none := by
        cases hh : lookupNode rest k2 with
        | none => rfl
        | some m =>
          exact absurd (List.mem_map.mpr ⟨(k2, m), mem_of_lookupNode_eq_some hh, rfl⟩)
            hnd.1
      rw [eraseNode_of_lookup_none hnone]
      unfold VirtualWidgetTree.totalSize
      simp [Nat.add_sub_cancel_left]
    · rw [lookupNode_cons] at h
      simp only at h
      rw [if_neg hk] at h
      rw [eraseNode, if_neg hk]
      unfold VirtualWidgetTree.totalSize at ih ⊢
      simp only [List.map_cons, List.sum_cons]
      rw [ih hnd.2 h]
      have hmem : (k, n) ∈ rest := mem_of_lookupNode_eq_some h
      have : n.children.length + 1 ≤ VirtualWidgetTree.totalSize rest := by
        unfold VirtualWidgetTree.totalSize
        calc n.children.length + 1 = ((k, n).2.children.length + 1) := rfl
        _ ≤ _ := List.single_le_sum (by simp) _ (List.mem_map.mpr ⟨(k, n), hmem, rfl⟩)
      unfold VirtualWidgetTree.totalSize at this
      omega

/-- Structure of a completed removal loop: the resulting table is a
restriction of the input table (entries survive unchanged or are gone). -/
theorem removeLoop_lookup (fuel : Nat) :
    ∀ (td : List (Nat × WidgetTreeNode)) (queue : List (Option Nat))
      (res : List (Nat × WidgetTreeNode)),
      VirtualWidgetTree.removeLoop fuel td queue = some res →
      ∀ k, lookupNode res k = lookupNode td k ∨ lookupNode res k = none := by
  induction fuel with
  | zero => intro td queue res h; simp [VirtualWidgetTree.removeLoop] at h
  | succ f ih =>
    intro td queue res h k
    match queue with
    | [] =>
      simp [VirtualWidgetTree.removeLoop] at h
      subst h
      exact Or.inl rfl
    | none :: rest =>
      exact ih td rest res h k
    | some rid :: rest =>
      simp only [VirtualWidgetTree.removeLoop] at h
      cases hl : lookupNode td rid with
      | none => rw [hl] at h; exact absurd h (by simp)
      | some node =>
        rw [hl] at h
        rcases ih _ _ _ h k with h2 | h2
        · by_cases hk : k = rid
          · subst hk
            rw [lookupNode_eraseNode_self] at h2
            exact Or.inr h2
          · rw [lookupNode_eraseNode_ne _ hk] at h2
            exact Or.inl h2
        · exact Or.inr h2

/-- A missing key stays missing through the removal loop. -/
theorem removeLoop_none_stable (fuel : Nat) :
    ∀ (td : List (Nat × WidgetTreeNode)) (queue : List (Option Nat))
      (res : List (Nat × WidgetTreeNode)),
      VirtualWidgetTree.removeLoop fuel td queue = some res →
      ∀ k, lookupNode td k = none → lookupNode res k = none := by
  intro td queue res h k hk
  rcases removeLoop_lookup fuel td queue res h k with h2 | h2
  · rw [h2, hk]
  · exact h2

/-- Every widget queued for removal is gone from the result. -/
theorem removeLoop_queued_gone (fuel : Nat) :
    ∀ (td : List (Nat × WidgetTreeNode)) (queue : List (Option Nat))
      (res : List (Nat × WidgetTreeNode)),
      VirtualWidgetTree.removeLoop fuel td queue = some res →
      ∀ c, some c ∈ queue → lookupNode res c = none := by
  induction fuel with
  | zero => intro td queue res h; simp [VirtualWidgetTree.removeLoop] at h
  | succ f ih =>
    intro td queue res h c hc
    match queue with
    | [] => simp at hc
    | none :: rest =>
      rcases List.mem_cons.mp hc with h1 | h1
      · exact absurd h1 (by simp)
      · exact ih td rest res h c h1
    | some rid :: rest =>
      simp only [VirtualWidgetTree.removeLoop] at h
      cases hl : lookupNode td rid with
      | none => rw [hl] at h; exact absurd h (by simp)
      | some node =>
        rw [hl] at h
        rcases List.mem_cons.mp hc with h1 | h1
        · injection h1 with h1
          subst h1
          exact removeLoop_none_stable f _ _ _ h c (lookupNode_eraseNode_self _ _)
        · exact ih _ _ _ h c (List.mem_append_left _ h1)

/-- Removal cascades: if a stored widget is gone from the result, so are
all the widgets in its child list. -/
theorem removeLoop_cascade (fuel : Nat) :
    ∀ (td : List (Nat × WidgetTreeNode)) (queue : List (Option Nat))
      (res : List (Nat × WidgetTreeNode)),
      VirtualWidgetTree.removeLoop fuel td queue = some res →
      ∀ c n, lookupNode td c = some n → lookupNode res c = none →
        ∀ d, some d ∈ n.children → lookupNode res d = none := by
  induction fuel with
  | zero => intro td queue res h; simp [VirtualWidgetTree.removeLoop] at h
  | succ f ih =>
    intro td queue res h c n hc hcres d hd
    match queue with
    | [] =>
      simp [VirtualWidgetTree.removeLoop] at h
      subst h
      rw [hc] at hcres
      exact absurd hcres (by simp)
    | none :: rest =>
      exact ih td rest res h c n hc hcres d hd
    | some rid :: rest =>
      simp only [VirtualWidgetTree.removeLoop] at h
      cases hl : lookupNode td rid with
      | none => rw [hl] at h; exact absurd h (by simp)
      | some node =>
        rw [hl] at h
        by_cases hcrid : c = rid
        · subst hcrid
          rw [hc] at hl
          injection hl with hl
          subst hl
          exact removeLoop_queued_gone f _ _ _ h d (List.mem_append_right _ hd)
        · have hc2 : lookupNode (eraseNode td c) c = none := lookupNode_eraseNode_self _ _
          have hc3 : lookupNode (eraseNode td rid) c = some n := by
            rw [lookupNode_eraseNode_ne _ hcrid, hc]
          exact ih _ _ _ h c n hc3 hcres d hd

/-- A stored entry contributes its slot count plus one to the total size. -/
theorem totalSize_ge {td : List (Nat × WidgetTreeNode)} {k : Nat}
    {n : WidgetTreeNode} (h : lookupNode td k = some n) :
    n.children.length + 1 ≤ VirtualWidgetTree.totalSize td := by
  have hmem : (k, n) ∈ td := mem_of_lookupNode_eq_some h
  unfold VirtualWidgetTree.totalSize
  calc n.children.length + 1 = ((k, n).2.children.length + 1) := rfl
  _ ≤ _ := List.single_le_sum (by simp) _ (List.mem_map.mpr ⟨(k, n), hmem, rfl⟩)

/-- Completion of the removal loop.  Under the loop invariant — every
queued id resolves, queued ids are pairwise distinct and unreferenced,
child slots point into the table, reference counts are at most one, and a
depth measure `dp` increases along child links and exceeds `D` on the
queue — the loop never panics, and every key it erases has measure above
`D`. -/
theorem removeLoop_run (fuel : Nat) :
    ∀ (td : List (Nat × WidgetTreeNode)) (queue : List (Option Nat))
      (dp : Nat → Nat) (D : Nat),
      queue.length + VirtualWidgetTree.totalSize td < fuel →
      (td.map Prod.fst).Nodup →
      (∀ c, some c ∈ queue → (lookupNode td c).isSome) →
      (∀ c, some c ∈ queue → queue.count (some c) ≤ 1) →
      (∀ c, some c ∈ queue → refCount td c = 0) →
      (∀ k n, lookupNode td k = some n → ∀ c, some c ∈ n.children →
        (lookupNode td c).isSome) →
      (∀ c, refCount td c ≤ 1) →
      (∀ c, some c ∈ queue → D < dp c) →
      (∀ k n, lookupNode td k = some n → ∀ c, some c ∈ n.children →
        dp k < dp c) →
      ∃ res, VirtualWidgetTree.removeLoop fuel td queue = some res ∧
        (∀ k n, lookupNode td k = some n → lookupNode res k = none →
          D < dp k) := by
  induction fuel with
  | zero =>
    intro td queue dp D hfuel
    omega
  | succ f ih =>
    intro td queue dp D hfuel hnd hq1 hq2 hq3 hc1 hc2 hdq hde
    match queue with
    | [] =>
      refine ⟨td, by simp [VirtualWidgetTree.removeLoop], ?_⟩
      intro k n hk hk2
      rw [hk] at hk2
      exact absurd hk2 (by simp)
    | none :: rest =>
      have hfuel2 : rest.length + VirtualWidgetTree.totalSize td < f := by
        simp at hfuel
        omega
      obtain ⟨res, hres, hdeep⟩ := ih td rest dp D hfuel2 hnd
        (fun c hc => hq1 c (List.mem_cons_of_mem _ hc))
        (fun c hc => le_trans (by
          rw [List.count_cons]
          simp) (hq2 c (List.mem_cons_of_mem _ hc)))
        (fun c hc => hq3 c (List.mem_cons_of_mem _ hc))
        hc1 hc2
        (fun c hc => hdq c (List.mem_cons_of_mem _ hc))
        hde
      exact ⟨res, hres, hdeep⟩
    | some rid :: rest =>
      cases hl : lookupNode td rid with
      | none =>
        have := hq1 rid (List.mem_cons_self _ _)
        rw [hl] at this
        exact absurd this (by simp)
      | some node =>
        have hrc0 : refCount td rid = 0 := hq3 rid (List.mem_cons_self _ _)
        have hmemnode : (rid, node) ∈ td := mem_of_lookupNode_eq_some hl
        -- fuel for the recursive call
        have hsize : node.children.length + 1 ≤ VirtualWidgetTree.totalSize td :=
          totalSize_ge hl
        have hts : VirtualWidgetTree.totalSize (eraseNode td rid) =
            VirtualWidgetTree.totalSize td - (node.children.length + 1) :=
          totalSize_eraseNode hnd hl
        have hfuel2 : (rest ++ node.children).length +
            VirtualWidgetTree.totalSize (eraseNode td rid) < f := by
          rw [List.length_append, hts]
          simp at hfuel
          omega
        -- queued ids are distinct from the id just erased
        have hnotinchild : ∀ c, some c ∈ node.children → c ≠ rid := by
          intro c hc hcrid
          subst hcrid
          have h1 : 1 ≤ node.children.count (some c) :=
            List.count_pos_iff.mpr hc
          have h2 := count_le_refCount hmemnode c
          omega
        have hrestne : ∀ c, some c ∈ rest → c ≠ rid := by
          intro c hc hcrid
          subst hcrid
          have := hq2 c (List.mem_cons_self _ _)
          rw [List.count_cons] at this
          simp at this
          have : List.count (some c) rest = 0 := this
          have := List.count_pos_iff.mpr hc
          omega
        have hq1b : ∀ c, some c ∈ rest ++ node.children →
            (lookupNode (eraseNode td rid) c).isSome := by
          intro c hc
          rcases List.mem_append.mp hc with h1 | h1
          · rw [lookupNode_eraseNode_ne _ (hrestne c h1)]
            exact hq1 c (List.mem_cons_of_mem _ h1)
          · rw [lookupNode_eraseNode_ne _ (hnotinchild c h1)]
            exact hc1 rid node hl c h1
        have hq2b : ∀ c, some c ∈ rest ++ node.children →
            (rest ++ node.children).count (some c) ≤ 1 := by
          intro c hc
          rw [List.count_append]
          by_cases hr : some c ∈ rest
          · have hrc : refCount td c = 0 := hq3 c (List.mem_cons_of_mem _ hr)
            have hch : node.children.count (some c) = 0 := by
              have := count_le_refCount hmemnode c
              omega
            have := hq2 c (List.mem_cons_of_mem _ hr)
            rw [List.count_cons] at this
            omega
          · have hrest0 : rest.count (some c) = 0 :=
              List.count_eq_zero.mpr hr
            have := hc2 c
            have := count_le_refCount hmemnode c
            omega
        have hq3b : ∀ c, some c ∈ rest ++ node.children →
            refCount (eraseNode td rid) c = 0 := by
          intro c hc
          rw [refCount_eraseNode hnd hl]
          rcases List.mem_append.mp hc with h1 | h1
          · have := hq3 c (List.mem_cons_of_mem _ h1)
            omega
          · have h2 : 1 ≤ node.children.count (some c) :=
              List.count_pos_iff.mpr h1
            have h3 := count_le_refCount hmemnode c
            have := hc2 c
            omega
        have hc1b : ∀ k n2, lookupNode (eraseNode td rid) k = some n2 →
            ∀ c, some c ∈ n2.children →
              (lookupNode (eraseNode td rid) c).isSome := by
          intro k n2 hk c hc
          by_cases hkrid : k = rid
          · subst hkrid
            rw [lookupNode_eraseNode_self] at hk
            exact absurd hk (by simp)
          · rw [lookupNode_eraseNode_ne _ hkrid] at hk
            have hcrid : c ≠ rid := by
              intro hcr
              subst hcr
              have h1 : 1 ≤ n2.children.count (some c) :=
                List.count_pos_iff.mpr hc
              have h2 := count_le_refCount (mem_of_lookupNode_eq_some hk) c
              omega
            rw [lookupNode_eraseNode_ne _ hcrid]
            exact hc1 k n2 hk c hc
        have hc2b : ∀ c, refCount (eraseNode td rid) c ≤ 1 := by
          intro c
          exact le_trans (refCount_eraseNode_le td rid c) (hc2 c)
        have hdqb : ∀ c, some c ∈ rest ++ node.children → D < dp c := by
          intro c hc
          rcases List.mem_append.mp hc with h1 | h1
          · exact hdq c (List.mem_cons_of_mem _ h1)
          · have h2 : dp rid < dp c := hde rid node hl c h1
            have h3 : D < dp rid := hdq rid (List.mem_cons_self _ _)
            omega
        have hdeb : ∀ k n2, lookupNode (eraseNode td rid) k = some n2 →
            ∀ c, some c ∈ n2.children → dp k < dp c := by
          intro k n2 hk c hc
          by_cases hkrid : k = rid
          · subst hkrid
            rw [lookupNode_eraseNode_self] at hk
            exact absurd hk (by simp)
          · rw [lookupNode_eraseNode_ne _ hkrid] at hk
            exact hde k n2 hk c hc
        obtain ⟨res, hres, hdeep⟩ := ih (eraseNode td rid) (rest ++ node.children)
          dp D hfuel2 (eraseNode_keys_nodup hnd rid) hq1b hq2b hq3b hc1b hc2b
          hdqb hdeb
        refine ⟨res, ?_, ?_⟩
        · simp only [VirtualWidgetTree.removeLoop, hl]
          exact hres
        · intro k n2 hk hkres
          by_cases hkrid : k = rid
          · subst hkrid
            exact hdq k (List.mem_cons_self _ _)
          · have hk2 : lookupNode (eraseNode td rid) k = some n2 := by
              rw [lookupNode_eraseNode_ne _ hkrid]
              exact hk
            exact hdeep k n2 hk2 hkres

/-- Mapping at a key preserves which lookups succeed. -/
theorem lookupNode_mapNode_isSome (td : List (Nat × WidgetTreeNode)) (k j : Nat)
    (f : WidgetTreeNode → WidgetTreeNode) :
    (lookupNode (mapNode td k f) j).isSome = (lookupNode td j).isSome := by
  by_cases h : j = k
  · subst h
    rw [lookupNode_mapNode_self]
    cases lookupNode td j <;> rfl
  · rw [lookupNode_mapNode_ne _ _ h]

/-- A table with no slot referencing `c` has reference count zero for it. -/
theorem refCount_eq_zero_of_all {td : List (Nat × WidgetTreeNode)} {c : Nat}
    (h : ∀ e ∈ td, e.2.children.count (some c) = 0) : refCount td c = 0 := by
  induction td with
  | nil => rfl
  | cons e rest ih =>
    rw [refCount_cons, h e (List.mem_cons_self _ _),
      ih (fun e2 he2 => h e2 (List.mem_cons_of_mem _ he2))]

/-- When every slot referencing `c` lives in the entry of a single key `P`,
the reference count is that entry's slot count. -/
theorem refCount_concentrate {td : List (Nat × WidgetTreeNode)} {c : Nat}
    (hnd : (td.map Prod.fst).Nodup) (P : Nat)
    (hP : ∀ e ∈ td, 0 < e.2.children.count (some c) → e.1 = P) :
    refCount td c =
      match lookupNode td P with
      | some n => n.children.count (some c)
      | none => 0 := by
  induction td with
  | nil => rfl
  | cons e rest ih =>
    obtain ⟨k, n⟩ := e
    simp only [List.map_cons, List.nodup_cons] at hnd
    rw [refCount_cons, lookupNode_cons]
    simp only
    by_cases hk : k = P
    · subst hk
      rw [if_pos rfl]
      have hzero : refCount rest c = 0 := by
        apply refCount_eq_zero_of_all
        intro e2 he2
        by_contra hne
        have hpos : 0 < e2.2.children.count (some c) := Nat.pos_of_ne_zero hne
        have : e2.1 = k := hP e2 (List.mem_cons_of_mem _ he2) hpos
        exact hnd.1 (this ▸ List.mem_map.mpr ⟨e2, he2, rfl⟩)
      show n.children.count (some c) + refCount rest c = n.children.count (some c)
      omega
    · rw [if_neg hk]
      by_cases hpos : 0 < n.children.count (some c)
      · exact absurd (hP (k, n) (List.mem_cons_self _ _) hpos) hk
      · have h0 : n.children.count (some c) = 0 := by omega
        rw [h0, ih hnd.2 (fun e2 he2 => hP e2 (List.mem_cons_of_mem _ he2))]
        simp

namespace VirtualWidgetTree

/-- Under well-formedness (up to one widget), every slot referencing `c`
lies in the child list of the entry of the unique parent of `c`. -/
theorem WFexcept.ref_unique_parent {t : VirtualWidgetTree} {x : Nat}
    (hwf : WFexcept t x) {c : Nat} :
    ∀ e ∈ t.tree_data, 0 < e.2.children.count (some c) →
      ∃ cn, lookupNode t.tree_data c = some cn ∧ e.1 = cn.parent_id := by
  intro e he hpos
  have hkeys : e.1 ∈ keys t := List.mem_map.mpr ⟨e, he, rfl⟩
  have hroot : t.root ≠ e.1 := fun hc => hwf.2.1 (hc ▸ hkeys)
  have hce : VirtualWidgetTree.childrenOf t e.1 = e.2.children := by
    have hl : lookupNode t.tree_data e.1 = some e.2 :=
      lookupNode_eq_some_of_mem hwf.1 (by cases e; exact he)
    exact childrenOf_of_lookup hroot hl
  have hmem : some c ∈ VirtualWidgetTree.childrenOf t e.1 := by
    rw [hce]
    exact List.count_pos_iff.mp hpos
  obtain ⟨cn, hcn, hcnp⟩ :=
    hwf.2.2.2.2.2.1 e.1 (List.mem_cons_of_mem _ hkeys) (some c) hmem c rfl
  exact ⟨cn, hcn, hcnp.symm⟩

/-- Under well-formedness (up to one widget), reference counts are at most
one. -/
theorem WFexcept.refCount_le_one {t : VirtualWidgetTree} {x : Nat}
    (hwf : WFexcept t x) (c : Nat) : refCount t.tree_data c ≤ 1 := by
  cases hc : lookupNode t.tree_data c with
  | none =>
    have h0 : refCount t.tree_data c = 0 := by
      apply refCount_eq_zero_of_all
      intro e he
      by_contra hne
      obtain ⟨cn, hcn, _⟩ :=
        hwf.ref_unique_parent e he (Nat.pos_of_ne_zero hne)
      rw [hc] at hcn
      exact absurd hcn (by simp)
    omega
  | some cn =>
    have hconc := refCount_concentrate (c := c) hwf.1 cn.parent_id
      (fun e he hpos => by
        obtain ⟨cn2, hcn2, hp⟩ := hwf.ref_unique_parent e he hpos
        rw [hc] at hcn2
        injection hcn2 with hcn2
        rw [← hcn2] at hp
        exact hp)
    rw [hconc]
    cases hp : lookupNode t.tree_data cn.parent_id with
    | none => simp
    | some pn =>
      simp only
      have hpk : cn.parent_id ∈ keys t :=
        (lookupNode_isSome_iff t.tree_data cn.parent_id).mp (by rw [hp]; rfl)
      have hroot : t.root ≠ cn.parent_id := fun hcr => hwf.2.1 (hcr ▸ hpk)
      have hch : VirtualWidgetTree.childrenOf t cn.parent_id = pn.children :=
        childrenOf_of_lookup hroot hp
      by_cases hmem : some c ∈ pn.children
      · have := hwf.2.2.2.2.2.2.1 cn.parent_id (List.mem_cons_of_mem _ hpk)
          (some c) (hch ▸ hmem) (by simp)
        rw [hch] at this
        exact this
      · rw [List.count_eq_zero.mpr hmem]
        omega

/-- Under well-formedness (up to one widget), the reference count of a
stored non-root-parented widget is concentrated in its parent's entry,
and a widget parented at the root is unreferenced in the table. -/
theorem WFexcept.refCount_eq {t : VirtualWidgetTree} {x : Nat}
    (hwf : WFexcept t x) {c : Nat} {cn : WidgetTreeNode}
    (hc : lookupNode t.tree_data c = some cn) :
    refCount t.tree_data c =
      match lookupNode t.tree_data cn.parent_id with
      | some pn => pn.children.count (some c)
      | none => 0 :=
  refCount_concentrate hwf.1 cn.parent_id
    (fun e he hpos => by
      obtain ⟨cn2, hcn2, hp⟩ := hwf.ref_unique_parent e he hpos
      rw [hc] at hcn2
      injection hcn2 with hcn2
      rw [← hcn2] at hp
      exact hp)

/-- Under well-formedness (up to one widget), an unstored widget is
unreferenced. -/
theorem WFexcept.refCount_of_none {t : VirtualWidgetTree} {x : Nat}
    (hwf : WFexcept t x) {c : Nat}
    (hc : lookupNode t.tree_data c = none) : refCount t.tree_data c = 0 := by
  apply refCount_eq_zero_of_all
  intro e he
  by_contra hne
  obtain ⟨cn, hcn, _⟩ := hwf.ref_unique_parent e he (Nat.pos_of_ne_zero hne)
  rw [hc] at hcn
  exact absurd hcn (by simp)

end VirtualWidgetTree

/-- The removal loop preserves key distinctness. -/
theorem removeLoop_nodup (fuel : Nat) :
    ∀ (td : List (Nat × WidgetTreeNode)) (queue : List (Option Nat))
      (res : List (Nat × WidgetTreeNode)),
      VirtualWidgetTree.removeLoop fuel td queue = some res →
      (td.map Prod.fst).Nodup → (res.map Prod.fst).Nodup := by
  induction fuel with
  | zero => intro td queue res h; simp [VirtualWidgetTree.removeLoop] at h
  | succ f ih =>
    intro td queue res h hnd
    match queue with
    | [] =>
      simp [VirtualWidgetTree.removeLoop] at h
      subst h
      exact hnd
    | none :: rest => exact ih td rest res h hnd
    | some rid :: rest =>
      simp only [VirtualWidgetTree.removeLoop] at h
      cases hl : lookupNode td rid with
      | none => rw [hl] at h; exact absurd h (by simp)
      | some node =>
        rw [hl] at h
        exact ih _ _ _ h (eraseNode_keys_nodup hnd rid)

/-- Provenance of an erasure: a widget erased by the loop was either
queued directly or referenced from the child list of another erased
widget. -/
theorem removeLoop_provenance (fuel : Nat) :
    ∀ (td : List (Nat × WidgetTreeNode)) (queue : List (Option Nat))
      (res : List (Nat × WidgetTreeNode)),
      VirtualWidgetTree.removeLoop fuel td queue = some res →
      ∀ c cn, lookupNode td c = some cn → lookupNode res c = none →
        some c ∈ queue ∨
        ∃ q nq, lookupNode td q = some nq ∧ lookupNode res q = none ∧
          some c ∈ nq.children := by
  induction fuel with
  | zero => intro td queue res h; simp [VirtualWidgetTree.removeLoop] at h
  | succ f ih =>
    intro td queue res h c cn hc hcres
    match queue with
    | [] =>
      simp [VirtualWidgetTree.removeLoop] at h
      subst h
      rw [hc] at hcres
      exact absurd hcres (by simp)
    | none :: rest =>
      rcases ih td rest res h c cn hc hcres with h1 | h1
      · exact Or.inl (List.mem_cons_of_mem _ h1)
      · exact Or.inr h1
    | some rid :: rest =>
      simp only [VirtualWidgetTree.removeLoop] at h
      cases hl : lookupNode td rid with
      | none => rw [hl] at h; exact absurd h (by simp)
      | some node =>
        rw [hl] at h
        by_cases hcrid : c = rid
        · exact Or.inl (hcrid ▸ List.mem_cons_self _ _)
        · have hc2 : lookupNode (eraseNode td rid) c = some cn := by
            rw [lookupNode_eraseNode_ne _ hcrid, hc]
          rcases ih _ _ _ h c cn hc2 hcres with h1 | h1
          · rcases List.mem_append.mp h1 with h2 | h2
            · exact Or.inl (List.mem_cons_of_mem _ h2)
            · refine Or.inr ⟨rid, node, hl, ?_, h2⟩
              exact removeLoop_none_stable f _ _ _ h rid
                (lookupNode_eraseNode_self _ _)
          · obtain ⟨q, nq, hq1, hq2, hq3⟩ := h1
            by_cases hqrid : q = rid
            · subst hqrid
              rw [lookupNode_eraseNode_self] at hq1
              exact absurd hq1 (by simp)
            · rw [lookupNode_eraseNode_ne _ hqrid] at hq1
              exact Or.inr ⟨q, nq, hq1, hq2, hq3⟩

/-- Membership in a list after erasing a different occupied slot. -/
theorem mem_erase_some_of_ne {pc : List (Option Nat)} {c x : Nat} (h : c ≠ x) :
    some c ∈ pc.erase (some x) ↔ some c ∈ pc := by
  have h1 := count_erase_some pc x (some c)
  rw [if_neg (by simp [h] : ¬ (some c : Option Nat) = some x)] at h1
  rw [← List.count_pos_iff, h1, List.count_pos_iff]

/-- Occupied-slot counts through the detach-and-trim step. -/
theorem count_trim_vre (pc : List (Option Nat)) (x c : Nat) :
    (trimNones ((vec_remove_element (some x) pc).2)).count (some c) =
      if c = x then pc.count (some c) - 1
      else pc.count (some c) := by
  rw [vre_snd_eq_erase, trimNones_count_some, count_erase_some]
  by_cases h : c = x
  · subst h; simp
  · rw [if_neg (by simp [h] : ¬ (some c : Option Nat) = some x), if_neg h]

/-- Occupied-slot membership through the detach-and-trim step, for a
widget other than the detached one. -/
theorem mem_trim_vre_of_ne {pc : List (Option Nat)} {c x : Nat} (h : c ≠ x) :
    some c ∈ trimNones ((vec_remove_element (some x) pc).2) ↔ some c ∈ pc := by
  rw [vre_snd_eq_erase, trimNones_mem_some, mem_erase_some_of_ne h]

/-- The detached widget is absent from the detached-and-trimmed list when
it occupied at most one slot. -/
theorem not_mem_trim_vre {pc : List (Option Nat)} {x : Nat}
    (h : pc.count (some x) ≤ 1) :
    some x ∉ trimNones ((vec_remove_element (some x) pc).2) := by
  rw [← List.count_pos_iff.not]
  rw [count_trim_vre, if_pos rfl]
  omega

namespace VirtualWidgetTree

/-- Specification of `VirtualWidgetTree::remove` on a stored widget of a
tree that is well-formed up to that widget. -/
theorem remove_spec {t : VirtualWidgetTree} {x : Nat}
    (hwf : WFexcept t x) {node : WidgetTreeNode}
    (hx : lookupNode t.tree_data x = some node) :
    ∃ t2, remove t x = some (some node.data, t2) ∧
      t2.root = t.root ∧
      t2.root_data = t.root_data ∧
      t2.root_children = (if t.root = node.parent_id
        then detachTrim x t.root_children else t.root_children) ∧
      (t2.tree_data.map Prod.fst).Nodup ∧
      lookupNode t2.tree_data x = none ∧
      (∀ k, lookupNode t2.tree_data k = none ∨
        (k ≠ node.parent_id ∧
          lookupNode t2.tree_data k = lookupNode t.tree_data k) ∨
        (k = node.parent_id ∧ ∃ pn, lookupNode t.tree_data k = some pn ∧
          lookupNode t2.tree_data k =
            some { pn with children := detachTrim x pn.children })) ∧
      (∀ k n2, lookupNode t.tree_data k = some n2 →
        lookupNode t2.tree_data k = none →
        k = x ∨ node.data.depth < n2.data.depth) ∧
      (∀ c, some c ∈ node.children → lookupNode t2.tree_data c = none) ∧
      (∀ k n2, lookupNode t.tree_data k = some n2 →
        lookupNode t2.tree_data k = none →
        ∀ d, some d ∈ n2.children → lookupNode t2.tree_data d = none) ∧
      (∀ c cn, lookupNode t.tree_data c = some cn →
        lookupNode t2.tree_data c = none → c ≠ x →
        (some c ∈ node.children ∨
          ∃ q nq, lookupNode t.tree_data q = some nq ∧
            lookupNode t2.tree_data q = none ∧ some c ∈ nq.children)) := by
  have hwf2 := hwf
  obtain ⟨hnd, hrootk, hrd, hw3, hw4, hw5, hw6, hw8⟩ := hwf2
  have hxmem : (x, node) ∈ t.tree_data := mem_of_lookupNode_eq_some hx
  have hxkeys : x ∈ keys t := List.mem_map.mpr ⟨(x, node), hxmem, rfl⟩
  have hxroot : t.root ≠ x := fun hc => hrootk (hc ▸ hxkeys)
  have hdepthx : depthOf t x = node.data.depth := depthOf_of_lookup hxroot hx
  have hchx : childrenOf t x = node.children := childrenOf_of_lookup hxroot hx
  have hpx : node.parent_id ≠ x := by
    intro hc
    have h8 := hw8 (x, node) hxmem
    simp only at h8
    rw [hc, hdepthx] at h8
    omega
  have hpmem : node.parent_id = t.root ∨ node.parent_id ∈ keys t := by
    have := hw3 (x, node) hxmem
    simpa using this
  have hprk : node.parent_id ∈ t.root :: keys t := by
    rcases hpmem with h | h
    · rw [h]; exact List.mem_cons_self _ _
    · exact List.mem_cons_of_mem _ h
  -- facts about the table after erasing x
  have htd0x : lookupNode (eraseNode t.tree_data x) x = none :=
    lookupNode_eraseNode_self _ _
  have htd0ne : ∀ j, j ≠ x →
      lookupNode (eraseNode t.tree_data x) j = lookupNode t.tree_data j :=
    fun j hj => lookupNode_eraseNode_ne _ hj
  have htd0nd : ((eraseNode t.tree_data x).map Prod.fst).Nodup :=
    eraseNode_keys_nodup hnd x
  -- the parent resolves to its current child list
  have hpc : ∃ pd, get_widget_node { t with tree_data := eraseNode t.tree_data x }
      node.parent_id = some (pd, childrenOf t node.parent_id) := by
    by_cases hpr : t.root = node.parent_id
    · refine ⟨t.root_data, ?_⟩
      rw [get_widget_node_eq]
      show (if t.root = node.parent_id then _ else _) = _
      rw [if_pos hpr]
      have hcr : childrenOf t node.parent_id = t.root_children := by
        rw [← hpr, childrenOf_root]
      rw [hcr]
    · cases hp : lookupNode t.tree_data node.parent_id with
      | none =>
        rcases hpmem with hc | hc
        · exact absurd hc.symm hpr
        · have : (lookupNode t.tree_data node.parent_id).isSome :=
            (lookupNode_isSome_iff _ _).mpr hc
          rw [hp] at this
          exact absurd this (by simp)
      | some pn =>
        refine ⟨pn.data, ?_⟩
        rw [get_widget_node_eq]
        show (if t.root = node.parent_id then _ else _) = _
        rw [if_neg hpr]
        have hl0 : lookupNode (eraseNode t.tree_data x) node.parent_id = some pn := by
          rw [htd0ne _ hpx, hp]
        rw [hl0]
        simp [childrenOf_of_lookup hpr hp]
  obtain ⟨pd, hpc⟩ := hpc
  -- the table at loop entry
  set PCL := detachTrim x (childrenOf t node.parent_id) with hPCL
  set td1 := (setChildren { t with tree_data := eraseNode t.tree_data x }
    node.parent_id PCL).tree_data with htd1def
  have htd1eq : td1 = if t.root = node.parent_id then eraseNode t.tree_data x
      else mapNode (eraseNode t.tree_data x) node.parent_id
        (fun n => { n with children := PCL }) := by
    rw [htd1def]
    rw [setChildren_tree_data]
  have hG : ∀ j, lookupNode td1 j =
      if j = node.parent_id
      then (lookupNode (eraseNode t.tree_data x) j).map
        (fun n => { n with children := PCL })
      else lookupNode (eraseNode t.tree_data x) j := by
    intro j
    rw [htd1eq]
    by_cases hpr : t.root = node.parent_id
    · rw [if_pos hpr]
      by_cases hj : j = node.parent_id
      · rw [if_pos hj]
        have hnone : lookupNode (eraseNode t.tree_data x) j = none := by
          by_cases hjx : j = x
          · rw [hjx]; exact htd0x
          · rw [htd0ne _ hjx]
            cases hl : lookupNode t.tree_data j with
            | none => rfl
            | some m =>
              have hjk : j ∈ keys t :=
                (lookupNode_isSome_iff _ _).mp (by rw [hl]; rfl)
              rw [hj] at hjk
              exact absurd (hpr ▸ hjk) hrootk
        rw [hnone]
        rfl
      · rw [if_neg hj]
    · rw [if_neg hpr]
      by_cases hj : j = node.parent_id
      · subst hj
        rw [if_pos rfl, lookupNode_mapNode_self]
      · rw [if_neg hj, lookupNode_mapNode_ne _ _ hj]
  have htd1nd : (td1.map Prod.fst).Nodup := by
    rw [htd1eq]
    by_cases hpr : t.root = node.parent_id
    · rw [if_pos hpr]; exact htd0nd
    · rw [if_neg hpr, mapNode_keys]; exact htd0nd
  have htd1x : lookupNode td1 x = none := by
    rw [hG, if_neg (fun hc => hpx hc.symm), htd0x]
  have htd1somes : ∀ j, (lookupNode td1 j).isSome =
      (lookupNode (eraseNode t.tree_data x) j).isSome := by
    intro j
    rw [hG]
    by_cases hj : j = node.parent_id
    · rw [if_pos hj]
      cases lookupNode (eraseNode t.tree_data x) j <;> rfl
    · rw [if_neg hj]
  -- the widget is not in its parent's detached child list
  have hxnotPCL : some x ∉ PCL := by
    rw [hPCL]
    unfold detachTrim
    apply not_mem_trim_vre
    by_cases hm : some x ∈ childrenOf t node.parent_id
    · exact hw6 node.parent_id hprk (some x) hm (by simp)
    · rw [List.count_eq_zero.mpr hm]
      omega
  -- entries at loop time relate to original entries
  have hE : ∀ k n2, lookupNode td1 k = some n2 →
      ∃ n0, lookupNode t.tree_data k = some n0 ∧ k ≠ x ∧ t.root ≠ k ∧
        n2.parent_id = n0.parent_id ∧ n2.data = n0.data ∧
        childrenOf t k = n0.children ∧
        (∀ c, some c ∈ n2.children → some c ∈ childrenOf t k) ∧
        some x ∉ n2.children := by
    intro k n2 hk
    have hkx : k ≠ x := by
      intro hc
      rw [hc, htd1x] at hk
      exact absurd hk (by simp)
    have hksome : (lookupNode t.tree_data k).isSome := by
      have h1 : (lookupNode td1 k).isSome := by rw [hk]; rfl
      rw [htd1somes, htd0ne _ hkx] at h1
      exact h1
    cases hl : lookupNode t.tree_data k with
    | none => rw [hl] at hksome; exact absurd hksome (by simp)
    | some n0 =>
      have hkroot : t.root ≠ k := by
        intro hc
        have : k ∈ keys t := (lookupNode_isSome_iff _ _).mp (by rw [hl]; rfl)
        exact hrootk (hc ▸ this)
      have hch : childrenOf t k = n0.children := childrenOf_of_lookup hkroot hl
      rw [hG] at hk
      by_cases hkp : k = node.parent_id
      · rw [if_pos hkp, htd0ne _ hkx, hl] at hk
        simp only [Option.map_some'] at hk
        injection hk with hk
        subst hk
        refine ⟨n0, rfl, hkx, hkroot, rfl, rfl, hch, ?_, hxnotPCL⟩
        intro c hc
        show some c ∈ childrenOf t k
        have hcx : c ≠ x := fun hcc => hxnotPCL (hcc ▸ hc)
        have : some c ∈ PCL := hc
        rw [hPCL] at this
        unfold detachTrim at this
        rw [mem_trim_vre_of_ne hcx] at this
        rw [hkp]
        exact this
      · rw [if_neg hkp, htd0ne _ hkx, hl] at hk
        injection hk with hk
        subst hk
        refine ⟨n0, rfl, hkx, hkroot, rfl, rfl, hch, ?_, ?_⟩
        · intro c hc
          rw [hch]
          exact hc
        · intro hmem
          rw [← hch] at hmem
          obtain ⟨cn, hcn, hcnp⟩ := hw5 k
            (List.mem_cons_of_mem _ ((lookupNode_isSome_iff _ _).mp hksome))
            (some x) hmem x rfl
          rw [hx] at hcn
          injection hcn with hcn
          rw [← hcn] at hcnp
          exact hkp hcnp.symm
  -- direct children of x and their depths
  have hchild : ∀ c, some c ∈ node.children →
      ∃ cn, lookupNode t.tree_data c = some cn ∧ cn.parent_id = x ∧ c ≠ x ∧
        cn.data.depth = node.data.depth + 1 := by
    intro c hc
    obtain ⟨cn, hcn, hcnp⟩ := hw5 x (List.mem_cons_of_mem _ hxkeys) (some c)
      (hchx ▸ hc) c rfl
    have hcx : c ≠ x := by
      intro hcc
      rw [hcc, hx] at hcn
      injection hcn with hcn
      rw [← hcn] at hcnp
      exact hpx hcnp
    have h8 := hw8 (c, cn) (mem_of_lookupNode_eq_some hcn)
    simp only at h8
    rw [hcnp, hdepthx] at h8
    exact ⟨cn, hcn, hcnp, hcx, h8⟩
  -- the depth measure used for the loop
  set dp : Nat → Nat :=
    fun k => ((lookupNode t.tree_data k).map (fun n => n.data.depth)).getD 0
    with hdpdef
  have hdp_of : ∀ k n0, lookupNode t.tree_data k = some n0 →
      dp k = n0.data.depth := by
    intro k n0 hk
    rw [hdpdef]
    simp [hk]
  -- invariant facts for the removal loop
  have hq1 : ∀ c, some c ∈ node.children → (lookupNode td1 c).isSome := by
    intro c hc
    obtain ⟨cn, hcn, _, hcx, _⟩ := hchild c hc
    rw [htd1somes, htd0ne _ hcx, hcn]
    rfl
  have hq2 : ∀ c, some c ∈ node.children → node.children.count (some c) ≤ 1 := by
    intro c hc
    have := hw6 x (List.mem_cons_of_mem _ hxkeys) (some c) (hchx ▸ hc) (by simp)
    rw [hchx] at this
    exact this
  have hRC0 : ∀ c, some c ∈ node.children →
      refCount (eraseNode t.tree_data x) c = 0 := by
    intro c hc
    obtain ⟨cn, hcn, hcnp, hcx, _⟩ := hchild c hc
    have hrc := hwf.refCount_eq hcn
    rw [hcnp, hx] at hrc
    simp only at hrc
    rw [refCount_eraseNode hnd hx c, hrc]
    omega
  have hRC1 : ∀ c, refCount td1 c ≤ refCount (eraseNode t.tree_data x) c := by
    intro c
    rw [htd1eq]
    by_cases hpr : t.root = node.parent_id
    · rw [if_pos hpr]
    · rw [if_neg hpr]
      have hpkeys : node.parent_id ∈ keys t := by
        rcases hpmem with h | h
        · exact absurd h.symm hpr
        · exact h
      have hpsome : (lookupNode t.tree_data node.parent_id).isSome :=
        (lookupNode_isSome_iff _ _).mpr hpkeys
      cases hp : lookupNode t.tree_data node.parent_id with
      | none => rw [hp] at hpsome; exact absurd hpsome (by simp)
      | some pn =>
        have hl0 : lookupNode (eraseNode t.tree_data x) node.parent_id = some pn := by
          rw [htd0ne _ hpx, hp]
        rw [refCount_mapNode_children htd0nd hl0 PCL c]
        have hchp : childrenOf t node.parent_id = pn.children :=
          childrenOf_of_lookup hpr hp
        have hcnt : PCL.count (some c) ≤ pn.children.count (some c) := by
          rw [hPCL, ← hchp]
          unfold detachTrim
          rw [count_trim_vre]
          by_cases hcx2 : c = x
          · rw [if_pos hcx2, hchp]
            omega
          · rw [if_neg hcx2, hchp]
        have hmem0 : (node.parent_id, pn) ∈ eraseNode t.tree_data x :=
          mem_of_lookupNode_eq_some hl0
        have := count_le_refCount hmem0 c
        omega
  have hq3 : ∀ c, some c ∈ node.children → refCount td1 c = 0 := by
    intro c hc
    have := hRC1 c
    have := hRC0 c hc
    omega
  have hc1 : ∀ k n2, lookupNode td1 k = some n2 →
      ∀ c, some c ∈ n2.children → (lookupNode td1 c).isSome := by
    intro k n2 hk c hc
    obtain ⟨n0, hl, hkx, hkroot, _, _, hch, htrans, hnx⟩ := hE k n2 hk
    have hcmem : some c ∈ childrenOf t k := htrans c hc
    have hcx : c ≠ x := fun hcc => hnx (hcc ▸ hc)
    have hkkeys : k ∈ keys t :=
      List.mem_map.mpr ⟨(k, n0), mem_of_lookupNode_eq_some hl, rfl⟩
    obtain ⟨cn, hcn, _⟩ := hw5 k (List.mem_cons_of_mem _ hkkeys) (some c)
      hcmem c rfl
    rw [htd1somes, htd0ne _ hcx, hcn]
    rfl
  have hc2 : ∀ c, refCount td1 c ≤ 1 := by
    intro c
    calc refCount td1 c ≤ refCount (eraseNode t.tree_data x) c := hRC1 c
    _ ≤ refCount t.tree_data c := refCount_eraseNode_le _ _ _
    _ ≤ 1 := hwf.refCount_le_one c
  have hdq : ∀ c, some c ∈ node.children → node.data.depth < dp c := by
    intro c hc
    obtain ⟨cn, hcn, _, _, hd⟩ := hchild c hc
    rw [hdp_of c cn hcn, hd]
    omega
  have hde : ∀ k n2, lookupNode td1 k = some n2 →
      ∀ c, some c ∈ n2.children → dp k < dp c := by
    intro k n2 hk c hc
    obtain ⟨n0, hl, hkx, hkroot, _, _, hch, htrans, hnx⟩ := hE k n2 hk
    have hcmem : some c ∈ childrenOf t k := htrans c hc
    have hkkeys : k ∈ keys t :=
      List.mem_map.mpr ⟨(k, n0), mem_of_lookupNode_eq_some hl, rfl⟩
    obtain ⟨cn, hcn, hcnp⟩ := hw5 k (List.mem_cons_of_mem _ hkkeys) (some c)
      hcmem c rfl
    have h8 := hw8 (c, cn) (mem_of_lookupNode_eq_some hcn)
    simp only at h8
    rw [hcnp] at h8
    rw [hdp_of c cn hcn, hdp_of k n0 hl, h8, depthOf_of_lookup hkroot hl]
    omega
  -- run the loop
  obtain ⟨res, hres, hdeep⟩ := removeLoop_run
    (node.children.length + totalSize td1 + 1) td1 node.children dp
    node.data.depth (by omega) htd1nd hq1 hq2 hq3 hc1 hc2 hdq hde
  -- fold the code's inline detach into PCL
  have hPCLfold : trimNones (vec_remove_element (some x)
      (childrenOf t node.parent_id)).2 = PCL := by
    rw [hPCL]
    rfl
  -- the resulting tree
  refine ⟨{ setChildren { t with tree_data := eraseNode t.tree_data x }
      node.parent_id PCL with tree_data := res }, ?_, ?_, ?_, ?_, ?_, ?_, ?_,
      ?_, ?_, ?_, ?_⟩
  · -- the remove call computes exactly this tree
    unfold remove
    rw [hx]
    simp only
    rw [hpc]
    simp only
    rw [hPCLfold, ← htd1def, hres]
  · show (setChildren _ _ _).root = t.root
    rw [setChildren_root]
  · show (setChildren _ _ _).root_data = t.root_data
    rw [setChildren_root_data]
  · show (setChildren _ _ _).root_children = _
    rw [setChildren_root_children]
    show (if t.root = node.parent_id then PCL else t.root_children) = _
    by_cases hpr : t.root = node.parent_id
    · rw [if_pos hpr, if_pos hpr, hPCL]
      have : childrenOf t node.parent_id = t.root_children := by
        rw [← hpr, childrenOf_root]
      rw [this]
    · rw [if_neg hpr, if_neg hpr]
  · exact removeLoop_nodup _ _ _ _ hres htd1nd
  · exact removeLoop_none_stable _ _ _ _ hres x htd1x
  · -- per-key characterization
    intro k
    rcases removeLoop_lookup _ _ _ _ hres k with heq | hnone
    · rw [heq, hG]
      by_cases hkp : k = node.parent_id
      · rw [if_pos hkp]
        cases hl : lookupNode (eraseNode t.tree_data x) k with
        | none => exact Or.inl rfl
        | some pn =>
          have hkx : k ≠ x := by
            intro hc
            rw [hc, htd0x] at hl
            exact absurd hl (by simp)
          rw [htd0ne _ hkx] at hl
          have hkroot : t.root ≠ k := by
            intro hc
            have : k ∈ keys t := (lookupNode_isSome_iff _ _).mp (by rw [hl]; rfl)
            exact hrootk (hc ▸ this)
          refine Or.inr (Or.inr ⟨hkp, pn, hl, ?_⟩)
          have hchk : childrenOf t k = pn.children := childrenOf_of_lookup hkroot hl
          rw [hPCL, ← hkp, hchk]
          rfl
      · rw [if_neg hkp]
        by_cases hkx : k = x
        · rw [hkx, htd0x]
          exact Or.inl rfl
        · rw [htd0ne _ hkx]
          exact Or.inr (Or.inl ⟨hkp, rfl⟩)
    · exact Or.inl hnone
  · -- only deeper widgets are erased
    intro k n2 hk hkres
    by_cases hkx : k = x
    · exact Or.inl hkx
    · have hsome : (lookupNode td1 k).isSome := by
        rw [htd1somes, htd0ne _ hkx, hk]
        rfl
      cases hm : lookupNode td1 k with
      | none => rw [hm] at hsome; exact absurd hsome (by simp)
      | some m =>
        have := hdeep k m hm hkres
        rw [hdp_of k n2 hk] at this
        exact Or.inr this
  · -- the direct children are gone
    intro c hc
    exact removeLoop_queued_gone _ _ _ _ hres c hc
  · -- cascade through child lists
    intro k n2 hk hkres d hd
    by_cases hkx : k = x
    · rw [hkx, hx] at hk
      injection hk with hk
      rw [← hk] at hd
      exact removeLoop_queued_gone _ _ _ _ hres d hd
    · have hsome : (lookupNode td1 k).isSome := by
        rw [htd1somes, htd0ne _ hkx, hk]
        rfl
      cases hm : lookupNode td1 k with
      | none => rw [hm] at hsome; exact absurd hsome (by simp)
      | some m =>
        rw [hG] at hm
        by_cases hkp : k = node.parent_id
        · rw [if_pos hkp, htd0ne _ hkx, hk] at hm
          simp only [Option.map_some'] at hm
          injection hm with hm
          by_cases hdx : d = x
          · rw [hdx]
            exact removeLoop_none_stable _ _ _ _ hres x htd1x
          · have hkroot : t.root ≠ k := by
              intro hc
              have : k ∈ keys t := (lookupNode_isSome_iff _ _).mp (by rw [hk]; rfl)
              exact hrootk (hc ▸ this)
            have hchk : childrenOf t k = n2.children := childrenOf_of_lookup hkroot hk
            have hdPCL : some d ∈ PCL := by
              rw [hPCL]
              unfold detachTrim
              rw [mem_trim_vre_of_ne hdx, ← hkp, hchk]
              exact hd
            have hm2 : lookupNode td1 k =
                some { n2 with children := PCL } := by
              rw [hG, if_pos hkp, htd0ne _ hkx, hk]
              rfl
            exact removeLoop_cascade _ _ _ _ hres k _ hm2 hkres d hdPCL
        · rw [if_neg hkp, htd0ne _ hkx, hk] at hm
          injection hm with hm
          have hm2 : lookupNode td1 k = some n2 := by
            rw [hG, if_neg hkp, htd0ne _ hkx, hk]
          exact removeLoop_cascade _ _ _ _ hres k _ hm2 hkres d hd
  · -- provenance of erasures
    intro c cn hc hcres hcx
    have hsome : (lookupNode td1 c).isSome := by
      rw [htd1somes, htd0ne _ hcx, hc]
      rfl
    cases hm : lookupNode td1 c with
    | none => rw [hm] at hsome; exact absurd hsome (by simp)
    | some m =>
      rcases removeLoop_provenance _ _ _ _ hres c m hm hcres with h1 | h1
      · exact Or.inl h1
      · obtain ⟨q, nq1, hq1m, hq2m, hq3m⟩ := h1
        obtain ⟨n0, hl, _, _, _, _, hch, htrans, _⟩ := hE q nq1 hq1m
        refine Or.inr ⟨q, n0, hl, hq2m, ?_⟩
        rw [← hch]
        exact htrans c hq3m

end VirtualWidgetTree

theorem detachTrim_sublist (x : Nat) (l : List (Option Nat)) :
    (detachTrim x l).Sublist l := by
  unfold detachTrim
  refine (trimNones_sublist _).trans ?_
  rw [vre_snd_eq_erase]
  exact List.erase_sublist _ _

namespace VirtualWidgetTree

theorem remove_WF {t : VirtualWidgetTree} {x : Nat} (hwf : WFexcept t x)
    {node : WidgetTreeNode} (hx : lookupNode t.tree_data x = some node)
    {d : Option WidgetData} {t2 : VirtualWidgetTree}
    (hrem : remove t x = some (d, t2)) : WF t2 := by
  obtain ⟨t2', heq, hroot, hrdata, hrch, hnodup, hxgone, hper, hdeep,
    hchildgone, hcascade, hprov⟩ := remove_spec hwf hx
  rw [heq] at hrem
  injection hrem with hrem
  injection hrem with hd ht2
  subst ht2
  clear heq hd d
  obtain ⟨hnd, hrootk, hrd, hw4t, hw5t, hw6t, hw7t, hw8t⟩ := hwf
  have hxkeys : x ∈ keys t :=
    (lookupNode_isSome_iff _ _).mp (by rw [hx]; rfl)
  have hxroot : t.root ≠ x := fun hc => hrootk (hc ▸ hxkeys)
  -- the surviving keys come from the original tree
  have hsub : ∀ k, k ∈ keys t2' → k ∈ keys t := by
    intro k hk
    have hksome : (lookupNode t2'.tree_data k).isSome :=
      (lookupNode_isSome_iff _ _).mpr hk
    rcases hper k with h | ⟨_, h⟩ | ⟨_, pn, hpn, _⟩
    · rw [h] at hksome; exact absurd hksome (by simp)
    · rw [h] at hksome
      exact (lookupNode_isSome_iff _ _).mp hksome
    · exact (lookupNode_isSome_iff _ _).mp (by rw [hpn]; rfl)
  have hroot2 : t2'.root ∉ keys t2' := by
    rw [hroot]
    intro h
    exact hrootk (hsub _ h)
  -- surviving entries descend from original entries
  have hsurvive : ∀ k n2, lookupNode t2'.tree_data k = some n2 →
      ∃ n1, lookupNode t.tree_data k = some n1 ∧
        n2.parent_id = n1.parent_id ∧ n2.data = n1.data ∧
        (n2.children = n1.children ∨
          (k = node.parent_id ∧ n2.children = detachTrim x n1.children)) := by
    intro k n2 hk
    rcases hper k with h | ⟨_, h⟩ | ⟨hkp, pn, hpn, h⟩
    · rw [h] at hk; exact absurd hk (by simp)
    · rw [h] at hk
      exact ⟨n2, hk, rfl, rfl, Or.inl rfl⟩
    · rw [h] at hk
      injection hk with hk
      exact ⟨pn, hpn, by rw [← hk], by rw [← hk], Or.inr ⟨hkp, by rw [← hk]⟩⟩
  -- surviving child lists: detached at the removed widget's parent,
  -- untouched elsewhere
  have hch2 : ∀ p ∈ t2'.root :: keys t2',
      (p = node.parent_id ∧ childrenOf t2' p = detachTrim x (childrenOf t p)) ∨
      (p ≠ node.parent_id ∧ childrenOf t2' p = childrenOf t p) := by
    intro p hp
    rcases List.mem_cons.mp hp with hpr | hpk
    · have hpt : p = t.root := by rw [hpr, hroot]
      have h1 : childrenOf t2' p = t2'.root_children := by
        rw [hpr]; exact childrenOf_root t2'
      have h2 : childrenOf t p = t.root_children := by
        rw [hpt]; exact childrenOf_root t
      by_cases hc : t.root = node.parent_id
      · refine Or.inl ⟨by rw [hpt, ← hc], ?_⟩
        rw [h1, h2, hrch, if_pos hc]
      · refine Or.inr ⟨by rw [hpt]; exact hc, ?_⟩
        rw [h1, h2, hrch, if_neg hc]
    · have hksome : (lookupNode t2'.tree_data p).isSome :=
        (lookupNode_isSome_iff _ _).mpr hpk
      have hproot : t2'.root ≠ p := fun hc => hroot2 (hc ▸ hpk)
      have hproott : t.root ≠ p := by rw [← hroot]; exact hproot
      rcases hper p with h | ⟨hne, h⟩ | ⟨hkp, pn, hpn, h⟩
      · rw [h] at hksome; exact absurd hksome (by simp)
      · refine Or.inr ⟨hne, ?_⟩
        cases hl : lookupNode t.tree_data p with
        | none => rw [← h] at hl; rw [hl] at hksome; exact absurd hksome (by simp)
        | some n1 =>
          rw [childrenOf_of_lookup hproott hl]
          rw [← h] at hl
          exact childrenOf_of_lookup hproot hl
      · refine Or.inl ⟨hkp, ?_⟩
        rw [childrenOf_of_lookup hproott hpn]
        exact childrenOf_of_lookup hproot h
  -- surviving nodes keep a surviving parent
  have hpar2 : ∀ k n2, lookupNode t2'.tree_data k = some n2 →
      n2.parent_id = t2'.root ∨ n2.parent_id ∈ keys t2' := by
    intro k n2 hk
    obtain ⟨n1, hk1, hpp, _, _⟩ := hsurvive k n2 hk
    have hmem1 : (k, n1) ∈ t.tree_data := mem_of_lookupNode_eq_some hk1
    have hkx : k ≠ x := by
      intro hc
      rw [hc, hxgone] at hk
      exact absurd hk (by simp)
    rcases hw4t (k, n1) hmem1 with h | h
    · exact Or.inl (by rw [hpp, hroot]; exact h)
    · right
      rw [hpp]
      set p := n1.parent_id with hpdef
      have hpsome : (lookupNode t.tree_data p).isSome :=
        (lookupNode_isSome_iff _ _).mpr h
      cases hlp : lookupNode t.tree_data p with
      | none => rw [hlp] at hpsome; exact absurd hpsome (by simp)
      | some np =>
        cases hlp2 : lookupNode t2'.tree_data p with
        | some w => exact (lookupNode_isSome_iff _ _).mp (by rw [hlp2]; rfl)
        | none =>
          exfalso
          have hkc : some k ∈ np.children := by
            have := hw5t (k, n1) hmem1 hkx
            have hproott : t.root ≠ p := fun hc => hrootk (hc ▸ h)
            rw [childrenOf_of_lookup hproott hlp] at this
            exact this
          have := hcascade p np hlp hlp2 k hkc
          rw [this] at hk
          exact absurd hk (by simp)
  refine ⟨hnodup, hroot2, by rw [hrdata]; exact hrd, ?_, ?_, ?_, ?_, ?_⟩
  · -- parents resolvable
    intro e he
    have hk : lookupNode t2'.tree_data e.1 = some e.2 :=
      lookupNode_eq_some_of_mem hnodup (by exact he)
    exact hpar2 e.1 e.2 hk
  · -- membership in the parent's child list
    intro e he
    have hk : lookupNode t2'.tree_data e.1 = some e.2 :=
      lookupNode_eq_some_of_mem hnodup (by exact he)
    obtain ⟨n1, hk1, hpp, _, _⟩ := hsurvive e.1 e.2 hk
    have hmem1 : (e.1, n1) ∈ t.tree_data := mem_of_lookupNode_eq_some hk1
    have hkx : e.1 ≠ x := by
      intro hc
      rw [hc, hxgone] at hk
      exact absurd hk (by simp)
    have hmemp : some e.1 ∈ childrenOf t n1.parent_id := hw5t (e.1, n1) hmem1 hkx
    have hp2 : e.2.parent_id ∈ t2'.root :: keys t2' := by
      rcases hpar2 e.1 e.2 hk with h | h
      · exact h ▸ List.mem_cons_self _ _
      · exact List.mem_cons_of_mem _ h
    rcases hch2 e.2.parent_id hp2 with ⟨_, hcl⟩ | ⟨_, hcl⟩
    · rw [hcl, hpp]
      unfold detachTrim
      rw [mem_trim_vre_of_ne hkx]
      exact hmemp
    · rw [hcl, hpp]
      exact hmemp
  · -- occupied slots point back
    intro p hp s hs c hsc
    subst hsc
    have hprt : p ∈ t.root :: keys t := by
      rcases List.mem_cons.mp hp with h | h
      · rw [h, hroot]; exact List.mem_cons_self _ _
      · exact List.mem_cons_of_mem _ (hsub _ h)
    have hpx : p ≠ x := by
      intro hc
      rcases List.mem_cons.mp hp with h | h
      · exact hxroot (by rw [← hc, h, hroot])
      · rw [hc] at h
        have : (lookupNode t2'.tree_data x).isSome :=
          (lookupNode_isSome_iff _ _).mpr h
        rw [hxgone] at this
        exact absurd this (by simp)
    have hcount : (childrenOf t p).count (some x) ≤ 1 := by
      by_cases hm : some x ∈ childrenOf t p
      · exact hw7t p hprt (some x) hm (by simp)
      · rw [List.count_eq_zero_of_not_mem hm]; omega
    have hcx : c ≠ x := by
      intro hc
      subst hc
      rcases hch2 p hp with ⟨_, hcl⟩ | ⟨hne, hcl⟩
      · rw [hcl] at hs
        exact not_mem_trim_vre hcount hs
      · rw [hcl] at hs
        obtain ⟨n1, hn1, hnp⟩ := hw6t p hprt (some c) hs c rfl
        rw [hx] at hn1
        injection hn1 with hn1
        rw [← hn1] at hnp
        exact hne hnp.symm
    have hst : some c ∈ childrenOf t p := by
      rcases hch2 p hp with ⟨_, hcl⟩ | ⟨_, hcl⟩
      · rw [hcl] at hs
        exact (detachTrim_sublist _ _).subset hs
      · rw [hcl] at hs; exact hs
    obtain ⟨n1, hn1, hnp⟩ := hw6t p hprt (some c) hst c rfl
    cases hl2 : lookupNode t2'.tree_data c with
    | some n2 =>
      obtain ⟨n1', hn1', hpp, _, _⟩ := hsurvive c n2 hl2
      rw [hn1] at hn1'
      injection hn1' with hn1'
      exact ⟨n2, rfl, by rw [hpp, ← hn1', hnp]⟩
    | none =>
      exfalso
      rcases hprov c n1 hn1 hl2 hcx with h | ⟨q, nq, hq, hq2, hqc⟩
      · -- c would be a child of the removed widget: two parents
        have hcn : some c ∈ childrenOf t x := by
          rw [childrenOf_of_lookup hxroot hx]; exact h
        have hxrt : x ∈ t.root :: keys t := List.mem_cons_of_mem _ hxkeys
        obtain ⟨m, hm, hmp⟩ := hw6t x hxrt (some c) hcn c rfl
        rw [hn1] at hm
        injection hm with hm
        rw [← hm] at hmp
        exact hpx (by rw [← hnp, hmp])
      · -- c would be a child of an erased widget: two parents again
        have hqkeys : q ∈ keys t :=
          (lookupNode_isSome_iff _ _).mp (by rw [hq]; rfl)
        have hqroot : t.root ≠ q := fun hc => hrootk (hc ▸ hqkeys)
        have hcq : some c ∈ childrenOf t q := by
          rw [childrenOf_of_lookup hqroot hq]; exact hqc
        have hqrt : q ∈ t.root :: keys t := List.mem_cons_of_mem _ hqkeys
        obtain ⟨m, hm, hmp⟩ := hw6t q hqrt (some c) hcq c rfl
        rw [hn1] at hm
        injection hm with hm
        rw [← hm] at hmp
        -- so p = q; but q is erased while p survives
        have hpq : p = q := by rw [← hnp, hmp]
        rcases List.mem_cons.mp hp with h | h
        · exact hqroot (by rw [← hroot, ← h, hpq])
        · rw [hpq] at h
          have : (lookupNode t2'.tree_data q).isSome :=
            (lookupNode_isSome_iff _ _).mpr h
          rw [hq2] at this
          exact absurd this (by simp)
  · -- slot counts stay at most one
    intro p hp s hs hsn
    have hprt : p ∈ t.root :: keys t := by
      rcases List.mem_cons.mp hp with h | h
      · rw [h, hroot]; exact List.mem_cons_self _ _
      · exact List.mem_cons_of_mem _ (hsub _ h)
    rcases hch2 p hp with ⟨_, hcl⟩ | ⟨_, hcl⟩
    · rw [hcl] at hs ⊢
      have hst : s ∈ childrenOf t p := (detachTrim_sublist _ _).subset hs
      exact le_trans ((detachTrim_sublist _ _).count_le s)
        (hw7t p hprt s hst hsn)
    · rw [hcl] at hs ⊢
      exact hw7t p hprt s hs hsn
  · -- cached depths
    intro e he
    have hk : lookupNode t2'.tree_data e.1 = some e.2 :=
      lookupNode_eq_some_of_mem hnodup (by exact he)
    obtain ⟨n1, hk1, hpp, hdd, _⟩ := hsurvive e.1 e.2 hk
    have hmem1 : (e.1, n1) ∈ t.tree_data := mem_of_lookupNode_eq_some hk1
    have h8 := hw8t (e.1, n1) hmem1
    simp only at h8
    rw [hpp, hdd, h8]
    congr 1
    -- the parent's cached depth is unchanged
    rcases hpar2 e.1 e.2 hk with h | h
    · rw [hpp] at h
      rw [h, hroot, depthOf_root t, ← hroot, depthOf_root t2', hrdata]
    · rw [hpp] at h
      have hpsome : (lookupNode t2'.tree_data n1.parent_id).isSome :=
        (lookupNode_isSome_iff _ _).mpr h
      cases hlp : lookupNode t2'.tree_data n1.parent_id with
      | none => rw [hlp] at hpsome; exact absurd hpsome (by simp)
      | some np2 =>
        obtain ⟨np1, hnp1, _, hdnp, _⟩ := hsurvive n1.parent_id np2 hlp
        have hproot2 : t2'.root ≠ n1.parent_id := fun hc => hroot2 (hc ▸ h)
        have hproott : t.root ≠ n1.parent_id := by rw [← hroot]; exact hproot2
        rw [depthOf_of_lookup hproott hnp1, depthOf_of_lookup hproot2 hlp, hdnp]

end VirtualWidgetTree

namespace VirtualWidgetTree

/-- On a well-formed tree the parent chain from any present widget is the
full root path: it has `depth + 1` distinct entries, starts at the widget,
ends at the root, stays inside the tree, and follows stored parent links. -/
theorem chainToRoot_spec {t : VirtualWidgetTree} (hwf : WF t) :
    ∀ f d id, (id = t.root ∨ id ∈ keys t) → depthOf t id = d → d < f →
      (chainToRoot t f id).length = d + 1 ∧
      (chainToRoot t f id).head? = some id ∧
      (chainToRoot t f id).getLast? = some t.root ∧
      (∀ j ∈ chainToRoot t f id, (j = t.root ∨ j ∈ keys t) ∧ depthOf t j ≤ d) ∧
      (chainToRoot t f id).Nodup ∧
      List.Chain' (parentLink t) (chainToRoot t f id) := by
  obtain ⟨hnd, hrootk, hrd, hw4, hw5, hw6, hw7, hw8⟩ := hwf
  intro f
  induction f with
  | zero => intro d id _ _ h; omega
  | succ f ih =>
    intro d id hid hdep hdf
    rcases hid with hid | hid
    · -- the root: a one-element chain
      have hd0 : d = 0 := by
        rw [hid] at hdep
        rw [depthOf_root] at hdep
        omega
      have hchain : chainToRoot t (f + 1) id = [id] := by
        unfold chainToRoot
        rw [if_pos hid]
      rw [hchain, hd0]
      refine ⟨rfl, rfl, by rw [hid]; rfl, ?_, by simp, by simp⟩
      intro j hj
      simp only [List.mem_singleton] at hj
      subst hj
      exact ⟨Or.inl hid, by rw [hid, depthOf_root, hrd]⟩
    · -- a stored widget: step to the parent
      have hidroot : ¬ id = t.root := fun hc => hrootk (hc ▸ hid)
      have hsome : (lookupNode t.tree_data id).isSome :=
        (lookupNode_isSome_iff _ _).mpr hid
      cases hl : lookupNode t.tree_data id with
      | none => rw [hl] at hsome; exact absurd hsome (by simp)
      | some n =>
        have hchain : chainToRoot t (f + 1) id =
            id :: chainToRoot t f n.parent_id := by
          conv_lhs => unfold chainToRoot
          rw [if_neg hidroot, hl]
        have hmem : (id, n) ∈ t.tree_data := mem_of_lookupNode_eq_some hl
        have hdepid : depthOf t id = n.data.depth :=
          depthOf_of_lookup (fun hc => hidroot hc.symm) hl
        have h8 := hw8 (id, n) hmem
        simp only at h8
        have hdeq : d = depthOf t n.parent_id + 1 := by
          rw [← hdep, hdepid, h8]
        have hp : n.parent_id = t.root ∨ n.parent_id ∈ keys t := by
          simpa using hw4 (id, n) hmem
        obtain ⟨hlen, hhead, hlast, hmemc, hndc, hchc⟩ :=
          ih (depthOf t n.parent_id) n.parent_id hp rfl (by omega)
        cases hceq : chainToRoot t f n.parent_id with
        | nil => rw [hceq] at hlen; simp at hlen
        | cons b bs =>
          rw [hceq] at hlen hhead hlast hmemc hndc hchc
          rw [hchain, hceq]
          have hb : b = n.parent_id := by
            simpa using hhead
          refine ⟨?_, rfl, ?_, ?_, ?_, ?_⟩
          · simp only [List.length_cons] at hlen ⊢
            omega
          · rw [List.getLast?_cons_cons]
            exact hlast
          · intro j hj
            rcases List.mem_cons.mp hj with hj | hj
            · subst hj
              exact ⟨Or.inr hid, by omega⟩
            · obtain ⟨hj1, hj2⟩ := hmemc j hj
              exact ⟨hj1, by omega⟩
          · refine List.nodup_cons.mpr ⟨?_, hndc⟩
            intro hin
            have := (hmemc id hin).2
            omega
          · exact List.chain'_cons.mpr ⟨⟨n, hl, hb.symm⟩, hchc⟩

/-- Cached depths are bounded by the table size on a well-formed tree. -/
theorem depthOf_le_length {t : VirtualWidgetTree} (hwf : WF t) {id : Nat}
    (hid : id = t.root ∨ id ∈ keys t) :
    depthOf t id ≤ t.tree_data.length := by
  obtain ⟨hlen, _, _, hmem, hnd, _⟩ :=
    chainToRoot_spec hwf (depthOf t id + 1) (depthOf t id) id hid rfl (by omega)
  have hsubset : chainToRoot t (depthOf t id + 1) id ⊆ t.root :: keys t := by
    intro j hj
    rcases (hmem j hj).1 with h | h
    · exact h ▸ List.mem_cons_self _ _
    · exact List.mem_cons_of_mem _ h
  have hle := (List.subperm_of_subset hnd hsubset).length_le
  rw [hlen] at hle
  have : (keys t).length = t.tree_data.length := List.length_map _ _
  simp only [List.length_cons] at hle
  omega

/-- Membership in a root chain forces the root. -/
theorem mem_chain_root {t : VirtualWidgetTree} {x f : Nat}
    (h : x ∈ chainToRoot t f t.root) : x = t.root := by
  cases f with
  | zero => simp [chainToRoot] at h
  | succ f =>
    unfold chainToRoot at h
    rw [if_pos rfl] at h
    simpa using h

/-- Everything in the removed widget's subtree is erased by `remove`. -/
theorem remove_subtree_gone {t : VirtualWidgetTree} {x : Nat}
    (hwf : WFexcept t x) {node : WidgetTreeNode}
    (hx : lookupNode t.tree_data x = some node)
    {d : Option WidgetData} {t2 : VirtualWidgetTree}
    (hrem : remove t x = some (d, t2)) :
    ∀ f y, x ∈ chainToRoot t f y → lookupNode t2.tree_data y = none := by
  obtain ⟨t2', heq, hroot, _, _, _, hxgone, _, _, _, hcascade, _⟩ :=
    remove_spec hwf hx
  rw [heq] at hrem
  injection hrem with hrem
  injection hrem with _ ht2
  subst ht2
  obtain ⟨hnd, hrootk, hrd, hw4, hw5, hw6, hw7, hw8⟩ := hwf
  have hxkeys : x ∈ keys t :=
    (lookupNode_isSome_iff _ _).mp (by rw [hx]; rfl)
  intro f
  induction f with
  | zero => intro y hy; simp [chainToRoot] at hy
  | succ f ih =>
    intro y hy
    by_cases hyr : y = t.root
    · rw [hyr] at hy
      exact absurd (mem_chain_root hy) (fun hc => hrootk (hc ▸ hxkeys))
    · unfold chainToRoot at hy
      rw [if_neg hyr] at hy
      cases hl : lookupNode t.tree_data y with
      | none => rw [hl] at hy; simp at hy
      | some m =>
        rw [hl] at hy
        rcases List.mem_cons.mp hy with hxy | hxy
        · rw [← hxy]
          exact hxgone
        · by_cases hyx : y = x
          · rw [hyx]
            exact hxgone
          have hpgone := ih m.parent_id hxy
          have hymem : (y, m) ∈ t.tree_data := mem_of_lookupNode_eq_some hl
          rcases hw4 (y, m) hymem with hpr | hpk
          · -- the parent is the root: the chain from the root holds only
            -- the root, never the stored widget x
            simp only at hpr
            rw [hpr] at hxy
            have := mem_chain_root hxy
            exact absurd this (fun hc => hrootk (hc ▸ hxkeys))
          · simp only at hpk
            have hpsome : (lookupNode t.tree_data m.parent_id).isSome :=
              (lookupNode_isSome_iff _ _).mpr hpk
            cases hlp : lookupNode t.tree_data m.parent_id with
            | none => rw [hlp] at hpsome; exact absurd hpsome (by simp)
            | some np =>
              have hyc : some y ∈ np.children := by
                have := hw5 (y, m) hymem hyx
                simp only at this
                have hproott : t.root ≠ m.parent_id :=
                  fun hc => hrootk (hc ▸ hpk)
                rw [childrenOf_of_lookup hproott hlp] at this
                exact this
              exact hcascade m.parent_id np hlp hpgone y hyc

end VirtualWidgetTree

namespace VirtualWidgetTree

/-- C4 (amended): on a well-formed tree, removing a stored (hence
non-root) widget succeeds and erases its whole subtree — afterwards
`parent` fails with `WidgetNotFound` on every widget of that subtree,
the removed one included; removing an id that is not stored (the root
among them, on which the Rust function returns `None` despite the root
being present) is a no-op returning `None`. -/
theorem remove_subtree_amended (t : VirtualWidgetTree) (hwf : WF t) (x : Nat) :
    (x ∈ keys t → ∃ dat t2, remove t x = some (some dat, t2) ∧
      ∀ y, inSubtree t x y →
        parent t2 y = Except.error WidgetRelationError.WidgetNotFound) ∧
    (x ∉ keys t → remove t x = some (none, t)) := by
  constructor
  · intro hx
    have hxsome : (lookupNode t.tree_data x).isSome :=
      (lookupNode_isSome_iff _ _).mpr hx
    cases hl : lookupNode t.tree_data x with
    | none => rw [hl] at hxsome; exact absurd hxsome (by simp)
    | some node =>
      obtain ⟨t2', heq, hroot, _, _, _, _, _, _, _, _, _⟩ :=
        remove_spec (WF.toExcept hwf x) hl
      refine ⟨node.data, t2', heq, ?_⟩
      intro y hy
      have hygone : lookupNode t2'.tree_data y = none :=
        remove_subtree_gone (WF.toExcept hwf x) hl heq (t.tree_data.length + 1) y hy
      have hyroot : ¬ y = t2'.root := by
        intro hc
        rw [hc, hroot] at hy
        have := mem_chain_root hy
        exact hwf.2.1 (this ▸ hx)
      unfold parent
      rw [if_neg hyroot, hygone]
  · intro hx
    have hl : lookupNode t.tree_data x = none := by
      cases h : lookupNode t.tree_data x with
      | none => rfl
      | some n =>
        exact absurd ((lookupNode_isSome_iff _ _).mp (by rw [h]; rfl)) hx
    unfold remove
    rw [hl]

/-- Witness for C4 (amended) at a concrete input: removing widget 1 from
the two-child tree erases its subtree, and removing it again (once it is
no longer stored) is a no-op. -/
theorem remove_subtree_amended_witness :
    WF treeTwoChildren ∧
    ((1 ∈ keys treeTwoChildren →
        ∃ dat t2, remove treeTwoChildren 1 = some (some dat, t2) ∧
          ∀ y, inSubtree treeTwoChildren 1 y →
            parent t2 y = Except.error WidgetRelationError.WidgetNotFound) ∧
      (1 ∉ keys treeTwoChildren →
        remove treeTwoChildren 1 = some (none, treeTwoChildren))) :=
  ⟨by decide, remove_subtree_amended treeTwoChildren (by decide) 1⟩

end VirtualWidgetTree

namespace VirtualWidgetTree

/-- The items yielded by the `path_reversed` iterator from a present node
whose ident/parent fetch succeeded: with enough fuel the walk yields the
full root path. -/
theorem pathRevAux_spec {t : VirtualWidgetTree} (hwf : WF t) :
    ∀ f d id ident0 ir po, depthOf t id = d → d < f →
      get_widget_and_parent t id = some (ir, po) →
      (pathRevAux t f ident0 id po).length = d + 1 ∧
      (pathRevAux t f ident0 id po).head? =
        some { ident := ident0, id := id } ∧
      ((pathRevAux t f ident0 id po).map PathRevItem.id).getLast? =
        some t.root ∧
      List.Chain' (parentLink t)
        ((pathRevAux t f ident0 id po).map PathRevItem.id) := by
  obtain ⟨hnd, hrootk, hrd, hw4, hw5, hw6, hw7, hw8⟩ := hwf
  intro f
  induction f with
  | zero => intro d id ident0 ir po _ h _; omega
  | succ f ih =>
    intro d id ident0 ir po hdep hdf hg
    cases po with
    | none =>
      -- only the root carries no parent link
      have hidroot : t.root = id := by
        by_contra hc
        unfold get_widget_and_parent at hg
        rw [if_neg hc] at hg
        cases hl : lookupNode t.tree_data id with
        | none => rw [hl] at hg; exact absurd hg (by simp)
        | some n =>
          rw [hl] at hg
          simp only [Option.map_some'] at hg
          injection hg with hg
          have h2 := congrArg Prod.snd hg
          simp at h2
      have hd0 : d = 0 := by
        rw [← hidroot] at hdep
        rw [depthOf_root, hrd] at hdep
        omega
      subst hd0
      refine ⟨rfl, rfl, ?_, ?_⟩
      · show ([{ ident := ident0, id := id }].map PathRevItem.id).getLast? =
          some t.root
        simp [hidroot]
      · show List.Chain' (parentLink t)
          ([{ ident := ident0, id := id }].map PathRevItem.id)
        simp
    | some p =>
      have hidroot : ¬ t.root = id := by
        intro hc
        unfold get_widget_and_parent at hg
        rw [if_pos hc] at hg
        injection hg with hg
        have := congrArg Prod.snd hg
        simp at this
      cases hl : lookupNode t.tree_data id with
      | none =>
        unfold get_widget_and_parent at hg
        rw [if_neg hidroot, hl] at hg
        exact absurd hg (by simp)
      | some n =>
        have hp : p = n.parent_id := by
          unfold get_widget_and_parent at hg
          rw [if_neg hidroot, hl] at hg
          simp only [Option.map_some'] at hg
          injection hg with hg
          have := congrArg Prod.snd hg
          simp at this
          exact this.symm
        have hmem : (id, n) ∈ t.tree_data := mem_of_lookupNode_eq_some hl
        have h8 := hw8 (id, n) hmem
        simp only at h8
        have hdepid : depthOf t id = n.data.depth := depthOf_of_lookup hidroot hl
        have hdeq : d = depthOf t n.parent_id + 1 := by
          rw [← hdep, hdepid, h8]
        have hpmem : n.parent_id = t.root ∨ n.parent_id ∈ keys t := by
          simpa using hw4 (id, n) hmem
        -- the parent's own fetch succeeds
        have hgp : ∃ pi pp, get_widget_and_parent t n.parent_id = some (pi, pp) := by
          rcases hpmem with h | h
          · exact ⟨t.root_data.ident, none, by
              unfold get_widget_and_parent
              rw [if_pos h.symm]⟩
          · have hpsome : (lookupNode t.tree_data n.parent_id).isSome :=
              (lookupNode_isSome_iff _ _).mpr h
            cases hlp : lookupNode t.tree_data n.parent_id with
            | none => rw [hlp] at hpsome; exact absurd hpsome (by simp)
            | some np =>
              refine ⟨np.data.ident, some np.parent_id, ?_⟩
              have hproott : ¬ t.root = n.parent_id := fun hc => hrootk (hc ▸ h)
              unfold get_widget_and_parent
              rw [if_neg hproott, hlp]
              rfl
        obtain ⟨pi, pp, hgp⟩ := hgp
        subst hp
        have haux : pathRevAux t (f + 1) ident0 id (some n.parent_id) =
            { ident := ident0, id := id } :: pathRevAux t f pi n.parent_id pp := by
          simp only [pathRevAux]
          rw [hgp]
        obtain ⟨hlen, hhead, hlast, hch⟩ :=
          ih (depthOf t n.parent_id) n.parent_id pi pi pp rfl (by omega) hgp
        rw [haux]
        cases hceq : pathRevAux t f pi n.parent_id pp with
        | nil => rw [hceq] at hlen; simp at hlen
        | cons b bs =>
          rw [hceq] at hlen hhead hlast hch
          have hb : b = { ident := pi, id := n.parent_id } := by
            simpa using hhead
          refine ⟨?_, rfl, ?_, ?_⟩
          · simp only [List.length_cons] at hlen ⊢
            omega
          · simp only [List.map_cons] at hlast ⊢
            rw [List.getLast?_cons_cons]
            exact hlast
          · simp only [List.map_cons] at hch ⊢
            refine List.chain'_cons.mpr ⟨⟨n, hl, ?_⟩, hch⟩
            rw [hb]

end VirtualWidgetTree

namespace VirtualWidgetTree

/-- C9: on a well-formed tree, `path_reversed` of a present widget yields
the full root path — `depth + 1` items starting at the widget, following
stored parent links, ending at the root — and returns `None` exactly on
unknown ids. -/
theorem path_reversed_root_path (t : VirtualWidgetTree) (hwf : WF t) (id : Nat) :
    (present t id → ∃ items, path_reversed t id = some items ∧
      items.length = depthOf t id + 1 ∧
      (items.map PathRevItem.id).head? = some id ∧
      (items.map PathRevItem.id).getLast? = some t.root ∧
      List.Chain' (parentLink t) (items.map PathRevItem.id)) ∧
    (¬ present t id → path_reversed t id = none) := by
  constructor
  · intro hp
    have hid : t.root = id ∨ id ∈ keys t := by
      unfold present get_widget_node at hp
      by_cases hr : t.root = id
      · exact Or.inl hr
      · rw [if_neg hr] at hp
        right
        cases hl : lookupNode t.tree_data id with
        | none => rw [hl] at hp; exact absurd hp (by simp)
        | some n => exact (lookupNode_isSome_iff _ _).mp (by rw [hl]; rfl)
    have hgs : (get_widget_and_parent t id).isSome := by
      unfold get_widget_and_parent
      rcases hid with h | h
      · rw [if_pos h]; rfl
      · by_cases hr : t.root = id
        · rw [if_pos hr]; rfl
        · rw [if_neg hr]
          have : (lookupNode t.tree_data id).isSome :=
            (lookupNode_isSome_iff _ _).mpr h
          cases hl : lookupNode t.tree_data id with
          | none => rw [hl] at this; exact absurd this (by simp)
          | some n => rfl
    cases hg : get_widget_and_parent t id with
    | none => rw [hg] at hgs; exact absurd hgs (by simp)
    | some pr =>
      obtain ⟨ir, po⟩ := pr
      have hidk : id = t.root ∨ id ∈ keys t := by
        rcases hid with h | h
        · exact Or.inl h.symm
        · exact Or.inr h
      have hdlt : depthOf t id < t.tree_data.length + 1 := by
        have := depthOf_le_length hwf hidk
        omega
      obtain ⟨hlen, hhead, hlast, hch⟩ :=
        pathRevAux_spec hwf (t.tree_data.length + 1) (depthOf t id) id ir ir po
          rfl hdlt hg
      refine ⟨pathRevAux t (t.tree_data.length + 1) ir id po, ?_, hlen, ?_,
        hlast, hch⟩
      · unfold path_reversed
        rw [hg]
      · rw [List.head?_map, hhead]
        rfl
  · intro hnp
    have hg : get_widget_and_parent t id = none := by
      unfold present get_widget_node at hnp
      unfold get_widget_and_parent
      by_cases hr : t.root = id
      · rw [if_pos hr] at hnp
        exact absurd rfl hnp
      · rw [if_neg hr] at hnp
        rw [if_neg hr]
        cases hl : lookupNode t.tree_data id with
        | none => rfl
        | some n => rw [hl] at hnp; exact absurd rfl hnp
    unfold path_reversed
    rw [hg]

/-- Witness for C9 at a concrete input: the root path of widget 1 in the
two-child tree. -/
theorem path_reversed_root_path_witness :
    WF treeTwoChildren ∧
    ((present treeTwoChildren 1 →
        ∃ items, path_reversed treeTwoChildren 1 = some items ∧
          items.length = depthOf treeTwoChildren 1 + 1 ∧
          (items.map PathRevItem.id).head? = some 1 ∧
          (items.map PathRevItem.id).getLast? = some treeTwoChildren.root ∧
          List.Chain' (parentLink treeTwoChildren) (items.map PathRevItem.id)) ∧
      (¬ present treeTwoChildren 1 → path_reversed treeTwoChildren 1 = none)) :=
  ⟨by decide, path_reversed_root_path treeTwoChildren (by decide) 1⟩

end VirtualWidgetTree

/-- Truncating remainder negates with its dividend. -/
theorem tmod_neg_left (a b : Int) : Int.tmod (-a) b = -Int.tmod a b := by
  rw [Int.tmod_def, Int.tmod_def, Int.neg_tdiv]
  ring

/-- For a positive divisor the truncating remainder exceeds the negated
divisor. -/
theorem tmod_gt_neg {i rhs : Int} (h : 0 < rhs) : -rhs < Int.tmod i rhs := by
  by_cases hi : 0 ≤ i
  · have := Int.tmod_nonneg rhs hi
    omega
  · have h1 : Int.tmod i rhs = -Int.tmod (-i) rhs := by
      rw [← tmod_neg_left]
      simp
    have h2 : Int.tmod (-i) rhs < rhs := Int.tmod_lt_of_pos (-i) h
    omega

namespace VirtualWidgetTree

/-- The `mod_euc` closure of `sibling_wrapping` computes the Euclidean
remainder when the divisor is positive. -/
theorem mod_euc_eq_emod (i rhs : Int) (h : 0 < rhs) : mod_euc i rhs = i % rhs := by
  show (if Int.tmod i rhs < 0 then
      (if rhs < 0 then Int.tmod i rhs - rhs else Int.tmod i rhs + rhs)
    else Int.tmod i rhs) = i % rhs
  have hA : Int.tmod i rhs % rhs = i % rhs := by
    rw [Int.tmod_def]
    have he : i - rhs * i.tdiv rhs = i + -i.tdiv rhs * rhs := by ring
    rw [he, Int.add_mul_emod_self]
  by_cases hr : Int.tmod i rhs < 0
  · rw [if_pos hr, if_neg (by omega : ¬ rhs < 0)]
    have hlow : -rhs < Int.tmod i rhs := tmod_gt_neg h
    have h1 : (Int.tmod i rhs + rhs) % rhs = i % rhs := by
      have he2 : Int.tmod i rhs + rhs = Int.tmod i rhs + 1 * rhs := by ring
      rw [he2, Int.add_mul_emod_self]
      exact hA
    rw [← h1, Int.emod_eq_of_lt (by omega) (by omega)]
  · rw [if_neg hr]
    have h3 : Int.tmod i rhs < rhs := Int.tmod_lt_of_pos i h
    rw [← hA, Int.emod_eq_of_lt (by omega) h3]

/-- C3 (amended): on a well-formed tree, for a stored widget whose
parent's child list has no empty placeholder slots, `sibling_wrapping`
always returns an occupied slot (never fails and never yields `None`),
and it is periodic in the offset with period the sibling count. -/
theorem sibling_wrapping_dense_amended {t : VirtualWidgetTree} (hwf : WF t)
    {id : Nat} {n : WidgetTreeNode} (hid : lookupNode t.tree_data id = some n)
    (hdense : none ∉ childrenOf t n.parent_id) (k : Int) :
    (∃ w, sibling_wrapping t id k = some (some w)) ∧
    sibling_wrapping t id k =
      sibling_wrapping t id (k + (childrenOf t n.parent_id).length) := by
  obtain ⟨hnd, hrootk, hrd, hw4, hw5, hw6, hw7, hw8⟩ := hwf
  have hmem : (id, n) ∈ t.tree_data := mem_of_lookupNode_eq_some hid
  have hidk : id ∈ keys t := List.mem_map.mpr ⟨(id, n), hmem, rfl⟩
  have hidroot : ¬ id = t.root := fun hc => hrootk (hc ▸ hidk)
  have hm : some id ∈ childrenOf t n.parent_id := hw5 (id, n) hmem
  have hpg : ∃ pd, get_widget_node t n.parent_id =
      some (pd, childrenOf t n.parent_id) := by
    rcases hw4 (id, n) hmem with h | h
    · simp only at h
      refine ⟨t.root_data, ?_⟩
      rw [h]
      rw [get_widget_node_root, childrenOf_root]
    · simp only at h
      have hpsome : (lookupNode t.tree_data n.parent_id).isSome :=
        (lookupNode_isSome_iff _ _).mpr h
      cases hlp : lookupNode t.tree_data n.parent_id with
      | none => rw [hlp] at hpsome; exact absurd hpsome (by simp)
      | some np =>
        refine ⟨np.data, ?_⟩
        have hproott : t.root ≠ n.parent_id := fun hc => hrootk (hc ▸ h)
        rw [childrenOf_of_lookup hproott hlp]
        unfold get_widget_node
        rw [if_neg hproott, hlp]
        rfl
  obtain ⟨pd, hpg⟩ := hpg
  set sibs := childrenOf t n.parent_id with hsibs
  have hfis : (find_index (some id) sibs).isSome :=
    (find_index_isSome_iff _ _).mpr hm
  cases hfi : find_index (some id) sibs with
  | none => rw [hfi] at hfis; exact absurd hfis (by simp)
  | some idx =>
    obtain ⟨hidxlt, hidxget⟩ := find_index_get hfi
    have hidxD : sibs.getD idx none = some id := by
      rw [List.getD_eq_get?, hidxget]
      rfl
    have hlen0 : sibs.length ≠ 0 := by
      intro hc
      rw [List.length_eq_zero] at hc
      rw [hc] at hm
      simp at hm
    have hlenpos : (0 : Int) < (sibs.length : Int) := by
      omega
    -- the modular branch always lands on an occupied slot
    have hbranch : ∀ off : Int, off ≠ 0 →
        sibling_wrapping t id off =
          some (sibs.getD (mod_euc (idx + off) sibs.length).toNat none) := by
      intro off hoff
      unfold sibling_wrapping
      rw [if_neg hidroot, hid]
      simp only
      rw [if_neg hoff, hpg]
      simp only
      rw [hfi]
      simp only
      rw [if_neg hlen0]
    have hslot : ∀ off : Int, ∃ w,
        sibs.getD (mod_euc (idx + off) sibs.length).toNat none = some w := by
      intro off
      have hj := mod_euc_eq_emod (idx + off) sibs.length hlenpos
      have hnonneg : 0 ≤ mod_euc (idx + off) sibs.length := by
        rw [hj]
        exact Int.emod_nonneg _ (by omega)
      have hlt : mod_euc (idx + off) sibs.length < sibs.length := by
        rw [hj]
        exact Int.emod_lt_of_pos _ hlenpos
      have hjlt : (mod_euc (idx + off) sibs.length).toNat < sibs.length := by
        omega
      have hget : sibs.getD (mod_euc (idx + off) sibs.length).toNat none =
          sibs.get ⟨(mod_euc (idx + off) sibs.length).toNat, hjlt⟩ := by
        rw [List.getD_eq_get?, List.get?_eq_get hjlt]
        rfl
      have hin : sibs.get ⟨(mod_euc (idx + off) sibs.length).toNat, hjlt⟩ ∈ sibs :=
        List.get_mem _ _ _
      cases hv : sibs.get ⟨(mod_euc (idx + off) sibs.length).toNat, hjlt⟩ with
      | none =>
        rw [hv] at hin
        exact absurd hin hdense
      | some w =>
        refine ⟨w, ?_⟩
        rw [hget, hv]
    -- periodicity: the shifted offset lands on the same slot
    have hper : ∀ off : Int, off ≠ 0 → off + sibs.length ≠ 0 →
        mod_euc (idx + off) sibs.length =
          mod_euc (idx + (off + sibs.length)) sibs.length := by
      intro off _ _
      rw [mod_euc_eq_emod _ _ hlenpos, mod_euc_eq_emod _ _ hlenpos]
      have he : (idx : Int) + (off + sibs.length) =
          ((idx : Int) + off) + 1 * sibs.length := by ring
      rw [he, Int.add_mul_emod_self]
    have hzero : sibling_wrapping t id 0 = some (some id) := by
      unfold sibling_wrapping
      rw [if_neg hidroot, hid]
      simp
    have hself : ∀ off : Int, off ≠ 0 →
        ((idx : Int) + off) % (sibs.length : Int) =
          (idx : Int) % (sibs.length : Int) →
        sibling_wrapping t id off = some (some id) := by
      intro off hoff hcong
      rw [hbranch off hoff]
      have hj := mod_euc_eq_emod ((idx : Int) + off) sibs.length hlenpos
      have hidxmod : ((idx : Int) + off) % (sibs.length : Int) = (idx : Int) := by
        rw [hcong, Int.emod_eq_of_lt (by omega) (by omega)]
      rw [hj, hidxmod]
      have h5 : ((idx : Int)).toNat = idx := rfl
      rw [h5, hidxD]
    constructor
    · -- totality
      by_cases hk : k = 0
      · exact ⟨id, by rw [hk]; exact hzero⟩
      · obtain ⟨w, hw⟩ := hslot k
        exact ⟨w, by rw [hbranch k hk, hw]⟩
    · -- periodicity
      by_cases hk : k = 0
      · subst hk
        have hkl : (sibs.length : Int) ≠ 0 := by omega
        have hp2 : sibling_wrapping t id ((0 : Int) + sibs.length) =
            some (some id) := by
          rw [zero_add]
          refine hself (sibs.length : Int) hkl ?_
          have he : (idx : Int) + sibs.length =
              (idx : Int) + 1 * sibs.length := by ring
          rw [he, Int.add_mul_emod_self]
        rw [hzero, hp2]
      · by_cases hk2 : k + (sibs.length : Int) = 0
        · have hp1 : sibling_wrapping t id k = some (some id) := by
            refine hself k hk ?_
            have h6 : (idx : Int) + k + 1 * (sibs.length : Int) = (idx : Int) := by
              omega
            calc ((idx : Int) + k) % (sibs.length : Int)
                = ((idx : Int) + k + 1 * (sibs.length : Int)) %
                    (sibs.length : Int) := (Int.add_mul_emod_self).symm
              _ = (idx : Int) % (sibs.length : Int) := by rw [h6]
          rw [hk2, hzero, hp1]
        · rw [hbranch k hk, hbranch _ hk2, hper k hk hk2]

end VirtualWidgetTree

namespace VirtualWidgetTree

/-- Witness for C3 (amended) at a concrete input: widget 1 of the
two-child tree (dense sibling list `[1, 2]`), offset `-5`. -/
theorem sibling_wrapping_dense_amended_witness :
    WF treeTwoChildren ∧
    lookupNode treeTwoChildren.tree_data 1 =
      some { parent_id := 0, children := [],
             data := { ident := WidgetIdent.Num 1, depth := 1 } } ∧
    none ∉ childrenOf treeTwoChildren 0 ∧
    ((∃ w, sibling_wrapping treeTwoChildren 1 (-5) = some (some w)) ∧
      sibling_wrapping treeTwoChildren 1 (-5) =
        sibling_wrapping treeTwoChildren 1 (-5 + (childrenOf treeTwoChildren 0).length)) :=
  ⟨by decide, by decide, by decide,
    @sibling_wrapping_dense_amended treeTwoChildren (by decide) 1
      { parent_id := 0, children := [],
        data := { ident := WidgetIdent.Num 1, depth := 1 } }
      (by decide) (by decide) (-5)⟩

end VirtualWidgetTree

/-- Trailing-`none` trimming keeps a list that ends in an occupied slot. -/
theorem trimNones_append_some (l : List (Option Nat)) (c : Nat) :
    trimNones (l ++ [some c]) = l ++ [some c] := by
  induction l with
  | nil => rfl
  | cons a as ih =>
    show (let r := trimNones (as ++ [some c]);
      if r = [] ∧ a = none then [] else a :: r) = a :: (as ++ [some c])
    rw [ih]
    rw [if_neg]
    intro h
    exact absurd h.1 (by simp)

/-- Writing the final slot of a snoc list. -/
theorem set_append_last {α : Type} (l : List α) (a v : α) :
    (l ++ [a]).set l.length v = l ++ [v] := by
  induction l with
  | nil => rfl
  | cons b bs ih =>
    show b :: (bs ++ [a]).set bs.length v = b :: (bs ++ [v])
    rw [ih]

/-- Reading the final slot of a snoc list. -/
theorem getD_append_last {α : Type} (l : List α) (a d : α) :
    (l ++ [a]).getD l.length d = a := by
  induction l with
  | nil => rfl
  | cons b bs ih =>
    show (bs ++ [a]).getD bs.length d = a
    exact ih

/-- A pointwise-trivial update leaves the table unchanged. -/
theorem mapNode_eq_self (td : List (Nat × WidgetTreeNode)) (k : Nat)
    (f : WidgetTreeNode → WidgetTreeNode)
    (h : ∀ n, (k, n) ∈ td → f n = n) : mapNode td k f = td := by
  induction td with
  | nil => rfl
  | cons e rest ih =>
    obtain ⟨k2, n⟩ := e
    rw [mapNode]
    rw [ih (fun n hn => h n (List.mem_cons_of_mem _ hn))]
    by_cases hk : k2 = k
    · rw [if_pos hk]
      subst hk
      rw [h n (List.mem_cons_self _ _)]
    · rw [if_neg hk]

namespace VirtualWidgetTree

/-- Writing the root's child list back unchanged is the identity. -/
theorem setChildren_self_root (t : VirtualWidgetTree) :
    setChildren t t.root t.root_children = t := by
  unfold setChildren
  rw [if_pos rfl]

/-- Writing a stored node's child list back unchanged is the identity. -/
theorem setChildren_self_key (t : VirtualWidgetTree) {p : Nat}
    (hnd : (keys t).Nodup) (hproot : t.root ≠ p) {np : WidgetTreeNode}
    (hlp : lookupNode t.tree_data p = some np) :
    setChildren t p np.children = t := by
  unfold setChildren
  rw [if_neg hproot]
  have : mapNode t.tree_data p (fun n => { n with children := np.children }) =
      t.tree_data := by
    refine mapNode_eq_self _ _ _ ?_
    intro n hn
    have := lookupNode_eq_some_of_mem hnd hn
    rw [hlp] at this
    injection this with this
    rw [← this]
  rw [this]

/-- On a well-formed tree the parent of a stored widget resolves, to its
recorded child list. -/
theorem get_widget_node_parent {t : VirtualWidgetTree} (hwf : WF t) {p : Nat}
    (hp : p = t.root ∨ p ∈ keys t) :
    ∃ pd, get_widget_node t p = some (pd, childrenOf t p) := by
  rcases hp with h | h
  · refine ⟨t.root_data, ?_⟩
    rw [h, get_widget_node_root, childrenOf_root]
  · have hpsome : (lookupNode t.tree_data p).isSome :=
      (lookupNode_isSome_iff _ _).mpr h
    cases hlp : lookupNode t.tree_data p with
    | none => rw [hlp] at hpsome; exact absurd hpsome (by simp)
    | some np =>
      refine ⟨np.data, ?_⟩
      have hproot : t.root ≠ p := fun hc => hwf.2.1 (hc ▸ h)
      rw [childrenOf_of_lookup hproot hlp]
      unfold get_widget_node
      rw [if_neg hproot, hlp]
      rfl

end VirtualWidgetTree

namespace VirtualWidgetTree

/-- A record rebuilt from its own fields is itself. -/
theorem tree_eta (t : VirtualWidgetTree) :
    ({ root := t.root, root_data := t.root_data,
       root_children := t.root_children,
       tree_data := t.tree_data } : VirtualWidgetTree) = t := rfl

/-- The same-parent fixpoint of `insert`: when the widget already occupies
the final slot of its parent's child list, with the same ident, the insert
returns the tree unchanged. -/
theorem insert_fixpoint {t : VirtualWidgetTree} (hwf : WF t)
    {p id ci : Nat} {ident : WidgetIdent} {node : WidgetTreeNode}
    {l : List (Option Nat)}
    (hid : lookupNode t.tree_data id = some node)
    (hpar : node.parent_id = p) (hident : node.data.ident = ident)
    (hcl : childrenOf t p = l ++ [some id]) (hnotl : some id ∉ l)
    (hci : ci = l.length) :
    insert t p id ci ident = some (Except.ok t) := by
  have hmem : (id, node) ∈ t.tree_data := mem_of_lookupNode_eq_some hid
  have hidk : id ∈ keys t := List.mem_map.mpr ⟨(id, node), hmem, rfl⟩
  have hidroot : ¬ id = t.root := fun hc => hwf.2.1 (hc ▸ hidk)
  have hp : p = t.root ∨ p ∈ keys t := by
    have := hwf.2.2.2.1 (id, node) hmem
    simp only at this
    rw [hpar] at this
    exact this
  obtain ⟨pd, hpg⟩ := get_widget_node_parent hwf hp
  have hch1 : (vec_remove_element (some id) (l ++ [some id])).2 = l := by
    rw [vre_snd_eq_erase, List.erase_append_right _ hnotl]
    simp
  have ht1 : setChildren t p (l ++ [some id]) = t := by
    rcases hp with h | h
    · rw [← hcl, h, childrenOf_root]
      exact setChildren_self_root t
    · have hpsome : (lookupNode t.tree_data p).isSome :=
        (lookupNode_isSome_iff _ _).mpr h
      cases hlp : lookupNode t.tree_data p with
      | none => rw [hlp] at hpsome; exact absurd hpsome (by simp)
      | some np =>
        have hproot : t.root ≠ p := fun hc => hwf.2.1 (hc ▸ h)
        have hchp : childrenOf t p = np.children := childrenOf_of_lookup hproot hlp
        rw [← hcl, hchp]
        exact setChildren_self_key t hwf.1 hproot hlp
  have ht2 : mapNode t.tree_data id (fun n =>
      { n with parent_id := p, data := { n.data with ident := ident } }) =
      t.tree_data := by
    refine mapNode_eq_self _ _ _ ?_
    intro n hn
    have hlook := lookupNode_eq_some_of_mem hwf.1 hn
    rw [hid] at hlook
    injection hlook with hlook
    subst hlook
    rw [← hpar, ← hident]
  rw [hcl] at hpg
  unfold insert
  rw [if_neg hidroot, hpg]
  simp only
  rw [hch1, hci]
  rw [if_pos (le_refl _)]
  rw [Nat.add_sub_cancel_left, List.replicate_one]
  rw [getD_append_last, set_append_last]
  rw [ht1, hid]
  simp only
  rw [ht2, tree_eta, hpar, hpg]
  simp only
  rw [trimNones_append_some, ht1]
  rfl

/-- C5 (amended): repeated insertion of the identical tuple is idempotent
once the widget sits in the final slot of its parent's child list — from
such a state every further application returns the same tree.  (In
general states the repeat is not idempotent: each application can evict a
further sibling, as the counterexample records.) -/
theorem insert_repeat_amended {t : VirtualWidgetTree} (hwf : WF t)
    {p id ci : Nat} {ident : WidgetIdent} {node : WidgetTreeNode}
    {l : List (Option Nat)}
    (hid : lookupNode t.tree_data id = some node)
    (hpar : node.parent_id = p) (hident : node.data.ident = ident)
    (hcl : childrenOf t p = l ++ [some id]) (hnotl : some id ∉ l)
    (hci : ci = l.length) (N : Nat) :
    applyOps t (List.replicate N (TreeOp.insert p id ci ident)) = some t := by
  induction N with
  | zero => rfl
  | succ n ih =>
    rw [List.replicate_succ]
    unfold applyOps applyOp
    simp only
    rw [insert_fixpoint hwf hid hpar hident hcl hnotl hci]
    exact ih

/-- Witness for C5 (amended) at a concrete input: widget 3 occupies the
only slot of the root's child list, and four repeats of the insert that
put it there leave the tree untouched. -/
theorem insert_repeat_amended_witness :
    WF treeRepeatTwice ∧
    lookupNode treeRepeatTwice.tree_data 3 =
      some { parent_id := 0, children := [],
             data := { ident := WidgetIdent.Num 3, depth := 1 } } ∧
    childrenOf treeRepeatTwice 0 = [] ++ [some 3] ∧
    applyOps treeRepeatTwice
      (List.replicate 4 (TreeOp.insert 0 3 0 (WidgetIdent.Num 3))) =
      some treeRepeatTwice :=
  ⟨by decide, by decide, by decide,
    @insert_repeat_amended treeRepeatTwice (by decide) 0 3 0
      (WidgetIdent.Num 3)
      { parent_id := 0, children := [],
        data := { ident := WidgetIdent.Num 3, depth := 1 } } []
      (by decide) rfl rfl (by decide) (by decide) rfl 4⟩

end VirtualWidgetTree

theorem sameShape_refl (td : List (Nat × WidgetTreeNode)) : sameShape td td :=
  ⟨rfl, fun _ => rfl⟩

theorem sameShape_trans {a b c : List (Nat × WidgetTreeNode)}
    (h1 : sameShape a b) (h2 : sameShape b c) : sameShape a c :=
  ⟨h1.1.trans h2.1, fun k => (h1.2 k).trans (h2.2 k)⟩

theorem sameShape_symm {a b : List (Nat × WidgetTreeNode)}
    (h : sameShape a b) : sameShape b a :=
  ⟨h.1.symm, fun k => (h.2 k).symm⟩

/-- Entries correspond across a shape equality. -/
theorem sameShape_lookup {a b : List (Nat × WidgetTreeNode)}
    (h : sameShape a b) {k : Nat} {n : WidgetTreeNode}
    (hk : lookupNode a k = some n) :
    ∃ n2, lookupNode b k = some n2 ∧ n2.parent_id = n.parent_id ∧
      n2.children = n.children := by
  have := h.2 k
  rw [hk] at this
  cases hb : lookupNode b k with
  | none => rw [hb] at this; exact absurd this (by simp)
  | some n2 =>
    rw [hb] at this
    simp only [Option.map_some'] at this
    injection this with this
    unfold nshape at this
    rw [Prod.mk.injEq] at this
    exact ⟨n2, rfl, this.1.symm, this.2.symm⟩

/-- A data-only in-place update preserves the shape. -/
theorem sameShape_mapNode (td : List (Nat × WidgetTreeNode)) (k : Nat)
    (f : WidgetTreeNode → WidgetTreeNode)
    (hf : ∀ n, (f n).parent_id = n.parent_id ∧ (f n).children = n.children) :
    sameShape td (mapNode td k f) := by
  refine ⟨(mapNode_keys td k f).symm, ?_⟩
  intro j
  by_cases hj : j = k
  · subst hj
    rw [lookupNode_mapNode_self]
    cases h : lookupNode td j with
    | none => rfl
    | some n =>
      simp only [Option.map_some']
      unfold nshape
      rw [(hf n).1, (hf n).2]
  · rw [lookupNode_mapNode_ne td f hj]

/-- Reachability only depends on the shape. -/
theorem reach_shape {a b : List (Nat × WidgetTreeNode)} (h : sameShape a b)
    {x y : Nat} (hr : ReachTd a x y) : ReachTd b x y := by
  induction hr with
  | refl => exact ReachTd.refl _
  | step hr hl hc ih =>
    obtain ⟨n2, hl2, _, hch⟩ := sameShape_lookup h hl
    exact ReachTd.step ih hl2 (by rw [hch]; exact hc)

/-- Cycles only depend on the shape. -/
theorem cycAt_shape {a b : List (Nat × WidgetTreeNode)} (h : sameShape a b)
    {q : Nat} (hc : CycAt a q) : CycAt b q := by
  obtain ⟨n, hl, c, hcm, hr⟩ := hc
  obtain ⟨n2, hl2, _, hch⟩ := sameShape_lookup h hl
  exact ⟨n2, hl2, c, by rw [hch]; exact hcm, reach_shape h hr⟩

theorem reach_trans {td : List (Nat × WidgetTreeNode)} {a b c : Nat}
    (h1 : ReachTd td a b) (h2 : ReachTd td b c) : ReachTd td a c := by
  induction h2 with
  | refl => exact h1
  | step _ hl hc ih => exact ReachTd.step ih hl hc

/-- Splitting off the first edge of a reachability path. -/
theorem reach_head {td : List (Nat × WidgetTreeNode)} {a b : Nat}
    (h : ReachTd td a b) :
    a = b ∨ ∃ n c, lookupNode td a = some n ∧ some c ∈ n.children ∧
      ReachTd td c b := by
  induction h with
  | refl => exact Or.inl rfl
  | step hr hl hc ih =>
    rcases ih with heq | ⟨n', c', hl', hc', hr'⟩
    · subst heq
      exact Or.inr ⟨_, _, hl, hc, ReachTd.refl _⟩
    · exact Or.inr ⟨n', c', hl', hc', ReachTd.step hr' hl hc⟩

/-- When every occupied slot points back to its holder, a nontrivially
reached node is reached through its stored parent. -/
theorem reach_parent {td : List (Nat × WidgetTreeNode)}
    (hB : ∀ k n, lookupNode td k = some n → ∀ c, some c ∈ n.children →
      ∃ m, lookupNode td c = some m ∧ m.parent_id = k)
    {a k : Nat} (h : ReachTd td a k) (hne : k ≠ a) {m : WidgetTreeNode}
    (hm : lookupNode td k = some m) : ReachTd td a m.parent_id := by
  cases h with
  | refl => exact absurd rfl hne
  | step hr hl hc =>
    obtain ⟨m2, hm2, hp2⟩ := hB _ _ hl _ hc
    rw [hm] at hm2
    injection hm2 with hm2
    rw [← hm2] at hp2
    rw [hp2]
    exact hr

/-- Subtrees of distinct children of a cycle-free node are disjoint: with
back-pointing slots every node has a single in-neighbour, so two paths
into the same node coincide backwards. -/
theorem reach_disjoint {td : List (Nat × WidgetTreeNode)}
    (hB : ∀ k n, lookupNode td k = some n → ∀ c, some c ∈ n.children →
      ∃ m, lookupNode td c = some m ∧ m.parent_id = k)
    {q : Nat} {nq : WidgetTreeNode} (hq : lookupNode td q = some nq)
    (hnocyc : ¬ CycAt td q) {c c' : Nat} (hc : some c ∈ nq.children)
    (hc' : some c' ∈ nq.children) (hne : c ≠ c') {x : Nat}
    (h1 : ReachTd td c x) (h2 : ReachTd td c' x) : False := by
  revert h2
  induction h1 with
  | refl =>
    intro h2
    cases h2 with
    | refl => exact hne rfl
    | step hr hl hcm =>
      obtain ⟨m, hm, hp⟩ := hB _ _ hl _ hcm
      obtain ⟨m2, hm2, hp2⟩ := hB _ _ hq _ hc
      rw [hm2] at hm
      injection hm with hm
      rw [← hm, hp2] at hp
      rw [← hp] at hr
      exact hnocyc ⟨nq, hq, c', hc', hr⟩
  | step hr hl hcm ih =>
    intro h2
    cases h2 with
    | refl =>
      obtain ⟨m, hm, hp⟩ := hB _ _ hl _ hcm
      obtain ⟨m2, hm2, hp2⟩ := hB _ _ hq _ hc'
      rw [hm2] at hm
      injection hm with hm
      rw [← hm, hp2] at hp
      rw [← hp] at hr
      exact hnocyc ⟨nq, hq, c, hc, hr⟩
    | step hr2 hl2 hcm2 =>
      obtain ⟨m, hm, hp⟩ := hB _ _ hl _ hcm
      obtain ⟨m2, hm2, hp2⟩ := hB _ _ hl2 _ hcm2
      rw [hm2] at hm
      injection hm with hm
      rw [← hm, hp2] at hp
      rw [hp] at hr2
      exact ih hr2

/-- `update_node_depth` and its child loop only rewrite depth fields:
whenever they return, the table keeps its keys and link structure. -/
theorem updShape : ∀ f : Nat,
    (∀ td d q td2, update_node_depth f td d q = some td2 → sameShape td td2) ∧
    (∀ td d cs td2, updateChildrenDepth f td d cs = some td2 →
      sameShape td td2) := by
  intro f
  induction f with
  | zero =>
    constructor
    · intro td d q td2 h
      exact absurd h (by simp [update_node_depth])
    · intro td d cs td2 h
      induction cs generalizing td with
      | nil =>
        unfold updateChildrenDepth at h
        injection h with h
        rw [h]
        exact sameShape_refl _
      | cons a rest ihcs =>
        cases a with
        | none =>
          unfold updateChildrenDepth at h
          exact ihcs td h
        | some c =>
          unfold updateChildrenDepth at h
          rw [show update_node_depth 0 td d c = none from by
            simp [update_node_depth]] at h
          exact absurd h (by simp)
  | succ f ih =>
    have h1 : ∀ td d q td2, update_node_depth (f + 1) td d q = some td2 →
        sameShape td td2 := by
      intro td d q td2 h
      unfold update_node_depth at h
      cases hl : lookupNode td q with
      | none => rw [hl] at h; exact absurd h (by simp)
      | some node =>
        rw [hl] at h
        simp only at h
        have s1 : sameShape td (mapNode td q (fun n =>
            { n with data := { n.data with depth := d } })) :=
          sameShape_mapNode td q _ (fun n => ⟨rfl, rfl⟩)
        exact sameShape_trans s1 (ih.2 _ _ _ _ h)
    refine ⟨h1, ?_⟩
    intro td d cs td2 h
    induction cs generalizing td with
    | nil =>
      unfold updateChildrenDepth at h
      injection h with h
      rw [h]
      exact sameShape_refl _
    | cons a rest ihcs =>
      cases a with
      | none =>
        unfold updateChildrenDepth at h
        exact ihcs td h
      | some c =>
        unfold updateChildrenDepth at h
        cases hres : update_node_depth (f + 1) td d c with
        | none => rw [hres] at h; exact absurd h (by simp)
        | some tdc =>
          rw [hres] at h
          simp only at h
          exact sameShape_trans (h1 _ _ _ _ hres) (ihcs tdc h)

/-- When the walk of `update_node_depth` can reach a node that lies on a
child-link cycle, the recursion never completes: it returns `none` for
every fuel (modelling the Rust non-termination). -/
theorem updDiverge : ∀ f : Nat,
    (∀ td d q, (∃ k, ReachTd td q k ∧ CycAt td k) →
      update_node_depth f td d q = none) ∧
    (∀ td d cs, (∃ c k, some c ∈ cs ∧ ReachTd td c k ∧ CycAt td k) →
      updateChildrenDepth f td d cs = none) := by
  intro f
  induction f with
  | zero =>
    constructor
    · intro td d q _
      simp [update_node_depth]
    · intro td d cs hcyc
      induction cs with
      | nil => simp at hcyc
      | cons a rest ihcs =>
        cases a with
        | none =>
          obtain ⟨c, k, hc, hr, hcy⟩ := hcyc
          simp only [List.mem_cons] at hc
          rcases hc with hc | hc
          · exact absurd hc (by simp)
          · unfold updateChildrenDepth
            exact ihcs ⟨c, k, hc, hr, hcy⟩
        | some c' =>
          unfold updateChildrenDepth
          rw [show update_node_depth 0 td d c' = none from by
            simp [update_node_depth]]
  | succ f ih =>
    have h1 : ∀ td d q, (∃ k, ReachTd td q k ∧ CycAt td k) →
        update_node_depth (f + 1) td d q = none := by
      intro td d q ⟨k, hreach, hcyc⟩
      unfold update_node_depth
      cases hl : lookupNode td q with
      | none => rfl
      | some node =>
        simp only
        set td1 := mapNode td q (fun n =>
          { n with data := { n.data with depth := d } }) with htd1
        have hsh : sameShape td td1 :=
          sameShape_mapNode td q _ (fun n => ⟨rfl, rfl⟩)
        refine ih.2 td1 (d + 1) node.children ?_
        rcases reach_head hreach with heq | ⟨n, c, hln, hcm, hcr⟩
        · -- q itself lies on the cycle
          subst heq
          obtain ⟨n, hln, c, hcm, hcr⟩ := hcyc
          rw [hl] at hln
          injection hln with hln
          subst hln
          exact ⟨c, q, hcm, reach_shape hsh hcr,
            cycAt_shape hsh ⟨node, hl, c, hcm, hcr⟩⟩
        · rw [hl] at hln
          injection hln with hln
          subst hln
          exact ⟨c, k, hcm, reach_shape hsh hcr, cycAt_shape hsh hcyc⟩
    refine ⟨h1, ?_⟩
    intro td d cs hcyc
    induction cs generalizing td with
    | nil => simp at hcyc
    | cons a rest ihcs =>
      obtain ⟨c, k, hc, hr, hcy⟩ := hcyc
      cases a with
      | none =>
        simp only [List.mem_cons] at hc
        rcases hc with hc | hc
        · exact absurd hc (by simp)
        · unfold updateChildrenDepth
          exact ihcs td ⟨c, k, hc, hr, hcy⟩
      | some c' =>
        unfold updateChildrenDepth
        simp only [List.mem_cons] at hc
        rcases hc with hc | hc
        · injection hc with hc
          subst hc
          rw [h1 td d c ⟨k, hr, hcy⟩]
        · cases hres : update_node_depth (f + 1) td d c' with
          | none => rfl
          | some tdc =>
            simp only
            have hsh : sameShape td tdc := (updShape (f + 1)).1 _ _ _ _ hres
            exact ihcs tdc ⟨c, k, hc, reach_shape hsh hr, cycAt_shape hsh hcy⟩

/-- Back-pointing slots transfer across a shape equality. -/
theorem shape_hB {td td2 : List (Nat × WidgetTreeNode)} (h : sameShape td td2)
    (hB : ∀ k n, lookupNode td k = some n → ∀ c, some c ∈ n.children →
      ∃ m, lookupNode td c = some m ∧ m.parent_id = k) :
    ∀ k n, lookupNode td2 k = some n → ∀ c, some c ∈ n.children →
      ∃ m, lookupNode td2 c = some m ∧ m.parent_id = k := by
  intro k n hk c hc
  obtain ⟨n0, hn0, _, hch0⟩ := sameShape_lookup (sameShape_symm h) hk
  rw [← hch0] at hc
  obtain ⟨m, hm, hmp⟩ := hB k n0 hn0 c hc
  obtain ⟨m2, hm2, hp2, _⟩ := sameShape_lookup h hm
  exact ⟨m2, hm2, by rw [hp2, hmp]⟩

/-- Slot-count bounds transfer across a shape equality. -/
theorem shape_hD {td td2 : List (Nat × WidgetTreeNode)} (h : sameShape td td2)
    (hD : ∀ k n, lookupNode td k = some n → ∀ c : Nat,
      n.children.count (some c) ≤ 1) :
    ∀ k n, lookupNode td2 k = some n → ∀ c : Nat,
      n.children.count (some c) ≤ 1 := by
  intro k n hk c
  obtain ⟨n0, hn0, _, hch0⟩ := sameShape_lookup (sameShape_symm h) hk
  rw [← hch0]
  exact hD k n0 hn0 c

/-- Correctness of `update_node_depth` when it terminates: on a table with
back-pointing, at-most-once child slots and no cycle reachable from the
start node, the walk rewrites exactly the subtree of the start node — the
start node gets the requested depth, every other visited node gets its
parent's final depth plus one, and everything else is untouched. -/
theorem updCorrect : ∀ f : Nat,
    (∀ td d q td2,
      (∀ k n, lookupNode td k = some n → ∀ c, some c ∈ n.children →
        ∃ m, lookupNode td c = some m ∧ m.parent_id = k) →
      (∀ k n, lookupNode td k = some n → ∀ c : Nat,
        n.children.count (some c) ≤ 1) →
      (∀ k, ReachTd td q k → ¬ CycAt td k) →
      update_node_depth f td d q = some td2 →
      sameShape td td2 ∧
      (∀ k, ¬ ReachTd td q k → lookupNode td2 k = lookupNode td k) ∧
      (lookupNode td2 q).map (fun n => n.data.depth) = some d ∧
      (∀ k n2, lookupNode td2 k = some n2 → ReachTd td q k → k ≠ q →
        ∃ np2, lookupNode td2 n2.parent_id = some np2 ∧
          n2.data.depth = np2.data.depth + 1)) ∧
    (∀ td d' cs td2 q nq,
      (∀ k n, lookupNode td k = some n → ∀ c, some c ∈ n.children →
        ∃ m, lookupNode td c = some m ∧ m.parent_id = k) →
      (∀ k n, lookupNode td k = some n → ∀ c : Nat,
        n.children.count (some c) ≤ 1) →
      lookupNode td q = some nq →
      (∀ c, some c ∈ cs → some c ∈ nq.children) →
      (∀ c : Nat, cs.count (some c) ≤ 1) →
      (∀ k, ReachTd td q k → ¬ CycAt td k) →
      nq.data.depth + 1 = d' →
      updateChildrenDepth f td d' cs = some td2 →
      sameShape td td2 ∧
      (∀ k, (∀ c, some c ∈ cs → ¬ ReachTd td c k) →
        lookupNode td2 k = lookupNode td k) ∧
      (∀ k n2, lookupNode td2 k = some n2 →
        (∃ c, some c ∈ cs ∧ ReachTd td c k) →
        ∃ np2, lookupNode td2 n2.parent_id = some np2 ∧
          n2.data.depth = np2.data.depth + 1)) := by
  intro f
  induction f with
  | zero =>
    constructor
    · intro td d q td2 _ _ _ h
      exact absurd h (by simp [update_node_depth])
    · intro td d' cs td2 q nq hB hD hq hcs hcnt hnocyc hd h
      induction cs generalizing td with
      | nil =>
        unfold updateChildrenDepth at h
        injection h with h
        subst h
        refine ⟨sameShape_refl _, fun k _ => rfl, ?_⟩
        intro k n2 _ hex
        obtain ⟨c, hc, _⟩ := hex
        simp at hc
      | cons a rest ihcs =>
        cases a with
        | none =>
          unfold updateChildrenDepth at h
          obtain ⟨sh, fr, sub⟩ := ihcs td hB hD hq
            (fun c hc => hcs c (List.mem_cons_of_mem _ hc))
            (fun c => le_trans ((List.sublist_cons_self _ _).count_le _) (hcnt c))
            hnocyc h
          refine ⟨sh, ?_, ?_⟩
          · intro k hk
            exact fr k (fun c hc => hk c (List.mem_cons_of_mem _ hc))
          · intro k n2 hk2 ⟨c, hc, hr⟩
            simp only [List.mem_cons] at hc
            rcases hc with hc | hc
            · exact absurd hc (by simp)
            · exact sub k n2 hk2 ⟨c, hc, hr⟩
        | some c =>
          unfold updateChildrenDepth at h
          rw [show update_node_depth 0 td d' c = none from by
            simp [update_node_depth]] at h
          exact absurd h (by simp)
  | succ f ih =>
    have h1 : ∀ td d q td2,
        (∀ k n, lookupNode td k = some n → ∀ c, some c ∈ n.children →
          ∃ m, lookupNode td c = some m ∧ m.parent_id = k) →
        (∀ k n, lookupNode td k = some n → ∀ c : Nat,
          n.children.count (some c) ≤ 1) →
        (∀ k, ReachTd td q k → ¬ CycAt td k) →
        update_node_depth (f + 1) td d q = some td2 →
        sameShape td td2 ∧
        (∀ k, ¬ ReachTd td q k → lookupNode td2 k = lookupNode td k) ∧
        (lookupNode td2 q).map (fun n => n.data.depth) = some d ∧
        (∀ k n2, lookupNode td2 k = some n2 → ReachTd td q k → k ≠ q →
          ∃ np2, lookupNode td2 n2.parent_id = some np2 ∧
            n2.data.depth = np2.data.depth + 1) := by
      intro td d q td2 hB hD hnocyc h
      unfold update_node_depth at h
      cases hl : lookupNode td q with
      | none => rw [hl] at h; exact absurd h (by simp)
      | some node =>
        rw [hl] at h
        simp only at h
        have hsh1 : sameShape td (mapNode td q (fun n =>
            { n with data := { n.data with depth := d } })) :=
          sameShape_mapNode td q _ (fun n => ⟨rfl, rfl⟩)
        have hq1 : lookupNode (mapNode td q (fun n =>
            { n with data := { n.data with depth := d } })) q =
            some { node with data := { node.data with depth := d } } := by
          rw [lookupNode_mapNode_self, hl]
          rfl
        have hnocyc1 : ∀ k, ReachTd (mapNode td q (fun n =>
            { n with data := { n.data with depth := d } })) q k →
            ¬ CycAt (mapNode td q (fun n =>
              { n with data := { n.data with depth := d } })) k := by
          intro k hr hcy
          exact hnocyc k (reach_shape (sameShape_symm hsh1) hr)
            (cycAt_shape (sameShape_symm hsh1) hcy)
        obtain ⟨sh2, fr2, sub2⟩ := ih.2 _ (d + 1) node.children td2 q
          { node with data := { node.data with depth := d } }
          (shape_hB hsh1 hB) (shape_hD hsh1 hD) hq1 (fun c hc => hc)
          (hD q node hl) hnocyc1 rfl h
        have hedge : ∀ c, some c ∈ node.children → ReachTd td q c :=
          fun c hc => ReachTd.step (ReachTd.refl q) hl hc
        refine ⟨sameShape_trans hsh1 sh2, ?_, ?_, ?_⟩
        · intro k hk
          have hkq : k ≠ q := fun heq => hk (by rw [heq]; exact ReachTd.refl q)
          rw [fr2 k ?_]
          · exact lookupNode_mapNode_ne td _ hkq
          · intro c hc hr
            exact hk (reach_trans (hedge c hc)
              (reach_shape (sameShape_symm hsh1) hr))
        · rw [fr2 q ?_, hq1]
          · rfl
          · intro c hc hr
            exact hnocyc q (ReachTd.refl q)
              ⟨node, hl, c, hc, reach_shape (sameShape_symm hsh1) hr⟩
        · intro k n2 hk2 hreach hneq
          rcases reach_head hreach with heq | ⟨n, c0, hlq, hc0, hcr⟩
          · exact absurd heq.symm hneq
          · rw [hl] at hlq
            injection hlq with hlq
            subst hlq
            exact sub2 k n2 hk2 ⟨c0, hc0, reach_shape hsh1 hcr⟩
    refine ⟨h1, ?_⟩
    intro td d' cs td2 q nq hB hD hq hcs hcnt hnocyc hd h
    induction cs generalizing td with
    | nil =>
      unfold updateChildrenDepth at h
      injection h with h
      subst h
      refine ⟨sameShape_refl _, fun k _ => rfl, ?_⟩
      intro k n2 _ hex
      obtain ⟨c, hc, _⟩ := hex
      simp at hc
    | cons a rest ihcs =>
      cases a with
      | none =>
        unfold updateChildrenDepth at h
        obtain ⟨sh, fr, sub⟩ := ihcs td hB hD hq
          (fun c hc => hcs c (List.mem_cons_of_mem _ hc))
          (fun c => le_trans ((List.sublist_cons_self _ _).count_le _) (hcnt c))
          hnocyc h
        refine ⟨sh, ?_, ?_⟩
        · intro k hk
          exact fr k (fun c hc => hk c (List.mem_cons_of_mem _ hc))
        · intro k n2 hk2 ⟨c, hc, hr⟩
          simp only [List.mem_cons] at hc
          rcases hc with hc | hc
          · exact absurd hc (by simp)
          · exact sub k n2 hk2 ⟨c, hc, hr⟩
      | some c =>
        unfold updateChildrenDepth at h
        cases hres : update_node_depth (f + 1) td d' c with
        | none => rw [hres] at h; exact absurd h (by simp)
        | some tdc =>
          rw [hres] at h
          simp only at h
          have hcmem : some c ∈ nq.children := hcs c (List.mem_cons_self _ _)
          have hnocycc : ∀ k, ReachTd td c k → ¬ CycAt td k := by
            intro k hr
            exact hnocyc k (reach_trans (ReachTd.step (ReachTd.refl q) hq hcmem) hr)
          obtain ⟨shc, frc, depc, subc⟩ := h1 td d' c tdc hB hD hnocycc hres
          have hqreach : ¬ ReachTd td c q := by
            intro hr
            exact hnocyc q (ReachTd.refl q) ⟨nq, hq, c, hcmem, hr⟩
          have hqtdc : lookupNode tdc q = some nq := by
            rw [frc q hqreach]
            exact hq
          -- disjointness of the head subtree from the later ones
          have hdisj : ∀ c'' k, some c'' ∈ rest → ReachTd td c'' k →
              ReachTd td c k → False := by
            intro c'' k hm h1r h2r
            have hne : c ≠ c'' := by
              intro heq
              subst heq
              have hcount := hcnt c
              rw [List.count_cons_self] at hcount
              have : rest.count (some c) = 0 := by omega
              rw [← List.count_pos_iff] at hm
              omega
            exact reach_disjoint hB hq (hnocyc q (ReachTd.refl q)) hcmem
              (hcs c'' (List.mem_cons_of_mem _ hm)) hne h2r h1r
          obtain ⟨shr, frr, subr⟩ := ihcs tdc (shape_hB shc hB) (shape_hD shc hD)
            hqtdc
            (fun c' hc' => hcs c' (List.mem_cons_of_mem _ hc'))
            (fun c' => le_trans ((List.sublist_cons_self _ _).count_le _) (hcnt c'))
            (fun k hr hcy => hnocyc k (reach_shape (sameShape_symm shc) hr)
              (cycAt_shape (sameShape_symm shc) hcy))
            h
          have hqtd2 : lookupNode td2 q = some nq := by
            rw [frr q ?_]
            · exact hqtdc
            · intro c'' hm hr
              exact hnocyc q (ReachTd.refl q)
                ⟨nq, hq, c'', hcs c'' (List.mem_cons_of_mem _ hm),
                  reach_shape (sameShape_symm shc) hr⟩
          refine ⟨sameShape_trans shc shr, ?_, ?_⟩
          · intro k hk
            rw [frr k ?_]
            · exact frc k (hk c (List.mem_cons_self _ _))
            · intro c'' hm hr
              exact hk c'' (List.mem_cons_of_mem _ hm)
                (reach_shape (sameShape_symm shc) hr)
          · intro k n2 hk2 ⟨c', hc', hreach⟩
            by_cases hrc : ReachTd td c k
            · -- the head child's subtree: settled by the head call and
              -- untouched afterwards
              have hfr : lookupNode td2 k = lookupNode tdc k := by
                refine frr k ?_
                intro c'' hm hr
                exact hdisj c'' k hm (reach_shape (sameShape_symm shc) hr) hrc
              rw [hfr] at hk2
              by_cases hkc : k = c
              · subst hkc
                have hn2d : n2.data.depth = d' := by
                  have := depc
                  rw [hk2] at this
                  simp only [Option.map_some'] at this
                  injection this with this
                have hpar : n2.parent_id = q := by
                  obtain ⟨m, hmk, hmp⟩ := hB q nq hq k hcmem
                  obtain ⟨m2, hm2, hp2, _⟩ := sameShape_lookup shc hmk
                  rw [hk2] at hm2
                  injection hm2 with hm2
                  rw [hm2, hp2, hmp]
                refine ⟨nq, ?_, ?_⟩
                · rw [hpar]
                  exact hqtd2
                · rw [hn2d, ← hd]
              · obtain ⟨np2, hnp2, hdep⟩ := subc k n2 hk2 hrc hkc
                have hparreach : ReachTd td c n2.parent_id := by
                  obtain ⟨m, hmk, hpm, _⟩ :=
                    sameShape_lookup (sameShape_symm shc) hk2
                  have := reach_parent hB hrc hkc hmk
                  rw [← hpm]
                  exact this
                have hfrp : lookupNode td2 n2.parent_id =
                    lookupNode tdc n2.parent_id := by
                  refine frr _ ?_
                  intro c'' hm hr
                  exact hdisj c'' _ hm (reach_shape (sameShape_symm shc) hr)
                    hparreach
                refine ⟨np2, ?_, hdep⟩
                rw [hfrp]
                exact hnp2
            · -- a later child's subtree
              have hc'rest : some c' ∈ rest := by
                simp only [List.mem_cons] at hc'
                rcases hc' with hc' | hc'
                · injection hc' with hc'
                  subst hc'
                  exact absurd hreach hrc
                · exact hc'
              exact subr k n2 hk2 ⟨c', hc'rest, reach_shape shc hreach⟩

/-- An element that does not sit in the overwritten slot survives a `set`. -/
theorem mem_set_of_getD_ne {α : Type} {l : List α} {a v d : α} {i : Nat}
    (ha : a ∈ l) (hne : l.getD i d ≠ a) : a ∈ l.set i v := by
  obtain ⟨j, hj, hget⟩ := List.mem_iff_getElem.mp ha
  have hji : j ≠ i := by
    intro heq
    subst heq
    rw [List.getD_eq_getElem?_getD] at hne
    rw [List.getElem?_eq_getElem hj] at hne
    exact hne hget
  refine List.mem_iff_getElem.mpr ⟨j, ?_, ?_⟩
  · rw [List.length_set]
    exact hj
  · rw [List.getElem_set_ne (fun h => hji h.symm)]
    exact hget

/-- The overwritten value lands in the list. -/
theorem mem_set_self {α : Type} {l : List α} {v : α} {i : Nat}
    (hi : i < l.length) : v ∈ l.set i v := by
  refine List.mem_iff_getElem.mpr ⟨i, ?_, ?_⟩
  · rw [List.length_set]
    exact hi
  · exact List.getElem_set_self ..

/-- Counts after overwriting a slot, for values other than the written
one. -/
theorem count_set_le (l : List (Option Nat)) (i : Nat)
    (v s : Option Nat) :
    (l.set i v).count s ≤ l.count s + (if s = v then 1 else 0) := by
  induction l generalizing i with
  | nil => simp
  | cons a as ih =>
    cases i with
    | zero =>
      rw [List.set_cons_zero, List.count_cons, List.count_cons]
      simp only [beq_iff_eq]
      split_ifs <;> first | omega | simp_all
    | succ j =>
      rw [List.set_cons_succ, List.count_cons, List.count_cons]
      simp only [beq_iff_eq]
      have := ih j
      split_ifs at * <;> first | omega | simp_all

/-- Writing a fresh value into a slot yields exactly one occurrence. -/
theorem count_set_self {l : List (Option Nat)} {v : Option Nat}
    {i : Nat} (hv : v ∉ l) (hi : i < l.length) : (l.set i v).count v = 1 := by
  induction l generalizing i with
  | nil => simp at hi
  | cons a as ih =>
    simp only [List.mem_cons, not_or] at hv
    cases i with
    | zero =>
      rw [List.set_cons_zero, List.count_cons]
      rw [List.count_eq_zero_of_not_mem hv.2]
      simp
    | succ j =>
      rw [List.set_cons_succ, List.count_cons]
      rw [ih hv.2 (by simpa using hi)]
      have hav : ¬ a = v := fun h => hv.1 h.symm
      simp [hav]

/-- Trimming trailing empties does not move earlier occupied slots. -/
theorem getD_trimNones {l : List (Option Nat)} {i : Nat} {c : Nat}
    (h : l.getD i none = some c) : (trimNones l).getD i none = some c := by
  induction l generalizing i with
  | nil => simp at h
  | cons a as ih =>
    cases i with
    | zero =>
      rw [List.getD_cons_zero] at h
      show (let r := trimNones as;
        if r = [] ∧ a = none then [] else a :: r).getD 0 none = some c
      rw [if_neg (fun hc => by rw [h] at hc; exact absurd hc.2 (by simp))]
      rw [List.getD_cons_zero]
      exact h
    | succ j =>
      rw [List.getD_cons_succ] at h
      have hih := ih h
      have hne : trimNones as ≠ [] := by
        intro hnil
        rw [hnil] at hih
        simp at hih
      show (let r := trimNones as;
        if r = [] ∧ a = none then [] else a :: r).getD (j + 1) none = some c
      rw [if_neg (fun hc => hne hc.1)]
      rw [List.getD_cons_succ]
      exact hih

namespace VirtualWidgetTree

/-- Membership in a root chain is stable under tree transformations that
keep the root and every parent link of the chain's nodes (only the widget
`id`, which the chain avoids, may have been re-parented or added). -/
theorem chain_mem_transfer {t t5 : VirtualWidgetTree} {id : Nat}
    (hroot : t5.root = t.root)
    (hpar : ∀ y, y ≠ id →
      (lookupNode t5.tree_data y).map (fun n => n.parent_id) =
        (lookupNode t.tree_data y).map (fun n => n.parent_id)) :
    ∀ f y w, w ∈ chainToRoot t f y → id ∉ chainToRoot t f y →
      w ∈ chainToRoot t5 f y := by
  intro f
  induction f with
  | zero => intro y w hw _; simp [chainToRoot] at hw
  | succ f ih =>
    intro y w hw hid
    by_cases hyr : y = t.root
    · unfold chainToRoot at hw
      rw [if_pos hyr] at hw
      simp only [List.mem_singleton] at hw
      subst hw
      unfold chainToRoot
      rw [if_pos (by rw [hroot]; exact hyr)]
      simp
    · unfold chainToRoot at hw hid
      rw [if_neg hyr] at hw hid
      cases hl : lookupNode t.tree_data y with
      | none => rw [hl] at hw; simp at hw
      | some m =>
        rw [hl] at hw hid
        simp only [List.mem_cons, not_or] at hid
        have hyid : y ≠ id := fun hc => hid.1 hc.symm
        have hp := hpar y hyid
        rw [hl] at hp
        cases hl5 : lookupNode t5.tree_data y with
        | none => rw [hl5] at hp; exact absurd hp (by simp)
        | some m5 =>
          rw [hl5] at hp
          simp only [Option.map_some'] at hp
          injection hp with hp
          unfold chainToRoot
          rw [if_neg (by rw [hroot]; exact hyr), hl5]
          simp only at hw ⊢
          rw [hp]
          rcases List.mem_cons.mp hw with hw | hw
          · exact hw ▸ List.mem_cons_self _ _
          · exact List.mem_cons_of_mem _ (ih m.parent_id w hw hid.2)

end VirtualWidgetTree

/-- The slot arithmetic of `insert`: detach the widget, pad the child
list up to the target index, read the displaced occupant, write the
widget.  All facts the well-formedness proof needs about the resulting
list. -/
theorem slot_facts {c0 c1 c2 c3 : List (Option Nat)} {id ci : Nat}
    (hcnt : ∀ c : Nat, c0.count (some c) ≤ 1)
    (h1 : c1 = (vec_remove_element (some id) c0).2)
    (h2 : c2 = if c1.length ≤ ci then
      c1 ++ List.replicate (ci + 1 - c1.length) none else c1)
    (h3 : c3 = c2.set ci (some id)) :
    ci < c2.length ∧
    c3.getD ci none = some id ∧
    some id ∈ c3 ∧
    (∀ c : Nat, c3.count (some c) ≤ 1) ∧
    (∀ c, c ≠ id → some c ∈ c3 → some c ∈ c0) ∧
    (∀ c, c ≠ id → some c ∈ c0 → c2.getD ci none ≠ some c → some c ∈ c3) ∧
    c2.getD ci none ≠ some id ∧
    (∀ w, c2.getD ci none = some w → some w ∈ c0 ∧ w ≠ id ∧ some w ∉ c3) := by
  have hc1count : ∀ c : Nat, c1.count (some c) ≤ 1 := by
    intro c
    rw [h1, vre_snd_eq_erase, count_erase_some]
    have := hcnt c
    split_ifs with h
    · omega
    · exact this
  have hidc1 : some id ∉ c1 := by
    rw [h1, vre_snd_eq_erase, ← List.count_pos_iff.not, count_erase_some,
      if_pos rfl]
    have := hcnt id
    omega
  have hc2mem : ∀ c : Nat, some c ∈ c2 ↔ some c ∈ c1 := by
    intro c
    rw [h2]
    split_ifs with h
    · rw [List.mem_append]
      simp [List.mem_replicate]
    · rfl
  have hc2count : ∀ c : Nat, c2.count (some c) = c1.count (some c) := by
    intro c
    rw [h2]
    split_ifs with h
    · exact count_some_append_replicate c1 _ c
    · rfl
  have hidc2 : some id ∉ c2 := fun h => hidc1 ((hc2mem id).mp h)
  have hcilt : ci < c2.length := by
    rw [h2]
    split_ifs with h
    · rw [List.length_append, List.length_replicate]
      omega
    · omega
  have hc2ci : c2.getD ci none = c2[ci] := by
    rw [List.getD_eq_getElem?_getD, List.getElem?_eq_getElem hcilt]
    rfl
  have hgetmem : ∀ v, c2.getD ci none = v → v ∈ c2 := by
    intro v hv
    rw [hc2ci] at hv
    exact hv ▸ List.getElem_mem hcilt
  have hgetid : c2.getD ci none ≠ some id :=
    fun h => hidc2 (hgetmem _ h)
  have hcilt3 : ci < c3.length := by
    rw [h3, List.length_set]
    exact hcilt
  refine ⟨hcilt, ?_, ?_, ?_, ?_, ?_, hgetid, ?_⟩
  · rw [h3]
    have hlen : ci < (c2.set ci (some id)).length := by
      rw [List.length_set]
      exact hcilt
    rw [List.getD_eq_getElem?_getD, List.getElem?_eq_getElem hlen,
      List.getElem_set_self]
    rfl
  · rw [h3]
    exact mem_set_self hcilt
  · intro c
    by_cases hc : c = id
    · subst hc
      rw [h3, count_set_self hidc2 hcilt]
    · rw [h3]
      refine le_trans (count_set_le c2 ci (some id) (some c)) ?_
      rw [if_neg (by simp [hc]), hc2count]
      have := hc1count c
      omega
  · intro c hc hmem
    rw [h3] at hmem
    rcases List.mem_or_eq_of_mem_set hmem with hm | hm
    · have := (hc2mem c).mp hm
      rw [h1, vre_snd_eq_erase] at this
      exact (List.erase_sublist _ _).subset this
    · exact absurd (by injection hm) hc
  · intro c hc hc0 hne
    rw [h3]
    refine mem_set_of_getD_ne ?_ hne
    refine (hc2mem c).mpr ?_
    rw [h1, vre_snd_eq_erase]
    exact (mem_erase_some_of_ne hc).mpr hc0
  · intro w hw
    have hwc2 : some w ∈ c2 := hgetmem _ hw
    have hwc0 : some w ∈ c0 := by
      have := (hc2mem w).mp hwc2
      rw [h1, vre_snd_eq_erase] at this
      exact (List.erase_sublist _ _).subset this
    have hwid : w ≠ id := by
      intro hc
      subst hc
      exact hgetid hw
    refine ⟨hwc0, hwid, ?_⟩
    rw [h3, ← List.count_pos_iff.not]
    rw [List.count_set _ _ _ _ hcilt]
    rw [hc2ci] at hw
    rw [hw]
    rw [if_pos (by simp), if_neg (by simp [Ne.symm hwid])]
    have h1c := hc1count w
    have h2c := hc2count w
    omega

namespace VirtualWidgetTree

/-- Observables of `setChildren` at a present node. -/
theorem setChildren_obs {t t1 : VirtualWidgetTree} {p : Nat}
    {c3 : List (Option Nat)} (ht1 : setChildren t p c3 = t1) :
    t1.root = t.root ∧ t1.root_data = t.root_data ∧
    t1.tree_data.map Prod.fst = t.tree_data.map Prod.fst ∧
    (∀ k, k ≠ p → lookupNode t1.tree_data k = lookupNode t.tree_data k) ∧
    (∀ n0, lookupNode t.tree_data p = some n0 → t.root ≠ p →
      lookupNode t1.tree_data p = some { n0 with children := c3 }) ∧
    (lookupNode t.tree_data p = none →
      lookupNode t1.tree_data p = lookupNode t.tree_data p) ∧
    (t.root = p → ∀ k, lookupNode t1.tree_data k = lookupNode t.tree_data k) ∧
    t1.root_children = (if t.root = p then c3 else t.root_children) := by
  subst ht1
  unfold setChildren
  by_cases hr : t.root = p
  · rw [if_pos hr]
    refine ⟨rfl, rfl, rfl, fun k _ => rfl, ?_, fun _ => rfl, fun _ _ => rfl,
      by rw [if_pos hr]⟩
    intro n0 _ hc
    exact absurd hr hc
  · rw [if_neg hr]
    refine ⟨rfl, rfl, mapNode_keys _ _ _, ?_, ?_, ?_, fun hc => absurd hc hr,
      by rw [if_neg hr]⟩
    · intro k hk
      exact lookupNode_mapNode_ne _ _ hk
    · intro n0 h0 _
      rw [lookupNode_mapNode_self, h0]
      rfl
    · intro h0
      rw [lookupNode_mapNode_self, h0]
      rfl

/-- The child list observed through `get_widget_node` is `childrenOf`. -/
theorem childrenOf_eq_of_gwn {t : VirtualWidgetTree} {p : Nat}
    {pd : WidgetData} {cl : List (Option Nat)}
    (h : get_widget_node t p = some (pd, cl)) :
    childrenOf t p = cl := by
  unfold childrenOf
  rw [h]

/-- Presence through `get_widget_node`. -/
theorem gwn_root_or_keys {t : VirtualWidgetTree} {p : Nat}
    {pd : WidgetData} {cl : List (Option Nat)}
    (h : get_widget_node t p = some (pd, cl)) :
    p = t.root ∨ p ∈ keys t := by
  unfold get_widget_node at h
  by_cases hr : t.root = p
  · exact Or.inl hr.symm
  · rw [if_neg hr] at h
    right
    cases hl : lookupNode t.tree_data p with
    | none => rw [hl] at h; exact absurd h (by simp)
    | some n => exact (lookupNode_isSome_iff _ _).mp (by rw [hl]; rfl)

/-- The per-slot count bound of a well-formed tree, for every widget. -/
theorem WF.count_bound {t : VirtualWidgetTree} (hwf : WF t) {p : Nat}
    (hp : p ∈ t.root :: keys t) :
    ∀ c : Nat, (childrenOf t p).count (some c) ≤ 1 := by
  intro c
  by_cases hm : some c ∈ childrenOf t p
  · exact hwf.2.2.2.2.2.2.1 p hp (some c) hm (by simp)
  · rw [List.count_eq_zero_of_not_mem hm]
    omega

end VirtualWidgetTree

namespace VirtualWidgetTree

/-- The fresh-insertion branch of `insert`: the widget is not yet stored,
so a new entry is appended after its slot is written.  The resulting tree
is well-formed except possibly at the displaced occupant, which stays
stored but sits in no child list. -/
theorem insert_branchA {t t1 : VirtualWidgetTree} (hwf : WF t)
    {p id ci : Nat} {ident : WidgetIdent} {pdata : WidgetData}
    {children0 c1 c2 c3 : List (Option Nat)}
    (hroot : ¬ id = t.root)
    (hpg : get_widget_node t p = some (pdata, children0))
    (hc1eq : (vec_remove_element (some id) children0).2 = c1)
    (hc2eq : (if c1.length ≤ ci then
      c1 ++ List.replicate (ci + 1 - c1.length) none else c1) = c2)
    (hc3eq : c2.set ci (some id) = c3)
    (ht1eq : setChildren t p c3 = t1)
    (hlid : lookupNode t1.tree_data id = none) :
    ({ t1 with tree_data := t1.tree_data ++
      [(id, { parent_id := p, children := [],
              data := { ident := ident, depth := pdata.depth + 1 } })] }
        : VirtualWidgetTree).root = t.root ∧
    get_widget_node { t1 with tree_data := t1.tree_data ++
      [(id, { parent_id := p, children := [],
              data := { ident := ident, depth := pdata.depth + 1 } })] } p =
      some (pdata, c3) ∧
    c3.getD ci none = some id ∧
    (∀ y, y ≠ id →
      (lookupNode ({ t1 with tree_data := t1.tree_data ++
        [(id, { parent_id := p, children := [],
                data := { ident := ident, depth := pdata.depth + 1 } })] }
          : VirtualWidgetTree).tree_data y).map (fun n => n.parent_id) =
        (lookupNode t.tree_data y).map (fun n => n.parent_id)) ∧
    (c2.getD ci none = none → WF { t1 with tree_data := t1.tree_data ++
      [(id, { parent_id := p, children := [],
              data := { ident := ident, depth := pdata.depth + 1 } })] }) ∧
    (∀ w, c2.getD ci none = some w →
      WFexcept { t1 with tree_data := t1.tree_data ++
        [(id, { parent_id := p, children := [],
                data := { ident := ident, depth := pdata.depth + 1 } })] } w ∧
      ∃ nodeW, lookupNode ({ t1 with tree_data := t1.tree_data ++
        [(id, { parent_id := p, children := [],
                data := { ident := ident, depth := pdata.depth + 1 } })] }
          : VirtualWidgetTree).tree_data w = some nodeW ∧
        nodeW.parent_id = p) := by
  obtain ⟨hnd, hrootk, hrd, hw4, hw5, hw6, hw7, hw8⟩ := hwf
  set newnode : WidgetTreeNode := { parent_id := p, children := [], data := { ident := ident, depth := pdata.depth + 1 } } with hnewdef
  set t2A : VirtualWidgetTree :=
    { t1 with tree_data := t1.tree_data ++ [(id, newnode)] } with ht2def
  have hp : p = t.root ∨ p ∈ keys t := gwn_root_or_keys hpg
  have hch0 : childrenOf t p = children0 := childrenOf_eq_of_gwn hpg
  have hprk : p ∈ t.root :: keys t := by
    rcases hp with h | h
    · exact h ▸ List.mem_cons_self _ _
    · exact List.mem_cons_of_mem _ h
  have hcnt0 : ∀ c : Nat, children0.count (some c) ≤ 1 := by
    intro c
    rw [← hch0]
    exact WF.count_bound ⟨hnd, hrootk, hrd, hw4, hw5, hw6, hw7, hw8⟩ hprk c
  obtain ⟨hcilt, hgetD3, hmem3, hcnt3, hmem30, hsurv, hgetid, hdisp⟩ :=
    slot_facts hcnt0 hc1eq.symm hc2eq.symm hc3eq.symm
  obtain ⟨hro1, hrd1, hk1, hlk1ne, hlk1p, hlk1pn, hlk1root, hrc1⟩ :=
    setChildren_obs ht1eq
  have hpid : p ≠ id := by
    intro hc
    subst hc
    rcases hp with h | h
    · exact hroot h
    · have hsome : (lookupNode t.tree_data p).isSome :=
        (lookupNode_isSome_iff _ _).mpr h
      cases hl : lookupNode t.tree_data p with
      | none => rw [hl] at hsome; exact absurd hsome (by simp)
      | some n0 =>
        by_cases hr : t.root = p
        · exact hroot hr.symm
        · rw [hlk1p n0 hl hr] at hlid
          exact absurd hlid (by simp)
  have hidt : lookupNode t.tree_data id = none := by
    rw [← hlk1ne id (fun hc => hpid hc.symm)]
    exact hlid
  have hidk : id ∉ keys t := by
    intro h
    have := (lookupNode_isSome_iff _ _).mpr h
    rw [hidt] at this
    exact absurd this (by simp)
  -- data of the parent in the original tree
  have hpdata : (p = t.root → pdata = t.root_data ∧ children0 = t.root_children) ∧
      (t.root ≠ p → ∃ n0, lookupNode t.tree_data p = some n0 ∧
        pdata = n0.data ∧ children0 = n0.children) := by
    constructor
    · intro h
      unfold get_widget_node at hpg
      rw [if_pos h.symm] at hpg
      injection hpg with hpg
      exact ⟨(congrArg Prod.fst hpg).symm, (congrArg Prod.snd hpg).symm⟩
    · intro h
      unfold get_widget_node at hpg
      rw [if_neg h] at hpg
      cases hl : lookupNode t.tree_data p with
      | none => rw [hl] at hpg; exact absurd hpg (by simp)
      | some n0 =>
        rw [hl] at hpg
        simp only [Option.map_some'] at hpg
        injection hpg with hpg
        exact ⟨n0, rfl, (congrArg Prod.fst hpg).symm, (congrArg Prod.snd hpg).symm⟩
  -- lookups in the appended table
  have htd2 : t2A.tree_data = t1.tree_data ++ [(id, newnode)] := rfl
  have hlid2 : lookupNode t2A.tree_data id = some newnode := by
    rw [htd2, lookupNode_append, hlid]
    show lookupNode [(id, newnode)] id = some newnode
    unfold lookupNode
    rw [if_pos rfl]
  have hlkne2 : ∀ k, k ≠ id →
      lookupNode t2A.tree_data k = lookupNode t1.tree_data k := by
    intro k hk
    rw [htd2, lookupNode_append]
    cases hl : lookupNode t1.tree_data k with
    | some n => rfl
    | none =>
      show lookupNode [(id, newnode)] k = none
      unfold lookupNode
      rw [if_neg (fun hc => hk hc.symm)]
      rfl
  have hlkO : ∀ k, k ≠ id → k ≠ p →
      lookupNode t2A.tree_data k = lookupNode t.tree_data k := by
    intro k h1 h2
    rw [hlkne2 k h1]
    exact hlk1ne k h2
  have hlkP : ∀ n0, lookupNode t.tree_data p = some n0 →
      lookupNode t2A.tree_data p =
        some (if t.root = p then n0 else { n0 with children := c3 }) := by
    intro n0 h0
    rw [hlkne2 p hpid]
    by_cases hr : t.root = p
    · rw [if_pos hr, hlk1root hr, h0]
    · rw [if_neg hr]
      exact hlk1p n0 h0 hr
  have hkeys2 : keys t2A = keys t ++ [id] := by
    show (t1.tree_data ++ [(id, newnode)]).map Prod.fst = keys t ++ [id]
    rw [List.map_append, hk1]
    rfl
  have hroot2A : t2A.root = t.root := hro1
  -- entry characterization
  have hL : ∀ k n2, lookupNode t2A.tree_data k = some n2 →
      (k = id ∧ n2 = newnode) ∨
      (k ≠ id ∧ ∃ n0, lookupNode t.tree_data k = some n0 ∧
        n2.parent_id = n0.parent_id ∧ n2.data = n0.data ∧
        (n2.children = n0.children ∨ (k = p ∧ n2.children = c3))) := by
    intro k n2 hk
    by_cases hki : k = id
    · subst hki
      rw [hlid2] at hk
      injection hk with hk
      exact Or.inl ⟨rfl, hk.symm⟩
    · right
      refine ⟨hki, ?_⟩
      by_cases hkp : k = p
      · subst hkp
        cases hl : lookupNode t.tree_data k with
        | none =>
          rw [hlkne2 k hki, hlk1pn hl, hl] at hk
          exact absurd hk (by simp)
        | some n0 =>
          rw [hlkP n0 hl] at hk
          injection hk with hk
          by_cases hr : t.root = k
          · rw [if_pos hr] at hk
            exact ⟨n0, rfl, by rw [← hk], by rw [← hk], Or.inl (by rw [← hk])⟩
          · rw [if_neg hr] at hk
            exact ⟨n0, rfl, by rw [← hk], by rw [← hk], Or.inr ⟨rfl, by rw [← hk]⟩⟩
      · rw [hlkO k hki hkp] at hk
        exact ⟨n2, hk, rfl, rfl, Or.inl rfl⟩
  -- child lists of the new tree
  have hgwp2 : get_widget_node t2A p = some (pdata, c3) := by
    by_cases hr : t.root = p
    · have hroot2 : t2A.root = p := by rw [hroot2A, hr]
      unfold get_widget_node
      rw [if_pos hroot2]
      have h1 := (hpdata.1 hr.symm).1
      have hrc : t2A.root_children = c3 := by
        show t1.root_children = c3
        rw [hrc1, if_pos hr]
      have hrdta : t2A.root_data = pdata := by
        show t1.root_data = pdata
        rw [hrd1]
        exact h1.symm
      rw [hrc, hrdta]
    · obtain ⟨n0, hl, hd0, _⟩ := hpdata.2 hr
      unfold get_widget_node
      rw [if_neg (by rw [hroot2A]; exact hr)]
      rw [hlkP n0 hl, if_neg hr]
      rw [hd0]
      rfl
  have hchp2 : childrenOf t2A p = c3 := childrenOf_eq_of_gwn hgwp2
  have hchq2 : ∀ q, q ≠ p → q ≠ id → childrenOf t2A q = childrenOf t q := by
    intro q hqp hqi
    unfold childrenOf get_widget_node
    by_cases hr : t.root = q
    · rw [if_pos (by rw [hroot2A]; exact hr), if_pos hr]
      show t1.root_children = t.root_children
      rw [hrc1, if_neg (fun hc => hqp (by rw [← hc, hr]))]
    · rw [if_neg (by rw [hroot2A]; exact hr), if_neg hr]
      rw [hlkO q hqi hqp]
  have hchid2 : childrenOf t2A id = [] := by
    unfold childrenOf get_widget_node
    rw [if_neg (by rw [hroot2A]; exact fun hc => hroot hc.symm)]
    rw [hlid2]
    rfl
  -- depth observations
  have hdepp2 : depthOf t2A p = pdata.depth := by
    unfold depthOf
    rw [hgwp2]
  have hdepp : depthOf t p = pdata.depth := by
    unfold depthOf
    rw [hpg]
  have hdepq2 : ∀ q, q ≠ id → depthOf t2A q = depthOf t q := by
    intro q hqi
    by_cases hqp : q = p
    · rw [hqp, hdepp2, hdepp]
    · unfold depthOf get_widget_node
      by_cases hr : t.root = q
      · rw [if_pos (by rw [hroot2A]; exact hr), if_pos hr]
        show t1.root_data.depth = t.root_data.depth
        rw [hrd1]
      · rw [if_neg (by rw [hroot2A]; exact hr), if_neg hr]
        rw [hlkO q hqi hqp]
  -- the displaced occupant (if any) never equals the inserted widget
  -- main clause bundle
  have hclauses : ∀ wopt : Option Nat, c2.getD ci none = wopt →
      (keys t2A).Nodup ∧
      t2A.root ∉ keys t2A ∧
      t2A.root_data.depth = 0 ∧
      (∀ e ∈ t2A.tree_data, e.2.parent_id = t2A.root ∨ e.2.parent_id ∈ keys t2A) ∧
      (∀ e ∈ t2A.tree_data, some e.1 ≠ wopt →
        some e.1 ∈ childrenOf t2A e.2.parent_id) ∧
      (∀ q ∈ t2A.root :: keys t2A, ∀ s ∈ childrenOf t2A q, ∀ c, s = some c →
        ∃ n, lookupNode t2A.tree_data c = some n ∧ n.parent_id = q) ∧
      (∀ q ∈ t2A.root :: keys t2A, ∀ s ∈ childrenOf t2A q, s ≠ none →
        (childrenOf t2A q).count s ≤ 1) ∧
      (∀ e ∈ t2A.tree_data, e.2.data.depth = depthOf t2A e.2.parent_id + 1) := by
    intro wopt hwopt
    have hnd2 : (keys t2A).Nodup := by
      rw [hkeys2]
      simp only [List.nodup_append, List.nodup_cons]
      refine ⟨hnd, by simp, ?_⟩
      intro a ha
      simp only [List.mem_singleton]
      intro hc
      subst hc
      exact hidk ha
    refine ⟨hnd2, ?_, ?_, ?_, ?_, ?_, ?_, ?_⟩
    · rw [hroot2A, hkeys2]
      simp only [List.mem_append, List.mem_singleton, not_or]
      exact ⟨hrootk, fun hc => hroot hc.symm⟩
    · show t1.root_data.depth = 0
      rw [hrd1]
      exact hrd
    · intro e he
      have hk : lookupNode t2A.tree_data e.1 = some e.2 :=
        lookupNode_eq_some_of_mem hnd2 he
      rcases hL e.1 e.2 hk with ⟨_, h2⟩ | ⟨_, n0, hn0, hpp, _, _⟩
      · rw [h2]
        rcases hp with h | h
        · exact Or.inl (by rw [hroot2A, ← h])
        · exact Or.inr (by rw [hkeys2]; exact List.mem_append_left _ h)
      · have hmem0 : (e.1, n0) ∈ t.tree_data := mem_of_lookupNode_eq_some hn0
        rcases hw4 (e.1, n0) hmem0 with h | h
        · exact Or.inl (by rw [hroot2A, hpp]; exact h)
        · exact Or.inr (by rw [hkeys2, hpp]; exact List.mem_append_left _ h)
    · intro e he hne
      have hk : lookupNode t2A.tree_data e.1 = some e.2 :=
        lookupNode_eq_some_of_mem hnd2 he
      rcases hL e.1 e.2 hk with ⟨h1, h2⟩ | ⟨h1, n0, hn0, hpp, _, _⟩
      · rw [h2, hnewdef]
        simp only
        rw [hchp2, h1]
        exact hmem3
      · have hmem0 : (e.1, n0) ∈ t.tree_data := mem_of_lookupNode_eq_some hn0
        have hm5 := hw5 (e.1, n0) hmem0
        simp only at hm5
        rw [hpp]
        by_cases hqp : n0.parent_id = p
        · rw [hqp, hchp2]
          rw [hqp, hch0] at hm5
          refine hsurv e.1 h1 hm5 ?_
          rw [hwopt]
          intro hc
          rw [hc] at hne
          exact hne rfl
        · have hqi : n0.parent_id ≠ id := by
            intro hc
            rcases hw4 (e.1, n0) hmem0 with h | h
            · exact hroot (by rw [← hc]; exact h)
            · exact hidk (hc ▸ h)
          rw [hchq2 _ hqp hqi]
          exact hm5
    · intro q hq s hs c hsc
      subst hsc
      by_cases hqi : q = id
      · rw [hqi, hchid2] at hs
        simp at hs
      · by_cases hqp : q = p
        · rw [hqp, hchp2] at hs
          by_cases hci2 : c = id
          · subst hci2
            exact ⟨newnode, hlid2, by rw [hqp, hnewdef]⟩
          · have hc0 : some c ∈ children0 := hmem30 c hci2 hs
            rw [← hch0] at hc0
            obtain ⟨n0, hn0, hnp⟩ := hw6 p hprk (some c) hc0 c rfl
            have hlk : lookupNode t2A.tree_data c = some
                (if c = p then (if t.root = p then n0
                  else { n0 with children := c3 }) else n0) := by
              by_cases hcp : c = p
              · rw [if_pos hcp]
                rw [hcp] at hn0 ⊢
                exact hlkP n0 hn0
              · rw [if_neg hcp]
                rw [hlkO c hci2 hcp]
                exact hn0
            refine ⟨_, hlk, ?_⟩
            by_cases hcp : c = p
            · rw [if_pos hcp]
              by_cases hr : t.root = p
              · rw [if_pos hr]
                rw [hnp, hqp]
              · rw [if_neg hr]
                show n0.parent_id = q
                rw [hnp, hqp]
            · rw [if_neg hcp]
              rw [hnp, hqp]
        · -- untouched list
          have hch : childrenOf t2A q = childrenOf t q := hchq2 q hqp hqi
          rw [hch] at hs
          have hqrk : q ∈ t.root :: keys t := by
            rcases List.mem_cons.mp hq with h | h
            · rw [h, hroot2A]
              exact List.mem_cons_self _ _
            · rw [hkeys2] at h
              rcases List.mem_append.mp h with h | h
              · exact List.mem_cons_of_mem _ h
              · simp only [List.mem_singleton] at h
                exact absurd h hqi
          obtain ⟨n0, hn0, hnp⟩ := hw6 q hqrk (some c) hs c rfl
          have hci2 : c ≠ id := by
            intro hc
            rw [hc] at hn0
            rw [hidt] at hn0
            exact absurd hn0 (by simp)
          have hlk : lookupNode t2A.tree_data c = some
              (if c = p then (if t.root = p then n0
                else { n0 with children := c3 }) else n0) := by
            by_cases hcp : c = p
            · rw [if_pos hcp]
              rw [hcp] at hn0 ⊢
              exact hlkP n0 hn0
            · rw [if_neg hcp]
              rw [hlkO c hci2 hcp]
              exact hn0
          refine ⟨_, hlk, ?_⟩
          by_cases hcp : c = p
          · rw [if_pos hcp]
            by_cases hr : t.root = p
            · rw [if_pos hr]
              exact hnp
            · rw [if_neg hr]
              show n0.parent_id = q
              exact hnp
          · rw [if_neg hcp]
            exact hnp
    · intro q hq s hs hsn
      by_cases hqi : q = id
      · rw [hqi, hchid2] at hs
        simp at hs
      · by_cases hqp : q = p
        · rw [hqp, hchp2] at hs ⊢
          cases s with
          | none => exact absurd rfl hsn
          | some c => exact hcnt3 c
        · have hch : childrenOf t2A q = childrenOf t q := hchq2 q hqp hqi
          rw [hch] at hs ⊢
          have hqrk : q ∈ t.root :: keys t := by
            rcases List.mem_cons.mp hq with h | h
            · rw [h, hroot2A]
              exact List.mem_cons_self _ _
            · rw [hkeys2] at h
              rcases List.mem_append.mp h with h | h
              · exact List.mem_cons_of_mem _ h
              · simp only [List.mem_singleton] at h
                exact absurd h hqi
          exact hw7 q hqrk s hs hsn
    · intro e he
      have hk : lookupNode t2A.tree_data e.1 = some e.2 :=
        lookupNode_eq_some_of_mem hnd2 he
      rcases hL e.1 e.2 hk with ⟨_, h2⟩ | ⟨h1, n0, hn0, hpp, hdd, _⟩
      · rw [h2]
        show pdata.depth + 1 = depthOf t2A newnode.parent_id + 1
        have hnp : newnode.parent_id = p := rfl
        rw [hnp, hdepp2]
      · have hmem0 : (e.1, n0) ∈ t.tree_data := mem_of_lookupNode_eq_some hn0
        have h8 := hw8 (e.1, n0) hmem0
        simp only at h8
        rw [hpp, hdd, h8]
        congr 1
        have hqi : n0.parent_id ≠ id := by
          intro hc
          rcases hw4 (e.1, n0) hmem0 with h | h
          · exact hroot (by rw [← hc]; exact h)
          · exact hidk (hc ▸ h)
        exact (hdepq2 _ hqi).symm
  refine ⟨hroot2A, hgwp2, hgetD3, ?_, ?_, ?_⟩
  · -- parent links preserved away from the inserted widget
    intro y hy
    by_cases hyp : y = p
    · subst hyp
      cases hl : lookupNode t.tree_data y with
      | none =>
        rw [hlkne2 y hy, hlk1pn hl, hl]
      | some n0 =>
        rw [hlkP n0 hl]
        by_cases hr : t.root = y
        · rw [if_pos hr]
        · rw [if_neg hr]
          rfl
    · rw [hlkO y hy hyp]
  · intro hnone
    obtain ⟨c1', c2', c3', c4', c5', c6', c7', c8'⟩ := hclauses none hnone
    exact ⟨c1', c2', c3', c4', fun e he => c5' e he (by simp), c6', c7', c8'⟩
  · intro w hw
    obtain ⟨c1', c2', c3', c4', c5', c6', c7', c8'⟩ := hclauses (some w) hw
    obtain ⟨hw0, hwid, _⟩ := hdisp w hw
    have hwp : ∃ nodeW, lookupNode t2A.tree_data w = some nodeW ∧
        nodeW.parent_id = p := by
      rw [← hch0] at hw0
      obtain ⟨n0, hn0, hnp⟩ := hw6 p hprk (some w) hw0 w rfl
      by_cases hwpp : w = p
      · rw [hwpp] at hn0 ⊢
        refine ⟨_, hlkP n0 hn0, ?_⟩
        by_cases hr : t.root = p
        · rw [if_pos hr]
          exact hnp
        · rw [if_neg hr]
          show n0.parent_id = p
          exact hnp
      · exact ⟨n0, by rw [hlkO w hwid hwpp]; exact hn0, hnp⟩
    refine ⟨⟨c1', c2', c3', c4', ?_, c6', c7', c8'⟩, hwp⟩
    intro e he hne
    exact c5' e he (by simp [hne])

end VirtualWidgetTree

namespace VirtualWidgetTree

/-- The same-parent branch of `insert`: the widget is stored and its
parent is already the target parent, so its entry keeps its depth, the
slot list is rewritten and trimmed. -/
theorem insert_branchB {t t1 : VirtualWidgetTree} (hwf : WF t)
    {p id ci : Nat} {ident : WidgetIdent} {pdata : WidgetData}
    {children0 c1 c2 c3 : List (Option Nat)} {node : WidgetTreeNode}
    (hroot : ¬ id = t.root)
    (hpg : get_widget_node t p = some (pdata, children0))
    (hc1eq : (vec_remove_element (some id) children0).2 = c1)
    (hc2eq : (if c1.length ≤ ci then
      c1 ++ List.replicate (ci + 1 - c1.length) none else c1) = c2)
    (hc3eq : c2.set ci (some id) = c3)
    (ht1eq : setChildren t p c3 = t1)
    (hlid : lookupNode t1.tree_data id = some node)
    (hbp : node.parent_id = p) :
    get_widget_node { t1 with tree_data := mapNode t1.tree_data id (fun n =>
      { parent_id := p, children := n.children,
        data := { ident := ident, depth := n.data.depth } }) } p =
      some (pdata, c3) ∧
    (setChildren { t1 with tree_data := mapNode t1.tree_data id (fun n =>
      { parent_id := p, children := n.children,
        data := { ident := ident, depth := n.data.depth } }) } p
        (trimNones c3)).root = t.root ∧
    get_widget_node (setChildren { t1 with
      tree_data := mapNode t1.tree_data id (fun n =>
        { parent_id := p, children := n.children,
          data := { ident := ident, depth := n.data.depth } }) } p
        (trimNones c3)) p = some (pdata, trimNones c3) ∧
    (trimNones c3).getD ci none = some id ∧
    (∀ y, y ≠ id →
      (lookupNode (setChildren { t1 with
        tree_data := mapNode t1.tree_data id (fun n =>
          { parent_id := p, children := n.children,
            data := { ident := ident, depth := n.data.depth } }) } p
          (trimNones c3)).tree_data y).map (fun n => n.parent_id) =
        (lookupNode t.tree_data y).map (fun n => n.parent_id)) ∧
    (c2.getD ci none = none → WF (setChildren { t1 with
      tree_data := mapNode t1.tree_data id (fun n =>
        { parent_id := p, children := n.children,
          data := { ident := ident, depth := n.data.depth } }) } p
        (trimNones c3))) ∧
    (∀ w, c2.getD ci none = some w →
      WFexcept (setChildren { t1 with
        tree_data := mapNode t1.tree_data id (fun n =>
          { parent_id := p, children := n.children,
            data := { ident := ident, depth := n.data.depth } }) } p
          (trimNones c3)) w ∧
      ∃ nodeW, lookupNode (setChildren { t1 with
        tree_data := mapNode t1.tree_data id (fun n =>
          { parent_id := p, children := n.children,
            data := { ident := ident, depth := n.data.depth } }) } p
          (trimNones c3)).tree_data w = some nodeW ∧
        nodeW.parent_id = p) := by
  obtain ⟨hnd, hrootk, hrd, hw4, hw5, hw6, hw7, hw8⟩ := hwf
  set g : WidgetTreeNode → WidgetTreeNode := fun n => { parent_id := p, children := n.children, data := { ident := ident, depth := n.data.depth } } with hgdef
  set t2m : VirtualWidgetTree := { t1 with tree_data := mapNode t1.tree_data id g } with ht2mdef
  set ctrim : List (Option Nat) := trimNones c3 with hctdef
  set tB : VirtualWidgetTree := setChildren t2m p ctrim with htBdef
  have hp : p = t.root ∨ p ∈ keys t := gwn_root_or_keys hpg
  have hch0 : childrenOf t p = children0 := childrenOf_eq_of_gwn hpg
  have hprk : p ∈ t.root :: keys t := by
    rcases hp with h | h
    · exact h ▸ List.mem_cons_self _ _
    · exact List.mem_cons_of_mem _ h
  have hcnt0 : ∀ c : Nat, children0.count (some c) ≤ 1 := by
    intro c
    rw [← hch0]
    exact WF.count_bound ⟨hnd, hrootk, hrd, hw4, hw5, hw6, hw7, hw8⟩ hprk c
  obtain ⟨hcilt, hgetD3, hmem3, hcnt3, hmem30, hsurv, hgetid, hdisp⟩ :=
    slot_facts hcnt0 hc1eq.symm hc2eq.symm hc3eq.symm
  obtain ⟨hro1, hrd1, hk1, hlk1ne, hlk1p, hlk1pn, hlk1root, hrc1⟩ :=
    setChildren_obs ht1eq
  -- the widget is not its own parent
  have hpid : p ≠ id := by
    intro hc
    subst hc
    have hnode : lookupNode t.tree_data p =
        some (if t.root = p then node else { node with children := children0 }) := by
      by_cases hr : t.root = p
      · rw [if_pos hr]
        rw [← hlk1root hr p]
        exact hlid
      · rw [if_neg hr]
        cases hl : lookupNode t.tree_data p with
        | none =>
          rw [hlk1pn hl, hl] at hlid
          exact absurd hlid (by simp)
        | some n0 =>
          rw [hlk1p n0 hl hr] at hlid
          injection hlid with hlid
          rw [← hlid]
          have : n0.children = children0 := by
            have := childrenOf_of_lookup hr hl
            rw [hch0] at this
            exact this.symm
          rw [← this]
      -- the stored parent points to itself, contradicting the depth law
    have h8 := hw8 (p, (if t.root = p then node
        else { node with children := children0 })) (mem_of_lookupNode_eq_some hnode)
    simp only at h8
    have hdp : depthOf t p =
        (if t.root = p then node else { node with children := children0 }).data.depth := by
      have hr : t.root ≠ p := by
        intro hr
        have : p ∈ keys t := (lookupNode_isSome_iff _ _).mp (by rw [hnode]; rfl)
        exact hrootk (hr ▸ this)
      exact depthOf_of_lookup hr hnode
    by_cases hr : t.root = p
    · have : p ∈ keys t := (lookupNode_isSome_iff _ _).mp (by rw [hnode]; rfl)
      exact hrootk (hr ▸ this)
    · rw [if_neg hr] at h8 hdp
      rw [hbp] at h8
      rw [hdp] at h8
      simp at h8
  -- the stored entry in the original tree
  have hlidt : lookupNode t.tree_data id = some node := by
    rw [← hlk1ne id (fun hc => hpid hc.symm)]
    exact hlid
  have hmemid : (id, node) ∈ t.tree_data := mem_of_lookupNode_eq_some hlidt
  have hidk : id ∈ keys t := List.mem_map.mpr ⟨(id, node), hmemid, rfl⟩
  -- parent data in the original tree
  have hpdata : (p = t.root → pdata = t.root_data ∧ children0 = t.root_children) ∧
      (t.root ≠ p → ∃ n0, lookupNode t.tree_data p = some n0 ∧
        pdata = n0.data ∧ children0 = n0.children) := by
    constructor
    · intro h
      unfold get_widget_node at hpg
      rw [if_pos h.symm] at hpg
      injection hpg with hpg
      exact ⟨(congrArg Prod.fst hpg).symm, (congrArg Prod.snd hpg).symm⟩
    · intro h
      unfold get_widget_node at hpg
      rw [if_neg h] at hpg
      cases hl : lookupNode t.tree_data p with
      | none => rw [hl] at hpg; exact absurd hpg (by simp)
      | some n0 =>
        rw [hl] at hpg
        simp only [Option.map_some'] at hpg
        injection hpg with hpg
        exact ⟨n0, rfl, (congrArg Prod.fst hpg).symm, (congrArg Prod.snd hpg).symm⟩
  -- lookups in the mapped tree
  have hlid2 : lookupNode t2m.tree_data id = some (g node) := by
    show lookupNode (mapNode t1.tree_data id g) id = some (g node)
    rw [lookupNode_mapNode_self, hlid]
    rfl
  have hlkne2 : ∀ k, k ≠ id →
      lookupNode t2m.tree_data k = lookupNode t1.tree_data k := by
    intro k hk
    exact lookupNode_mapNode_ne _ _ hk
  obtain ⟨hroB, hrdB, hkB, hlkBne, hlkBp, hlkBpn, hlkBroot, hrcB⟩ :=
    setChildren_obs htBdef.symm
  -- final lookups
  have hlkFid : lookupNode tB.tree_data id = some (g node) := by
    rw [hlkBne id (fun hc => hpid hc.symm)]
    exact hlid2
  have hlkFO : ∀ k, k ≠ id → k ≠ p →
      lookupNode tB.tree_data k = lookupNode t.tree_data k := by
    intro k h1 h2
    rw [hlkBne k h2, hlkne2 k h1]
    exact hlk1ne k h2
  have hlkFP : ∀ n0, lookupNode t.tree_data p = some n0 →
      lookupNode tB.tree_data p =
        some (if t.root = p then n0 else { n0 with children := ctrim }) := by
    intro n0 h0
    by_cases hr : t.root = p
    · rw [if_pos hr]
      have h2m : t2m.root = p := by
        show t1.root = p
        rw [hro1, hr]
      rw [hlkBroot h2m p, hlkne2 p hpid, hlk1root hr p]
      exact h0
    · rw [if_neg hr]
      have hl1 : lookupNode t2m.tree_data p = some { n0 with children := c3 } := by
        rw [hlkne2 p hpid]
        exact hlk1p n0 h0 hr
      have h2mroot : t2m.root ≠ p := by
        show t1.root ≠ p
        rw [hro1]
        exact hr
      have := hlkBp { n0 with children := c3 } hl1 h2mroot
      rw [this]
  have hrootB : tB.root = t.root := by
    rw [hroB]
    show t1.root = t.root
    exact hro1
  have hrdataB : tB.root_data = t.root_data := by
    rw [hrdB]
    exact hrd1
  have hkeysB : keys tB = keys t := by
    show tB.tree_data.map Prod.fst = keys t
    rw [hkB]
    show (mapNode t1.tree_data id g).map Prod.fst = keys t
    rw [mapNode_keys]
    exact hk1
  -- root children of the final tree
  have hrcFin : tB.root_children =
      (if t.root = p then ctrim else t.root_children) := by
    rw [hrcB]
    show (if t2m.root = p then ctrim else t2m.root_children) = _
    have h2m : t2m.root = t.root := hro1
    rw [h2m]
    by_cases hr : t.root = p
    · rw [if_pos hr, if_pos hr]
    · rw [if_neg hr, if_neg hr]
      show t1.root_children = t.root_children
      rw [hrc1, if_neg hr]
  -- entry characterization
  have hL : ∀ k n2, lookupNode tB.tree_data k = some n2 →
      (k = id ∧ n2 = g node) ∨
      (k ≠ id ∧ ∃ n0, lookupNode t.tree_data k = some n0 ∧
        n2.parent_id = n0.parent_id ∧ n2.data = n0.data ∧
        (n2.children = n0.children ∨ (k = p ∧ n2.children = ctrim))) := by
    intro k n2 hk
    by_cases hki : k = id
    · subst hki
      rw [hlkFid] at hk
      injection hk with hk
      exact Or.inl ⟨rfl, hk.symm⟩
    · right
      refine ⟨hki, ?_⟩
      by_cases hkp : k = p
      · subst hkp
        cases hl : lookupNode t.tree_data k with
        | none =>
          have h2mnone : lookupNode t2m.tree_data k = none := by
            rw [hlkne2 k hki, hlk1pn hl]
            exact hl
          rw [hlkBpn h2mnone, h2mnone] at hk
          exact absurd hk (by simp)
        | some n0 =>
          rw [hlkFP n0 hl] at hk
          injection hk with hk
          by_cases hr : t.root = k
          · rw [if_pos hr] at hk
            exact ⟨n0, rfl, by rw [← hk], by rw [← hk], Or.inl (by rw [← hk])⟩
          · rw [if_neg hr] at hk
            exact ⟨n0, rfl, by rw [← hk], by rw [← hk], Or.inr ⟨rfl, by rw [← hk]⟩⟩
      · rw [hlkFO k hki hkp] at hk
        exact ⟨n2, hk, rfl, rfl, Or.inl rfl⟩
  -- child lists of the final tree
  have hgwp2m : get_widget_node t2m p = some (pdata, c3) := by
    by_cases hr : t.root = p
    · have h2m : t2m.root = p := by show t1.root = p; rw [hro1, hr]
      unfold get_widget_node
      rw [if_pos h2m]
      have h1 := (hpdata.1 hr.symm).1
      have hrc : t2m.root_children = c3 := by
        show t1.root_children = c3
        rw [hrc1, if_pos hr]
      have hrda : t2m.root_data = pdata := by
        show t1.root_data = pdata
        rw [hrd1]
        exact h1.symm
      rw [hrc, hrda]
    · obtain ⟨n0, hl, hd0, _⟩ := hpdata.2 hr
      unfold get_widget_node
      rw [if_neg (by show ¬ t1.root = p; rw [hro1]; exact hr)]
      rw [hlkne2 p hpid, hlk1p n0 hl hr]
      rw [hd0]
      rfl
  have hgwpB : get_widget_node tB p = some (pdata, ctrim) := by
    by_cases hr : t.root = p
    · unfold get_widget_node
      rw [if_pos (by rw [hrootB, hr])]
      have h1 := (hpdata.1 hr.symm).1
      rw [hrcFin, if_pos hr, hrdataB]
      rw [← h1]
    · obtain ⟨n0, hl, hd0, _⟩ := hpdata.2 hr
      unfold get_widget_node
      rw [if_neg (by rw [hrootB]; exact hr)]
      rw [hlkFP n0 hl, if_neg hr]
      rw [hd0]
      rfl
  have hchpB : childrenOf tB p = ctrim := childrenOf_eq_of_gwn hgwpB
  have hchqB : ∀ q, q ≠ p → q ≠ id → childrenOf tB q = childrenOf t q := by
    intro q hqp hqi
    unfold childrenOf get_widget_node
    by_cases hr : t.root = q
    · rw [if_pos (by rw [hrootB]; exact hr), if_pos hr]
      rw [hrcFin, if_neg (fun hc => hqp (by rw [← hc, hr]))]
    · rw [if_neg (by rw [hrootB]; exact hr), if_neg hr]
      rw [hlkFO q hqi hqp]
  have hchidB : childrenOf tB id = node.children := by
    unfold childrenOf get_widget_node
    rw [if_neg (by rw [hrootB]; exact fun hc => hroot hc.symm)]
    rw [hlkFid]
    rfl
  have hchidT : childrenOf t id = node.children := by
    have hr : t.root ≠ id := fun hc => hroot hc.symm
    exact childrenOf_of_lookup hr hlidt
  -- depth observations
  have hdepp : depthOf t p = pdata.depth := by
    unfold depthOf
    rw [hpg]
  have hdeppB : depthOf tB p = pdata.depth := by
    unfold depthOf
    rw [hgwpB]
  have hdepqB : ∀ q, depthOf tB q = depthOf t q := by
    intro q
    by_cases hqi : q = id
    · subst hqi
      unfold depthOf get_widget_node
      rw [if_neg (by rw [hrootB]; exact fun hc => hroot hc.symm)]
      rw [if_neg (fun hc => hroot hc.symm)]
      rw [hlkFid, hlidt]
      rfl
    · by_cases hqp : q = p
      · rw [hqp, hdeppB, hdepp]
      · unfold depthOf get_widget_node
        by_cases hr : t.root = q
        · rw [if_pos (by rw [hrootB]; exact hr), if_pos hr]
          rw [hrdataB]
        · rw [if_neg (by rw [hrootB]; exact hr), if_neg hr]
          rw [hlkFO q hqi hqp]
  -- clause bundle
  have hclauses : ∀ wopt : Option Nat, c2.getD ci none = wopt →
      (keys tB).Nodup ∧
      tB.root ∉ keys tB ∧
      tB.root_data.depth = 0 ∧
      (∀ e ∈ tB.tree_data, e.2.parent_id = tB.root ∨ e.2.parent_id ∈ keys tB) ∧
      (∀ e ∈ tB.tree_data, some e.1 ≠ wopt →
        some e.1 ∈ childrenOf tB e.2.parent_id) ∧
      (∀ q ∈ tB.root :: keys tB, ∀ s ∈ childrenOf tB q, ∀ c, s = some c →
        ∃ n, lookupNode tB.tree_data c = some n ∧ n.parent_id = q) ∧
      (∀ q ∈ tB.root :: keys tB, ∀ s ∈ childrenOf tB q, s ≠ none →
        (childrenOf tB q).count s ≤ 1) ∧
      (∀ e ∈ tB.tree_data, e.2.data.depth = depthOf tB e.2.parent_id + 1) := by
    intro wopt hwopt
    have hnd2 : (keys tB).Nodup := by
      rw [hkeysB]
      exact hnd
    have hrkB : ∀ q, q ∈ tB.root :: keys tB → q ∈ t.root :: keys t := by
      intro q hq
      rcases List.mem_cons.mp hq with h | h
      · rw [h, hrootB]
        exact List.mem_cons_self _ _
      · rw [hkeysB] at h
        exact List.mem_cons_of_mem _ h
    -- slots of the final parent list resolve like the original ones
    have hslotP : ∀ c : Nat, some c ∈ ctrim → c ≠ id → some c ∈ children0 := by
      intro c hc hci
      exact hmem30 c hci ((trimNones_mem_some c3 c).mp hc)
    refine ⟨hnd2, ?_, ?_, ?_, ?_, ?_, ?_, ?_⟩
    · rw [hrootB, hkeysB]
      exact hrootk
    · rw [hrdataB]
      exact hrd
    · intro e he
      have hk : lookupNode tB.tree_data e.1 = some e.2 :=
        lookupNode_eq_some_of_mem hnd2 he
      rcases hL e.1 e.2 hk with ⟨_, h2⟩ | ⟨_, n0, hn0, hpp, _, _⟩
      · rw [h2]
        show p = tB.root ∨ p ∈ keys tB
        rcases hp with h | h
        · exact Or.inl (by rw [hrootB, ← h])
        · exact Or.inr (by rw [hkeysB]; exact h)
      · have hmem0 : (e.1, n0) ∈ t.tree_data := mem_of_lookupNode_eq_some hn0
        rcases hw4 (e.1, n0) hmem0 with h | h
        · exact Or.inl (by rw [hrootB, hpp]; exact h)
        · exact Or.inr (by rw [hkeysB, hpp]; exact h)
    · intro e he hne
      have hk : lookupNode tB.tree_data e.1 = some e.2 :=
        lookupNode_eq_some_of_mem hnd2 he
      rcases hL e.1 e.2 hk with ⟨h1, h2⟩ | ⟨h1, n0, hn0, hpp, _, _⟩
      · rw [h2]
        show some e.1 ∈ childrenOf tB p
        rw [hchpB, h1]
        exact (trimNones_mem_some c3 id).mpr hmem3
      · have hmem0 : (e.1, n0) ∈ t.tree_data := mem_of_lookupNode_eq_some hn0
        have hm5 := hw5 (e.1, n0) hmem0
        simp only at hm5
        rw [hpp]
        by_cases hqp : n0.parent_id = p
        · rw [hqp, hchpB]
          rw [hqp, hch0] at hm5
          refine (trimNones_mem_some c3 e.1).mpr ?_
          refine hsurv e.1 h1 hm5 ?_
          rw [hwopt]
          intro hc
          rw [hc] at hne
          exact hne rfl
        · by_cases hqi : n0.parent_id = id
          · rw [hqi, hchidB]
            rw [hqi, hchidT] at hm5
            exact hm5
          · rw [hchqB _ hqp hqi]
            exact hm5
    · intro q hq s hs c hsc
      subst hsc
      have hresolve : ∀ c : Nat, c ≠ id → ∀ n0 : WidgetTreeNode,
          lookupNode t.tree_data c = some n0 →
          ∃ n, lookupNode tB.tree_data c = some n ∧
            n.parent_id = n0.parent_id := by
        intro c hci n0 hn0
        by_cases hcp : c = p
        · subst hcp
          refine ⟨_, hlkFP n0 hn0, ?_⟩
          by_cases hr : t.root = c
          · rw [if_pos hr]
          · rw [if_neg hr]
        · exact ⟨n0, by rw [hlkFO c hci hcp]; exact hn0, rfl⟩
      have horig : some c ∈ childrenOf t q ∨ (q = p ∧ some c ∈ c3) := by
        by_cases hqi : q = id
        · rw [hqi, hchidB, ← hchidT] at hs
          exact Or.inl (by rw [hqi]; exact hs)
        · by_cases hqp : q = p
          · rw [hqp, hchpB] at hs
            exact Or.inr ⟨hqp, (trimNones_mem_some c3 c).mp hs⟩
          · rw [hchqB q hqp hqi] at hs
            exact Or.inl hs
      by_cases hci : c = id
      · subst hci
        refine ⟨g node, hlkFid, ?_⟩
        show p = q
        rcases horig with h | ⟨hqp, _⟩
        · have hqrk := hrkB q hq
          obtain ⟨n0, hn0, hnp⟩ := hw6 q hqrk (some c) h c rfl
          rw [hlidt] at hn0
          injection hn0 with hn0
          rw [← hn0] at hnp
          rw [← hbp]
          exact hnp
        · rw [hqp]
      · rcases horig with h | ⟨hqp, h3⟩
        · have hqrk := hrkB q hq
          obtain ⟨n0, hn0, hnp⟩ := hw6 q hqrk (some c) h c rfl
          obtain ⟨n, hn, hpn⟩ := hresolve c hci n0 hn0
          exact ⟨n, hn, by rw [hpn]; exact hnp⟩
        · have h0 : some c ∈ childrenOf t p := by
            rw [hch0]
            exact hmem30 c hci h3
          obtain ⟨n0, hn0, hnp⟩ := hw6 p hprk (some c) h0 c rfl
          obtain ⟨n, hn, hpn⟩ := hresolve c hci n0 hn0
          exact ⟨n, hn, by rw [hpn, hnp, hqp]⟩
    · intro q hq s hs hsn
      by_cases hqi : q = id
      · rw [hqi, hchidB] at hs ⊢
        rw [← hchidT] at hs ⊢
        exact hw7 id (List.mem_cons_of_mem _ hidk) s hs hsn
      · by_cases hqp : q = p
        · rw [hqp, hchpB] at hs ⊢
          cases s with
          | none => exact absurd rfl hsn
          | some c =>
            show ctrim.count (some c) ≤ 1
            rw [hctdef, trimNones_count_some]
            exact hcnt3 c
        · have hch : childrenOf tB q = childrenOf t q := hchqB q hqp hqi
          rw [hch] at hs ⊢
          exact hw7 q (hrkB q hq) s hs hsn
    · intro e he
      have hk : lookupNode tB.tree_data e.1 = some e.2 :=
        lookupNode_eq_some_of_mem hnd2 he
      rcases hL e.1 e.2 hk with ⟨h1, h2⟩ | ⟨h1, n0, hn0, hpp, hdd, _⟩
      · rw [h2]
        show node.data.depth = depthOf tB p + 1
        have h8 := hw8 (id, node) hmemid
        simp only at h8
        rw [hbp] at h8
        rw [hdeppB, ← hdepp]
        exact h8
      · have hmem0 : (e.1, n0) ∈ t.tree_data := mem_of_lookupNode_eq_some hn0
        have h8 := hw8 (e.1, n0) hmem0
        simp only at h8
        rw [hpp, hdd, h8]
        congr 1
        exact (hdepqB _).symm
  refine ⟨hgwp2m, hrootB, hgwpB, ?_, ?_, ?_, ?_⟩
  · rw [hctdef]
    exact getD_trimNones hgetD3
  · intro y hy
    by_cases hyp : y = p
    · subst hyp
      cases hl : lookupNode t.tree_data y with
      | none =>
        have h2mnone : lookupNode t2m.tree_data y = none := by
          rw [hlkne2 y hy, hlk1pn hl]
          exact hl
        rw [hlkBpn h2mnone, h2mnone]
      | some n0 =>
        rw [hlkFP n0 hl]
        by_cases hr : t.root = y
        · rw [if_pos hr]
        · rw [if_neg hr]
          rfl
    · rw [hlkFO y hy hyp]
  · intro hnone
    obtain ⟨c1', c2', c3', c4', c5', c6', c7', c8'⟩ := hclauses none hnone
    exact ⟨c1', c2', c3', c4', fun e he => c5' e he (by simp), c6', c7', c8'⟩
  · intro w hw
    obtain ⟨c1', c2', c3', c4', c5', c6', c7', c8'⟩ := hclauses (some w) hw
    obtain ⟨hw0, hwid, _⟩ := hdisp w hw
    have hwp : ∃ nodeW, lookupNode tB.tree_data w = some nodeW ∧
        nodeW.parent_id = p := by
      rw [← hch0] at hw0
      obtain ⟨n0, hn0, hnp⟩ := hw6 p hprk (some w) hw0 w rfl
      by_cases hwpp : w = p
      · rw [hwpp] at hn0 ⊢
        refine ⟨_, hlkFP n0 hn0, ?_⟩
        by_cases hr : t.root = p
        · rw [if_pos hr]
          exact hnp
        · rw [if_neg hr]
          show n0.parent_id = p
          exact hnp
      · refine ⟨n0, ?_, hnp⟩
        rw [hlkFO w hwid hwpp]
        exact hn0
    refine ⟨⟨c1', c2', c3', c4', ?_, c6', c7', c8'⟩, hwp⟩
    intro e he hne
    exact c5' e he (by simp [hne])

end VirtualWidgetTree

namespace VirtualWidgetTree

/-- Entry to the re-parent branch of `insert`: the old parent's node
resolves, with its original child list, and the widget is found in that
list once trimmed. -/
theorem insert_branchC_pre {t t1 : VirtualWidgetTree} (hwf : WF t)
    {p id ci : Nat} {ident : WidgetIdent} {pdata : WidgetData}
    {children0 c1 c2 c3 : List (Option Nat)} {node : WidgetTreeNode}
    (hroot : ¬ id = t.root)
    (hpg : get_widget_node t p = some (pdata, children0))
    (hc1eq : (vec_remove_element (some id) children0).2 = c1)
    (hc2eq : (if c1.length ≤ ci then
      c1 ++ List.replicate (ci + 1 - c1.length) none else c1) = c2)
    (hc3eq : c2.set ci (some id) = c3)
    (ht1eq : setChildren t p c3 = t1)
    (hlid : lookupNode t1.tree_data id = some node)
    (hop : ¬ node.parent_id = p) :
    (∃ opd, get_widget_node { t1 with tree_data := mapNode t1.tree_data id (fun n => { parent_id := p, children := n.children, data := { ident := ident, depth := n.data.depth } }) } node.parent_id = some (opd, childrenOf t node.parent_id)) ∧
    (∃ j, (vec_remove_element (some id)
      (trimNones (childrenOf t node.parent_id))).1 = some j) ∧
    (vec_remove_element (some id)
      (trimNones (childrenOf t node.parent_id))).2 =
      (trimNones (childrenOf t node.parent_id)).erase (some id) := by
  obtain ⟨hnd, hrootk, hrd, hw4, hw5, hw6, hw7, hw8⟩ := hwf
  obtain ⟨hro1, hrd1, hk1, hlk1ne, hlk1p, hlk1pn, hlk1root, hrc1⟩ :=
    setChildren_obs ht1eq
  -- the widget's stored parent link is unchanged by the slot write
  have hparent : ∃ n0, lookupNode t.tree_data id = some n0 ∧
      n0.parent_id = node.parent_id := by
    by_cases hpi : p = id
    · subst hpi
      by_cases hr : t.root = p
      · exact absurd hr.symm hroot
      · cases hl : lookupNode t.tree_data p with
        | none =>
          rw [hlk1pn hl, hl] at hlid
          exact absurd hlid (by simp)
        | some n0 =>
          rw [hlk1p n0 hl hr] at hlid
          injection hlid with hlid
          exact ⟨n0, rfl, by rw [← hlid]⟩
    · rw [hlk1ne id (fun hc => hpi hc.symm)] at hlid
      exact ⟨node, hlid, rfl⟩
  obtain ⟨n0, hn0, hnp0⟩ := hparent
  have hmem0 : (id, n0) ∈ t.tree_data := mem_of_lookupNode_eq_some hn0
  have hidk : id ∈ keys t := List.mem_map.mpr ⟨(id, n0), hmem0, rfl⟩
  have hopid : node.parent_id ≠ id := by
    intro hc
    have h8 := hw8 (id, n0) hmem0
    simp only at h8
    rw [hnp0, hc] at h8
    have hdp : depthOf t id = n0.data.depth :=
      depthOf_of_lookup (fun hc2 => hroot hc2.symm) hn0
    rw [hdp] at h8
    omega
  have hmemop : some id ∈ childrenOf t node.parent_id := by
    have := hw5 (id, n0) hmem0
    simp only at this
    rw [hnp0] at this
    exact this
  have hoprk : node.parent_id ∈ t.root :: keys t := by
    have := hw4 (id, n0) hmem0
    simp only at this
    rw [hnp0] at this
    rcases this with h | h
    · exact h ▸ List.mem_cons_self _ _
    · exact List.mem_cons_of_mem _ h
  refine ⟨?_, ?_, vre_snd_eq_erase _ _⟩
  · -- resolve the old parent in the mapped tree
    have hchm : childrenOf { t1 with tree_data := mapNode t1.tree_data id (fun n => { parent_id := p, children := n.children, data := { ident := ident, depth := n.data.depth } }) } node.parent_id = childrenOf t node.parent_id := by
      unfold childrenOf get_widget_node
      by_cases hr : t.root = node.parent_id
      · rw [if_pos (by show t1.root = node.parent_id; rw [hro1]; exact hr),
          if_pos hr]
        show t1.root_children = t.root_children
        rw [hrc1, if_neg (fun hc => hop (by rw [← hc, hr]))]
      · rw [if_neg (by show ¬ t1.root = node.parent_id; rw [hro1]; exact hr),
          if_neg hr]
        rw [lookupNode_mapNode_ne _ _ hopid, hlk1ne _ hop]
    rcases List.mem_cons.mp hoprk with h | h
    · refine ⟨t1.root_data, ?_⟩
      unfold get_widget_node
      rw [if_pos (by show t1.root = node.parent_id; rw [hro1, ← h])]
      have hcr : childrenOf t node.parent_id = t.root_children := by
        unfold childrenOf get_widget_node
        rw [if_pos h.symm]
      rw [hcr]
      show some (t1.root_data, t1.root_children) = _
      rw [hrc1, if_neg (fun hc => hop (by rw [← hc, ← h]))]
    · have hopsome : (lookupNode t.tree_data node.parent_id).isSome :=
        (lookupNode_isSome_iff _ _).mpr h
      cases hlop : lookupNode t.tree_data node.parent_id with
      | none => rw [hlop] at hopsome; exact absurd hopsome (by simp)
      | some nop =>
        have hr : t.root ≠ node.parent_id := fun hc => hrootk (hc ▸ h)
        refine ⟨nop.data, ?_⟩
        unfold get_widget_node
        rw [if_neg (by show ¬ t1.root = node.parent_id; rw [hro1]; exact hr)]
        rw [lookupNode_mapNode_ne _ _ hopid, hlk1ne _ hop, hlop]
        rw [childrenOf_of_lookup hr hlop]
        rfl
  · -- the widget is found in the trimmed old list
    have : (find_index (some id) (trimNones (childrenOf t node.parent_id))).isSome := by
      rw [find_index_isSome_iff]
      exact (trimNones_mem_some _ _).mpr hmemop
    cases hfi : find_index (some id) (trimNones (childrenOf t node.parent_id)) with
    | none => rw [hfi] at this; exact absurd this (by simp)
    | some j =>
      refine ⟨j, ?_⟩
      unfold vec_remove_element
      rw [hfi]

end VirtualWidgetTree

/-- Lookup failure transfers between tables with the same key list. -/
theorem lookupNode_none_congr {td td2 : List (Nat × WidgetTreeNode)}
    (hk : td.map Prod.fst = td2.map Prod.fst) {y : Nat}
    (h : lookupNode td2 y = none) : lookupNode td y = none := by
  cases h2 : lookupNode td y with
  | none => rfl
  | some n =>
    have h3 : y ∈ td2.map Prod.fst := by
      rw [← hk]
      exact (lookupNode_isSome_iff _ _).mp (by rw [h2]; rfl)
    have h4 := (lookupNode_isSome_iff td2 y).mpr h3
    rw [h] at h4
    exact absurd h4 (by simp)

namespace VirtualWidgetTree

/-- The cached depth of an id that is neither the root nor stored. -/
theorem depthOf_of_none {t : VirtualWidgetTree} {id : Nat}
    (hne : t.root ≠ id) (h : lookupNode t.tree_data id = none) :
    VirtualWidgetTree.depthOf t id = 0 := by
  unfold VirtualWidgetTree.depthOf
  rw [get_widget_node_eq, if_neg hne, h]
  rfl

end VirtualWidgetTree

namespace VirtualWidgetTree

/-- The re-parenting branch of `insert`: the widget is already stored under
a different parent.  The code detaches it from the old parent's list and
runs `update_node_depth` over its subtree; when that walk returns, the
resulting tree is well-formed except possibly at the displaced occupant of
the target slot. -/
theorem insert_branchC {t t1 t4C : VirtualWidgetTree} (hwf : WF t)
    {p id ci : Nat} {ident : WidgetIdent} {pdata : WidgetData}
    {children0 c1 c2 c3 : List (Option Nat)} {node : WidgetTreeNode}
    {td5 : List (Nat × WidgetTreeNode)}
    (hroot : ¬ id = t.root)
    (hpg : get_widget_node t p = some (pdata, children0))
    (hc1eq : (vec_remove_element (some id) children0).2 = c1)
    (hc2eq : (if c1.length ≤ ci then
      c1 ++ List.replicate (ci + 1 - c1.length) none else c1) = c2)
    (hc3eq : c2.set ci (some id) = c3)
    (ht1eq : setChildren t p c3 = t1)
    (hlid : lookupNode t1.tree_data id = some node)
    (hop : ¬ node.parent_id = p)
    (ht4eq : setChildren (setChildren { t1 with tree_data := mapNode t1.tree_data id (fun n => { parent_id := p, children := n.children, data := { ident := ident, depth := n.data.depth } }) } node.parent_id (trimNones (childrenOf t node.parent_id))) node.parent_id ((trimNones (childrenOf t node.parent_id)).erase (some id)) = t4C)
    (htd5 : update_node_depth (t4C.tree_data.length + 2) t4C.tree_data
      (pdata.depth + 1) id = some td5) :
    ({ t4C with tree_data := td5 } : VirtualWidgetTree).root = t.root ∧
    get_widget_node { t4C with tree_data := td5 } p = some (pdata, c3) ∧
    c3.getD ci none = some id ∧
    (∀ y, y ≠ id → (lookupNode td5 y).map (fun n => n.parent_id) =
      (lookupNode t.tree_data y).map (fun n => n.parent_id)) ∧
    (c2.getD ci none = none → WF { t4C with tree_data := td5 }) ∧
    (∀ w, c2.getD ci none = some w →
      WFexcept { t4C with tree_data := td5 } w ∧
      ∃ nodeW, lookupNode td5 w = some nodeW ∧ nodeW.parent_id = p) := by
  obtain ⟨hnd, hrootk, hrd, hw4, hw5, hw6, hw7, hw8⟩ := hwf
  set op : Nat := node.parent_id with hopdef
  set g : WidgetTreeNode → WidgetTreeNode := fun n => { parent_id := p, children := n.children, data := { ident := ident, depth := n.data.depth } } with hgdef
  set t2m : VirtualWidgetTree := { t1 with tree_data := mapNode t1.tree_data id g } with ht2mdef
  set ctop : List (Option Nat) := childrenOf t op with hctopdef
  set optrim : List (Option Nat) := trimNones ctop with hotdef
  set opera : List (Option Nat) := optrim.erase (some id) with hoperadef
  set t3C : VirtualWidgetTree := setChildren t2m op optrim with ht3def
  set t5 : VirtualWidgetTree := { t4C with tree_data := td5 } with ht5def
  have hp : p = t.root ∨ p ∈ keys t := gwn_root_or_keys hpg
  have hch0 : childrenOf t p = children0 := childrenOf_eq_of_gwn hpg
  have hprk : p ∈ t.root :: keys t := by
    rcases hp with h | h
    · exact h ▸ List.mem_cons_self _ _
    · exact List.mem_cons_of_mem _ h
  have hcntT : ∀ q ∈ t.root :: keys t, ∀ c : Nat,
      (childrenOf t q).count (some c) ≤ 1 :=
    fun q hq c => WF.count_bound ⟨hnd, hrootk, hrd, hw4, hw5, hw6, hw7, hw8⟩ hq c
  have hcnt0 : ∀ c : Nat, children0.count (some c) ≤ 1 := by
    intro c
    rw [← hch0]
    exact hcntT p hprk c
  obtain ⟨hcilt, hgetD3, hmem3, hcnt3, hmem30, hsurv, hgetid, hdisp⟩ :=
    slot_facts hcnt0 hc1eq.symm hc2eq.symm hc3eq.symm
  obtain ⟨hro1, hrd1, hk1, hlk1ne, hlk1p, hlk1pn, hlk1root, hrc1⟩ :=
    setChildren_obs ht1eq
  -- the widget's stored parent link before the re-parent step
  have hparent : ∃ n0, lookupNode t.tree_data id = some n0 ∧
      n0.parent_id = op := by
    by_cases hpi : p = id
    · subst hpi
      by_cases hr : t.root = p
      · exact absurd hr.symm hroot
      · cases hl : lookupNode t.tree_data p with
        | none =>
          rw [hlk1pn hl, hl] at hlid
          exact absurd hlid (by simp)
        | some n0 =>
          rw [hlk1p n0 hl hr] at hlid
          injection hlid with hlid
          exact ⟨n0, rfl, by rw [hopdef, ← hlid]⟩
    · rw [hlk1ne id (fun hc => hpi hc.symm)] at hlid
      exact ⟨node, hlid, rfl⟩
  have hopid : op ≠ id := by
    obtain ⟨n0, hn0, hnp0⟩ := hparent
    intro hc
    have h8 := hw8 (id, n0) (mem_of_lookupNode_eq_some hn0)
    simp only at h8
    rw [hnp0, hc] at h8
    have hdp : depthOf t id = n0.data.depth :=
      depthOf_of_lookup (fun hc2 => hroot hc2.symm) hn0
    rw [hdp] at h8
    omega
  -- lookups through the mapped tree
  have hlid2 : lookupNode t2m.tree_data id = some (g node) := by
    show lookupNode (mapNode t1.tree_data id g) id = some (g node)
    rw [lookupNode_mapNode_self, hlid]
    rfl
  have hlkne2 : ∀ k, k ≠ id →
      lookupNode t2m.tree_data k = lookupNode t1.tree_data k := by
    intro k hk
    exact lookupNode_mapNode_ne _ _ hk
  obtain ⟨hro3, hrd3, hk3, hlk3ne, hlk3p, hlk3pn, hlk3root, hrc3⟩ :=
    setChildren_obs ht3def.symm
  obtain ⟨hro4, hrd4m, hk4, hlk4ne, hlk4p, hlk4pn, hlk4root, hrc4m⟩ :=
    setChildren_obs ht4eq
  have hl4ne2 : ∀ k, k ≠ op →
      lookupNode t4C.tree_data k = lookupNode t2m.tree_data k := by
    intro k hk
    rw [hlk4ne k hk, hlk3ne k hk]
  have hl4id : lookupNode t4C.tree_data id = some (g node) := by
    rw [hl4ne2 id (fun hc => hopid hc.symm)]
    exact hlid2
  -- the widget is not the target parent: otherwise the written slot makes
  -- it its own child and the depth walk diverges
  have hpid : p ≠ id := by
    intro hc
    have hrp : t.root ≠ p := fun hc2 => hroot (by rw [hc] at hc2; exact hc2.symm)
    have hchc3 : node.children = c3 := by
      cases hl : lookupNode t.tree_data p with
      | none =>
        rw [← hc] at hlid
        rw [hlk1pn hl, hl] at hlid
        exact absurd hlid (by simp)
      | some n0 =>
        rw [← hc] at hlid
        rw [hlk1p n0 hl hrp] at hlid
        injection hlid with hlid
        rw [← hlid]
    have hcyc : CycAt t4C.tree_data id :=
      ⟨g node, hl4id, id,
        by show some id ∈ node.children; rw [hchc3]; exact hmem3,
        ReachTd.refl id⟩
    have hdiv := (updDiverge (t4C.tree_data.length + 2)).1 t4C.tree_data
      (pdata.depth + 1) id ⟨id, ReachTd.refl id, hcyc⟩
    rw [hdiv] at htd5
    exact absurd htd5 (by simp)
  have hlidt : lookupNode t.tree_data id = some node := by
    rw [← hlk1ne id (fun hc => hpid hc.symm)]
    exact hlid
  have hmemid : (id, node) ∈ t.tree_data := mem_of_lookupNode_eq_some hlidt
  have hidk : id ∈ keys t := List.mem_map.mpr ⟨(id, node), hmemid, rfl⟩
  have hchidT : childrenOf t id = node.children :=
    childrenOf_of_lookup (fun hc => hroot hc.symm) hlidt
  -- the old parent
  have hmemop : some id ∈ ctop := by
    have h5 := hw5 (id, node) hmemid
    simp only at h5
    rw [hctopdef, hopdef]
    exact h5
  have hoprk : op ∈ t.root :: keys t := by
    have h4 := hw4 (id, node) hmemid
    simp only at h4
    rw [hopdef]
    rcases h4 with h | h
    · exact h ▸ List.mem_cons_self _ _
    · exact List.mem_cons_of_mem _ h
  have hopdata : t.root ≠ op → ∃ nop, lookupNode t.tree_data op = some nop ∧
      nop.children = ctop := by
    intro hr
    have hk : op ∈ keys t := by
      rcases List.mem_cons.mp hoprk with h | h
      · exact absurd h.symm hr
      · exact h
    have hsome : (lookupNode t.tree_data op).isSome :=
      (lookupNode_isSome_iff _ _).mpr hk
    cases hl : lookupNode t.tree_data op with
    | none => rw [hl] at hsome; exact absurd hsome (by simp)
    | some nop =>
      refine ⟨nop, rfl, ?_⟩
      rw [hctopdef]
      exact (childrenOf_of_lookup hr hl).symm
  -- occupied-slot counts of the lists involved
  have hcntop : ∀ c : Nat, ctop.count (some c) ≤ 1 := by
    intro c
    rw [hctopdef]
    exact hcntT op hoprk c
  have hcntopera : ∀ c : Nat, opera.count (some c) ≤ 1 := by
    intro c
    rw [hoperadef, count_erase_some, hotdef, trimNones_count_some]
    have := hcntop c
    split_ifs with h
    · omega
    · exact this
  have hcntid : ∀ c : Nat, node.children.count (some c) ≤ 1 := by
    intro c
    rw [← hchidT]
    exact hcntT id (List.mem_cons_of_mem _ hidk) c
  have hidopera : some id ∉ opera := by
    have h0 : opera.count (some id) = 0 := by
      rw [hoperadef, count_erase_some, if_pos rfl, hotdef, trimNones_count_some]
      have := hcntop id
      omega
    rw [← List.count_pos_iff.not, h0]
    simp
  -- parent data in the original tree
  have hpdata : (p = t.root → pdata = t.root_data ∧ children0 = t.root_children) ∧
      (t.root ≠ p → ∃ n0, lookupNode t.tree_data p = some n0 ∧
        pdata = n0.data ∧ children0 = n0.children) := by
    constructor
    · intro h
      unfold get_widget_node at hpg
      rw [if_pos h.symm] at hpg
      injection hpg with hpg
      exact ⟨(congrArg Prod.fst hpg).symm, (congrArg Prod.snd hpg).symm⟩
    · intro h
      unfold get_widget_node at hpg
      rw [if_neg h] at hpg
      cases hl : lookupNode t.tree_data p with
      | none => rw [hl] at hpg; exact absurd hpg (by simp)
      | some n0 =>
        rw [hl] at hpg
        simp only [Option.map_some'] at hpg
        injection hpg with hpg
        exact ⟨n0, rfl, (congrArg Prod.fst hpg).symm, (congrArg Prod.snd hpg).symm⟩
  -- key-specific entry equations of the detached tree
  have hl4P : ∀ n0, lookupNode t.tree_data p = some n0 → t.root ≠ p →
      lookupNode t4C.tree_data p = some { n0 with children := c3 } := by
    intro n0 h0 hr
    rw [hl4ne2 p (fun hc => hop hc.symm), hlkne2 p hpid]
    exact hlk1p n0 h0 hr
  have hl4OP : ∀ nop, lookupNode t.tree_data op = some nop → t.root ≠ op →
      lookupNode t4C.tree_data op =
        some { parent_id := nop.parent_id, children := opera, data := nop.data } := by
    intro nop hnop hr
    have h1 : lookupNode t2m.tree_data op = some nop := by
      rw [hlkne2 op hopid, hlk1ne op hop]
      exact hnop
    have hr2 : t2m.root ≠ op := by
      show t1.root ≠ op
      rw [hro1]
      exact hr
    have h3 : lookupNode t3C.tree_data op = some { nop with children := optrim } :=
      hlk3p nop h1 hr2
    have hr3 : t3C.root ≠ op := by
      rw [hro3]
      exact hr2
    exact hlk4p { nop with children := optrim } h3 hr3
  have hl4O : ∀ k, k ≠ op → k ≠ id → k ≠ p →
      lookupNode t4C.tree_data k = lookupNode t.tree_data k := by
    intro k h1 h2 h3
    rw [hl4ne2 k h1, hlkne2 k h2, hlk1ne k h3]
  -- globals of the detached tree
  have hroot4 : t4C.root = t.root := by
    rw [hro4, hro3]
    show t1.root = t.root
    exact hro1
  have hrdata4 : t4C.root_data = t.root_data := by
    rw [hrd4m, hrd3]
    show t1.root_data = t.root_data
    exact hrd1
  have hkeys4 : keys t4C = keys t := by
    show t4C.tree_data.map Prod.fst = keys t
    rw [hk4, hk3]
    show (mapNode t1.tree_data id g).map Prod.fst = keys t
    rw [mapNode_keys]
    exact hk1
  -- entry characterization of the detached tree
  have hL4 : ∀ k n2, lookupNode t4C.tree_data k = some n2 →
      (k = id ∧ n2 = g node) ∨
      (k ≠ id ∧ ∃ n0, lookupNode t.tree_data k = some n0 ∧
        n2.parent_id = n0.parent_id ∧ n2.data = n0.data ∧
        ((k ≠ p ∧ k ≠ op ∧ n2.children = n0.children) ∨
         (k = p ∧ n2.children = c3) ∨ (k = op ∧ n2.children = opera))) := by
    intro k n2 hk
    by_cases hki : k = id
    · subst hki
      rw [hl4id] at hk
      injection hk with hk
      exact Or.inl ⟨rfl, hk.symm⟩
    · right
      refine ⟨hki, ?_⟩
      by_cases hkop : k = op
      · by_cases hr : t.root = op
        · exfalso
          have hkk : k ∈ keys t := by
            rw [← hkeys4]
            exact (lookupNode_isSome_iff _ _).mp (by rw [hk]; rfl)
          exact hrootk (by rw [hr, ← hkop]; exact hkk)
        · obtain ⟨nop, hnop, _⟩ := hopdata hr
          have h4 := hl4OP nop hnop hr
          rw [hkop] at hk
          rw [h4] at hk
          injection hk with hk
          subst hk
          exact ⟨nop, by rw [hkop]; exact hnop, rfl, rfl,
            Or.inr (Or.inr ⟨hkop, rfl⟩)⟩
      · by_cases hkp : k = p
        · cases hl : lookupNode t.tree_data k with
          | none =>
            exfalso
            have h4 : lookupNode t4C.tree_data k = none := by
              rw [hl4ne2 k hkop, hlkne2 k hki, hkp]
              rw [hkp] at hl
              rw [hlk1pn hl]
              exact hl
            rw [h4] at hk
            exact absurd hk (by simp)
          | some n0 =>
            have hck : k ∈ keys t :=
              (lookupNode_isSome_iff _ _).mp (by rw [hl]; rfl)
            have hrk : t.root ≠ k := fun hc2 => hrootk (hc2 ▸ hck)
            have h4 : lookupNode t4C.tree_data k = some { n0 with children := c3 } := by
              rw [hkp]
              rw [hkp] at hl hrk
              exact hl4P n0 hl hrk
            rw [h4] at hk
            injection hk with hk
            subst hk
            exact ⟨n0, rfl, rfl, rfl, Or.inr (Or.inl ⟨hkp, rfl⟩)⟩
        · rw [hl4O k hkop hki hkp] at hk
          exact ⟨n2, hk, rfl, rfl, Or.inl ⟨hkp, hkop, rfl⟩⟩
  -- child lists of the detached tree
  have hch4p : childrenOf t4C p = c3 := by
    by_cases hr : t.root = p
    · have hr4 : t4C.root = p := by rw [hroot4]; exact hr
      rw [← hr4, childrenOf_root, hrc4m,
        if_neg (show ¬ t3C.root = op by
          rw [hro3]; show ¬ t1.root = op; rw [hro1]
          exact fun hc => hop (hc.symm.trans hr)),
        hrc3,
        if_neg (show ¬ t2m.root = op by
          show ¬ t1.root = op; rw [hro1]
          exact fun hc => hop (hc.symm.trans hr))]
      show t1.root_children = c3
      rw [hrc1, if_pos hr]
    · obtain ⟨n0p, hn0p, _, _⟩ := hpdata.2 hr
      rw [childrenOf_of_lookup (show t4C.root ≠ p by rw [hroot4]; exact hr)
        (hl4P n0p hn0p hr)]
  have hch4op : childrenOf t4C op = opera := by
    by_cases hr : t.root = op
    · have hr4 : t4C.root = op := by rw [hroot4]; exact hr
      rw [← hr4, childrenOf_root, hrc4m,
        if_pos (show t3C.root = op by
          rw [hro3]; show t1.root = op; rw [hro1]; exact hr)]
    · obtain ⟨nop, hnop, _⟩ := hopdata hr
      exact childrenOf_of_lookup (show t4C.root ≠ op by rw [hroot4]; exact hr)
        (hl4OP nop hnop hr)
  have hch4id : childrenOf t4C id = node.children := by
    have h := childrenOf_of_lookup
      (show t4C.root ≠ id by rw [hroot4]; exact fun hc => hroot hc.symm) hl4id
    exact h
  have hch4q : ∀ q, q ≠ p → q ≠ op → q ≠ id →
      childrenOf t4C q = childrenOf t q := by
    intro q hqp hqop hqid
    by_cases hr : t.root = q
    · have hr4 : t4C.root = q := by rw [hroot4]; exact hr
      conv_lhs => rw [← hr4, childrenOf_root]
      rw [hrc4m,
        if_neg (show ¬ t3C.root = op by
          rw [hro3]; show ¬ t1.root = op; rw [hro1]
          exact fun hc => hqop (hr.symm.trans hc)),
        hrc3,
        if_neg (show ¬ t2m.root = op by
          show ¬ t1.root = op; rw [hro1]
          exact fun hc => hqop (hr.symm.trans hc))]
      show t1.root_children = childrenOf t q
      rw [hrc1, if_neg (fun hc => hqp (hr.symm.trans hc))]
      rw [← hr, childrenOf_root]
    · cases hl : lookupNode t.tree_data q with
      | none =>
        have h4 : lookupNode t4C.tree_data q = none := by
          rw [hl4O q hqop hqid hqp]
          exact hl
        rw [childrenOf_of_none (show t4C.root ≠ q by rw [hroot4]; exact hr) h4,
            childrenOf_of_none hr hl]
      | some n0 =>
        rw [childrenOf_of_lookup (show t4C.root ≠ q by rw [hroot4]; exact hr)
          (by rw [hl4O q hqop hqid hqp]; exact hl),
          childrenOf_of_lookup hr hl]
  -- back-pointer resolution in the detached tree
  have hres4 : ∀ c, c ≠ id → ∀ n0c, lookupNode t.tree_data c = some n0c →
      ∃ m, lookupNode t4C.tree_data c = some m ∧
        m.parent_id = n0c.parent_id := by
    intro c hci n0c hn0c
    have hck : c ∈ keys t :=
      (lookupNode_isSome_iff _ _).mp (by rw [hn0c]; rfl)
    have hrc : t.root ≠ c := fun hc => hrootk (hc ▸ hck)
    by_cases hcp : c = p
    · subst hcp
      exact ⟨{ n0c with children := c3 }, hl4P n0c hn0c hrc, rfl⟩
    · by_cases hcop : c = op
      · subst hcop
        exact ⟨_, hl4OP n0c hn0c hrc, rfl⟩
      · exact ⟨n0c, by rw [hl4O c hcop hci hcp]; exact hn0c, rfl⟩
  have HB4 : ∀ k n, lookupNode t4C.tree_data k = some n →
      ∀ c, some c ∈ n.children →
      ∃ m, lookupNode t4C.tree_data c = some m ∧ m.parent_id = k := by
    intro k n hk c hc
    rcases hL4 k n hk with ⟨hki, hne⟩ | ⟨hki, n0, hn0, _, _, hdisj⟩
    · rw [hne] at hc
      have hcm : some c ∈ childrenOf t id := by
        rw [hchidT]
        exact hc
      obtain ⟨nc, hnc, hncp⟩ := hw6 id (List.mem_cons_of_mem _ hidk) (some c) hcm c rfl
      by_cases hci : c = id
      · exfalso
        rw [hci, hlidt] at hnc
        injection hnc with hnc
        apply hopid
        rw [hopdef, hnc]
        exact hncp
      · obtain ⟨m, hm, hmp⟩ := hres4 c hci nc hnc
        refine ⟨m, hm, ?_⟩
        rw [hmp, hncp]
        exact hki.symm
    · rcases hdisj with ⟨hknp, hknop, hch⟩ | ⟨hkp, hch⟩ | ⟨hkop, hch⟩
      · rw [hch] at hc
        have hck : k ∈ keys t :=
          (lookupNode_isSome_iff _ _).mp (by rw [hn0]; rfl)
        have hrk : t.root ≠ k := fun hc2 => hrootk (hc2 ▸ hck)
        have hcm : some c ∈ childrenOf t k := by
          rw [childrenOf_of_lookup hrk hn0]
          exact hc
        obtain ⟨nc, hnc, hncp⟩ := hw6 k (List.mem_cons_of_mem _ hck) (some c) hcm c rfl
        by_cases hci : c = id
        · exfalso
          rw [hci, hlidt] at hnc
          injection hnc with hnc
          apply hknop
          rw [hopdef, hnc]
          exact hncp.symm
        · obtain ⟨m, hm, hmp⟩ := hres4 c hci nc hnc
          exact ⟨m, hm, by rw [hmp]; exact hncp⟩
      · rw [hch] at hc
        by_cases hci : c = id
        · refine ⟨g node, by rw [hci]; exact hl4id, ?_⟩
          show p = k
          exact hkp.symm
        · have hc0 : some c ∈ children0 := hmem30 c hci hc
          have hcm : some c ∈ childrenOf t p := by
            rw [hch0]
            exact hc0
          obtain ⟨nc, hnc, hncp⟩ := hw6 p hprk (some c) hcm c rfl
          obtain ⟨m, hm, hmp⟩ := hres4 c hci nc hnc
          refine ⟨m, hm, ?_⟩
          rw [hmp, hncp]
          exact hkp.symm
      · rw [hch] at hc
        have hci : c ≠ id := fun hc2 => hidopera (hc2 ▸ hc)
        have hcm : some c ∈ childrenOf t op := by
          have h2 := hc
          rw [hoperadef, mem_erase_some_of_ne hci, hotdef, trimNones_mem_some,
            hctopdef] at h2
          exact h2
        obtain ⟨nc, hnc, hncp⟩ := hw6 op hoprk (some c) hcm c rfl
        obtain ⟨m, hm, hmp⟩ := hres4 c hci nc hnc
        refine ⟨m, hm, ?_⟩
        rw [hmp, hncp]
        exact hkop.symm
  have HD4 : ∀ k n, lookupNode t4C.tree_data k = some n → ∀ c : Nat,
      n.children.count (some c) ≤ 1 := by
    intro k n hk c
    rcases hL4 k n hk with ⟨hki, hne⟩ | ⟨hki, n0, hn0, _, _, hdisj⟩
    · rw [hne]
      show node.children.count (some c) ≤ 1
      exact hcntid c
    · rcases hdisj with ⟨_, _, hch⟩ | ⟨_, hch⟩ | ⟨_, hch⟩
      · rw [hch]
        have hck : k ∈ keys t :=
          (lookupNode_isSome_iff _ _).mp (by rw [hn0]; rfl)
        have hrk : t.root ≠ k := fun hc2 => hrootk (hc2 ▸ hck)
        rw [← childrenOf_of_lookup hrk hn0]
        exact hcntT k (List.mem_cons_of_mem _ hck) c
      · rw [hch]
        exact hcnt3 c
      · rw [hch]
        exact hcntopera c
  -- the depth walk terminated, so no cycle is reachable from the widget
  have hnocyc : ∀ k, ReachTd t4C.tree_data id k → ¬ CycAt t4C.tree_data k := by
    intro k hk hcy
    have hdiv := (updDiverge (t4C.tree_data.length + 2)).1 t4C.tree_data
      (pdata.depth + 1) id ⟨k, hk, hcy⟩
    rw [hdiv] at htd5
    exact absurd htd5 (by simp)
  obtain ⟨hshape, hframe, hdepid, hw8r⟩ :=
    (updCorrect (t4C.tree_data.length + 2)).1 t4C.tree_data (pdata.depth + 1)
      id td5 HB4 HD4 hnocyc htd5
  -- the root and the target parent are outside the relocated subtree
  have hrootnr : ¬ ReachTd t4C.tree_data id t.root := by
    intro h
    cases h with
    | refl => exact hroot rfl
    | step hr2 hl hc =>
      obtain ⟨m, hm, _⟩ := HB4 _ _ hl _ hc
      have hmk : t.root ∈ keys t := by
        rw [← hkeys4]
        exact (lookupNode_isSome_iff _ _).mp (by rw [hm]; rfl)
      exact hrootk hmk
  have hpnr : ¬ ReachTd t4C.tree_data id p := by
    by_cases hr : t.root = p
    · rw [← hr]
      exact hrootnr
    · intro hreach
      obtain ⟨n0p, hn0p, _, _⟩ := hpdata.2 hr
      refine hnocyc p hreach ⟨{ n0p with children := c3 }, hl4P n0p hn0p hr, id,
        ?_, hreach⟩
      show some id ∈ c3
      exact hmem3
  -- lift the shape to the final tree
  have hkeys5 : keys t5 = keys t := by
    show t5.tree_data.map Prod.fst = keys t
    show td5.map Prod.fst = keys t
    rw [← hshape.1]
    exact hkeys4
  have hroot5 : t5.root = t.root := hroot4
  obtain ⟨nid5, hl5id, hl5idp, hl5idc⟩ := sameShape_lookup hshape hl4id
  have hl5idp2 : nid5.parent_id = p := by
    rw [hl5idp]
  have hl5idd : nid5.data.depth = pdata.depth + 1 := by
    have h := hdepid
    rw [hl5id] at h
    simpa using h
  have hentry5id : ∀ m : WidgetTreeNode, lookupNode td5 id = some m → m = nid5 := by
    intro m h
    rw [hl5id] at h
    injection h with h
    exact h.symm
  have hch5eq : ∀ q, childrenOf t5 q = childrenOf t4C q := by
    intro q
    unfold childrenOf get_widget_node
    by_cases hr : t4C.root = q
    · rw [if_pos (show t5.root = q from hr), if_pos hr]
    · rw [if_neg (show ¬ t5.root = q from hr), if_neg hr]
      cases h4 : lookupNode t4C.tree_data q with
      | none =>
        have h5 : lookupNode td5 q = none := by
          cases h5x : lookupNode td5 q with
          | none => rfl
          | some m =>
            obtain ⟨m2, hm2, _, _⟩ := sameShape_lookup (sameShape_symm hshape) h5x
            rw [h4] at hm2
            exact absurd hm2 (by simp)
        rw [show lookupNode t5.tree_data q = none from h5]
      | some n =>
        obtain ⟨m, hm, _, hcm⟩ := sameShape_lookup hshape h4
        rw [show lookupNode t5.tree_data q = some m from hm]
        show m.children = n.children
        exact hcm
  -- parent pointers of the final tree, seen from the original
  have hpar45 : ∀ y, (lookupNode td5 y).map (fun n => n.parent_id) =
      (lookupNode t4C.tree_data y).map (fun n => n.parent_id) := by
    intro y
    cases h4 : lookupNode t4C.tree_data y with
    | none =>
      cases h5 : lookupNode td5 y with
      | none => rfl
      | some m =>
        obtain ⟨m2, hm2, _, _⟩ := sameShape_lookup (sameShape_symm hshape) h5
        rw [h4] at hm2
        exact absurd hm2 (by simp)
    | some n =>
      obtain ⟨m, hm, hpm, _⟩ := sameShape_lookup hshape h4
      rw [hm]
      simp only [Option.map_some']
      rw [hpm]
  have htd4par : ∀ y, y ≠ id → (lookupNode t4C.tree_data y).map (fun n => n.parent_id) =
      (lookupNode t.tree_data y).map (fun n => n.parent_id) := by
    intro y hy
    cases hl : lookupNode t.tree_data y with
    | none =>
      have h4 : lookupNode t4C.tree_data y = none :=
        lookupNode_none_congr hkeys4 hl
      rw [h4]
    | some n0 =>
      have hck : y ∈ keys t :=
        (lookupNode_isSome_iff _ _).mp (by rw [hl]; rfl)
      have hrk : t.root ≠ y := fun hc2 => hrootk (hc2 ▸ hck)
      by_cases hyp : y = p
      · subst hyp
        rw [hl4P n0 hl hrk]
        rfl
      · by_cases hyop : y = op
        · subst hyop
          rw [hl4OP n0 hl hrk]
          rfl
        · rw [hl4O y hyop hy hyp, hl]
  have hpar5 : ∀ y, y ≠ id → (lookupNode td5 y).map (fun n => n.parent_id) =
      (lookupNode t.tree_data y).map (fun n => n.parent_id) :=
    fun y hy => (hpar45 y).trans (htd4par y hy)
  have htrans : ∀ c, c ≠ id → ∀ nc, lookupNode t.tree_data c = some nc →
      ∃ m, lookupNode td5 c = some m ∧ m.parent_id = nc.parent_id := by
    intro c hc nc hnc
    have h := hpar5 c hc
    rw [hnc] at h
    cases h5 : lookupNode td5 c with
    | none => rw [h5] at h; exact absurd h (by simp)
    | some m =>
      rw [h5] at h
      simp only [Option.map_some'] at h
      injection h with h
      exact ⟨m, rfl, h⟩
  -- depths outside the relocated subtree are untouched
  have hdeppres : ∀ q, ¬ ReachTd t4C.tree_data id q →
      depthOf t5 q = depthOf t q := by
    intro q hq
    by_cases hr : t.root = q
    · calc depthOf t5 q = t5.root_data.depth := by
            rw [show q = t5.root by rw [show t5.root = t.root from hroot5, ← hr]]
            exact depthOf_root t5
        _ = t.root_data.depth := by
            show t4C.root_data.depth = t.root_data.depth
            rw [hrdata4]
        _ = depthOf t q := by rw [← hr, depthOf_root]
    · cases hl : lookupNode t.tree_data q with
      | none =>
        have h4 : lookupNode t4C.tree_data q = none :=
          lookupNode_none_congr hkeys4 hl
        have h5 : lookupNode td5 q = none := by
          rw [hframe q hq, h4]
        rw [depthOf_of_none
            (show t5.root ≠ q by rw [show t5.root = t.root from hroot5]; exact hr)
            (show lookupNode t5.tree_data q = none from h5),
          depthOf_of_none hr hl]
      | some n0 =>
        cases h4 : lookupNode t4C.tree_data q with
        | none =>
          have := lookupNode_none_congr hkeys4.symm h4
          rw [hl] at this
          exact absurd this (by simp)
        | some n2 =>
          have hqid : q ≠ id := fun hc => hq (by rw [hc]; exact ReachTd.refl id)
          rcases hL4 q n2 h4 with ⟨h1, _⟩ | ⟨_, n0x, hn0x, _, hdata, _⟩
          · exact absurd h1 hqid
          · rw [hl] at hn0x
            injection hn0x with hn0x
            have h5 : lookupNode td5 q = some n2 := by
              rw [hframe q hq]
              exact h4
            rw [depthOf_of_lookup
                (show t5.root ≠ q by rw [show t5.root = t.root from hroot5]; exact hr)
                (show lookupNode t5.tree_data q = some n2 from h5),
              depthOf_of_lookup hr hl]
            rw [hdata, ← hn0x]
  have hdepp : depthOf t p = pdata.depth := by
    unfold depthOf
    rw [hpg]
  -- the final parent slot list
  have hgw5p : get_widget_node t5 p = some (pdata, c3) := by
    by_cases hr : t.root = p
    · have hrootp : t4C.root = p := by rw [hroot4]; exact hr
      have h1 := (hpdata.1 hr.symm).1
      have hrc : t4C.root_children = c3 := by
        rw [← hch4p, ← hrootp]
        exact (childrenOf_root t4C).symm
      unfold get_widget_node
      rw [if_pos (show t5.root = p from hrootp)]
      show some (t4C.root_data, t4C.root_children) = some (pdata, c3)
      rw [hrdata4, hrc, ← h1]
    · obtain ⟨n0p, hn0p, hd0, _⟩ := hpdata.2 hr
      have h4 := hl4P n0p hn0p hr
      have h5 : lookupNode td5 p = some { n0p with children := c3 } := by
        rw [hframe p hpnr]
        exact h4
      unfold get_widget_node
      rw [if_neg (show ¬ t5.root = p by rw [show t5.root = t.root from hroot5]; exact hr)]
      rw [show lookupNode t5.tree_data p = some { n0p with children := c3 } from h5]
      simp only [Option.map_some']
      rw [hd0]
  -- the well-formedness clauses, with the displaced occupant excepted
  have hclauses : ∀ wopt : Option Nat, c2.getD ci none = wopt →
      (keys t5).Nodup ∧
      t5.root ∉ keys t5 ∧
      t5.root_data.depth = 0 ∧
      (∀ e ∈ t5.tree_data, e.2.parent_id = t5.root ∨ e.2.parent_id ∈ keys t5) ∧
      (∀ e ∈ t5.tree_data, some e.1 ≠ wopt →
        some e.1 ∈ childrenOf t5 e.2.parent_id) ∧
      (∀ q ∈ t5.root :: keys t5, ∀ s ∈ childrenOf t5 q, ∀ c, s = some c →
        ∃ n, lookupNode t5.tree_data c = some n ∧ n.parent_id = q) ∧
      (∀ q ∈ t5.root :: keys t5, ∀ s ∈ childrenOf t5 q, s ≠ none →
        (childrenOf t5 q).count s ≤ 1) ∧
      (∀ e ∈ t5.tree_data, e.2.data.depth = depthOf t5 e.2.parent_id + 1) := by
    intro wopt hwopt
    have hnd5 : (keys t5).Nodup := by
      rw [hkeys5]
      exact hnd
    refine ⟨hnd5, ?_, ?_, ?_, ?_, ?_, ?_, ?_⟩
    · rw [show t5.root = t.root from hroot5, hkeys5]
      exact hrootk
    · show t4C.root_data.depth = 0
      rw [hrdata4]
      exact hrd
    · -- parents stay resolvable
      intro e he
      have hk : lookupNode t5.tree_data e.1 = some e.2 :=
        lookupNode_eq_some_of_mem hnd5 he
      by_cases hki : e.1 = id
      · have hkid : lookupNode td5 id = some e.2 := by
          rw [← hki]
          exact hk
        have he2 := hentry5id e.2 hkid
        rw [he2, hl5idp2]
        rcases hp with h | h
        · exact Or.inl (by rw [show t5.root = t.root from hroot5, ← h])
        · exact Or.inr (by rw [hkeys5]; exact h)
      · have hpar := hpar5 e.1 hki
        rw [show lookupNode td5 e.1 = some e.2 from hk] at hpar
        cases hl : lookupNode t.tree_data e.1 with
        | none => rw [hl] at hpar; simp at hpar
        | some n0 =>
          rw [hl] at hpar
          simp only [Option.map_some'] at hpar
          injection hpar with hpar
          rcases hw4 (e.1, n0) (mem_of_lookupNode_eq_some hl) with h | h
          · exact Or.inl (by rw [hpar, show t5.root = t.root from hroot5]; exact h)
          · exact Or.inr (by rw [hpar, hkeys5]; exact h)
    · -- membership in the parent's list, except for the displaced occupant
      intro e he hne
      have hk : lookupNode t5.tree_data e.1 = some e.2 :=
        lookupNode_eq_some_of_mem hnd5 he
      rw [hch5eq]
      by_cases hki : e.1 = id
      · have hkid : lookupNode td5 id = some e.2 := by
          rw [← hki]
          exact hk
        have he2 := hentry5id e.2 hkid
        rw [he2, hl5idp2, hch4p, hki]
        exact hmem3
      · have hpar := hpar5 e.1 hki
        rw [show lookupNode td5 e.1 = some e.2 from hk] at hpar
        cases hl : lookupNode t.tree_data e.1 with
        | none => rw [hl] at hpar; simp at hpar
        | some n0 =>
          rw [hl] at hpar
          simp only [Option.map_some'] at hpar
          injection hpar with hpar
          have hm5t := hw5 (e.1, n0) (mem_of_lookupNode_eq_some hl)
          simp only at hm5t
          rw [hpar]
          by_cases hqp : n0.parent_id = p
          · rw [hqp, hch4p]
            rw [hqp, hch0] at hm5t
            refine hsurv e.1 hki hm5t ?_
            rw [hwopt]
            intro hc
            rw [hc] at hne
            exact hne rfl
          · by_cases hqop : n0.parent_id = op
            · rw [hqop, hch4op]
              rw [hqop] at hm5t
              rw [hoperadef, mem_erase_some_of_ne hki, hotdef,
                trimNones_mem_some, hctopdef]
              exact hm5t
            · by_cases hqid : n0.parent_id = id
              · rw [hqid, hch4id]
                rw [hqid, hchidT] at hm5t
                exact hm5t
              · rw [hch4q _ hqp hqop hqid]
                exact hm5t
    · -- occupied slots point back
      intro q hq s hs c hsc
      subst hsc
      rw [hch5eq q] at hs
      rcases List.mem_cons.mp hq with hqroot | hqk
      · have hqr : q = t.root := by
          rw [hqroot]
          exact hroot5
        by_cases hrop : t.root = op
        · have heq : childrenOf t4C q = opera := by
            rw [hqr, hrop]
            exact hch4op
          rw [heq] at hs
          have hci : c ≠ id := fun hc2 => hidopera (hc2 ▸ hs)
          have hsc2 : some c ∈ childrenOf t q := by
            have h2 := hs
            rw [hoperadef, mem_erase_some_of_ne hci, hotdef, trimNones_mem_some,
              hctopdef] at h2
            rw [hqr, hrop]
            exact h2
          obtain ⟨nc, hnc, hncp⟩ := hw6 q (by rw [hqr]; exact List.mem_cons_self _ _)
            (some c) hsc2 c rfl
          obtain ⟨m, hm, hmp⟩ := htrans c hci nc hnc
          exact ⟨m, show lookupNode t5.tree_data c = some m from hm,
            by rw [hmp]; exact hncp⟩
        · by_cases hrp : t.root = p
          · have heq : childrenOf t4C q = c3 := by
              rw [hqr, hrp]
              exact hch4p
            rw [heq] at hs
            by_cases hci : c = id
            · subst hci
              exact ⟨nid5, show lookupNode t5.tree_data c = some nid5 from hl5id,
                by rw [hl5idp2, hqr, hrp]⟩
            · have hc0 : some c ∈ children0 := hmem30 c hci hs
              have hsc2 : some c ∈ childrenOf t q := by
                rw [hqr, hrp, hch0]
                exact hc0
              obtain ⟨nc, hnc, hncp⟩ := hw6 q
                (by rw [hqr]; exact List.mem_cons_self _ _) (some c) hsc2 c rfl
              obtain ⟨m, hm, hmp⟩ := htrans c hci nc hnc
              exact ⟨m, show lookupNode t5.tree_data c = some m from hm,
                by rw [hmp]; exact hncp⟩
          · have heq : childrenOf t4C q = childrenOf t q := by
              rw [hqr]
              exact hch4q t.root (fun hc => hrp hc) (fun hc => hrop hc)
                (fun hc => hroot hc.symm)
            rw [heq] at hs
            obtain ⟨nc, hnc, hncp⟩ := hw6 q
              (by rw [hqr]; exact List.mem_cons_self _ _) (some c) hs c rfl
            by_cases hci : c = id
            · exfalso
              rw [hci, hlidt] at hnc
              injection hnc with hnc
              apply hrop
              rw [hopdef, hnc, hncp, hqr]
            · obtain ⟨m, hm, hmp⟩ := htrans c hci nc hnc
              exact ⟨m, show lookupNode t5.tree_data c = some m from hm,
                by rw [hmp]; exact hncp⟩
      · rw [hkeys5] at hqk
        have hqs : (lookupNode t4C.tree_data q).isSome := by
          have h1 : q ∈ keys t4C := by
            rw [hkeys4]
            exact hqk
          exact (lookupNode_isSome_iff _ _).mpr h1
        cases h4 : lookupNode t4C.tree_data q with
        | none => rw [h4] at hqs; exact absurd hqs (by simp)
        | some nq =>
          have hrq : t4C.root ≠ q := by
            rw [hroot4]
            exact fun hc => hrootk (hc ▸ hqk)
          have hchq : childrenOf t4C q = nq.children := childrenOf_of_lookup hrq h4
          rw [hchq] at hs
          obtain ⟨m, hm, hmp⟩ := HB4 q nq h4 c hs
          obtain ⟨m5, hm5x, hp5, _⟩ := sameShape_lookup hshape hm
          exact ⟨m5, show lookupNode t5.tree_data c = some m5 from hm5x,
            by rw [hp5]; exact hmp⟩
    · -- per-slot multiplicity
      intro q hq s hs hsn
      rw [hch5eq q] at hs ⊢
      cases s with
      | none => exact absurd rfl hsn
      | some c =>
        rcases List.mem_cons.mp hq with hqroot | hqk
        · have hqr : q = t.root := by
            rw [hqroot]
            exact hroot5
          by_cases hrop : t.root = op
          · rw [show childrenOf t4C q = opera from by rw [hqr, hrop]; exact hch4op]
            exact hcntopera c
          · by_cases hrp : t.root = p
            · rw [show childrenOf t4C q = c3 from by rw [hqr, hrp]; exact hch4p]
              exact hcnt3 c
            · have heq : childrenOf t4C q = childrenOf t q := by
                rw [hqr]
                exact hch4q t.root (fun hc => hrp hc) (fun hc => hrop hc)
                  (fun hc => hroot hc.symm)
              rw [heq] at hs ⊢
              exact hw7 q (by rw [hqr]; exact List.mem_cons_self _ _) (some c) hs hsn
        · rw [hkeys5] at hqk
          by_cases hqid : q = id
          · rw [show childrenOf t4C q = node.children from by rw [hqid]; exact hch4id]
            exact hcntid c
          · by_cases hqp : q = p
            · rw [show childrenOf t4C q = c3 from by rw [hqp]; exact hch4p]
              exact hcnt3 c
            · by_cases hqop : q = op
              · rw [show childrenOf t4C q = opera from by rw [hqop]; exact hch4op]
                exact hcntopera c
              · rw [hch4q q hqp hqop hqid] at hs ⊢
                exact hw7 q (List.mem_cons_of_mem _ hqk) (some c) hs hsn
    · -- the depth law
      intro e he
      have hk : lookupNode t5.tree_data e.1 = some e.2 :=
        lookupNode_eq_some_of_mem hnd5 he
      by_cases hki : e.1 = id
      · have hkid : lookupNode td5 id = some e.2 := by
          rw [← hki]
          exact hk
        have he2 := hentry5id e.2 hkid
        rw [he2, hl5idp2, hl5idd, hdeppres p hpnr, hdepp]
      · by_cases hre : ReachTd t4C.tree_data id e.1
        · obtain ⟨np2, hnp2, hdd⟩ := hw8r e.1 e.2
            (show lookupNode td5 e.1 = some e.2 from hk) hre hki
          have hpk : e.2.parent_id ∈ keys t := by
            rw [← hkeys5]
            show e.2.parent_id ∈ t5.tree_data.map Prod.fst
            exact (lookupNode_isSome_iff _ _).mp (by rw [show lookupNode t5.tree_data e.2.parent_id = some np2 from hnp2]; rfl)
          have hr5 : t5.root ≠ e.2.parent_id := by
            rw [show t5.root = t.root from hroot5]
            exact fun hc => hrootk (hc ▸ hpk)
          rw [depthOf_of_lookup hr5
            (show lookupNode t5.tree_data e.2.parent_id = some np2 from hnp2)]
          exact hdd
        · have h4 : lookupNode t4C.tree_data e.1 = some e.2 := by
            have h := hframe e.1 hre
            rw [show lookupNode td5 e.1 = some e.2 from hk] at h
            exact h.symm
          rcases hL4 e.1 e.2 h4 with ⟨h1, _⟩ | ⟨_, n0, hn0, hpp, hdata, _⟩
          · exact absurd h1 hki
          · have h8 := hw8 (e.1, n0) (mem_of_lookupNode_eq_some hn0)
            simp only at h8
            have hqnr : ¬ ReachTd t4C.tree_data id n0.parent_id := by
              intro hqre
              apply hre
              have hm5t := hw5 (e.1, n0) (mem_of_lookupNode_eq_some hn0)
              simp only at hm5t
              have hqnroot : n0.parent_id ≠ t.root := fun hc => hrootnr (hc ▸ hqre)
              have hqnp : n0.parent_id ≠ p := fun hc => hpnr (hc ▸ hqre)
              by_cases hqid : n0.parent_id = id
              · rw [hqid, hchidT] at hm5t
                exact ReachTd.step hqre (by rw [hqid]; exact hl4id)
                  (show some e.1 ∈ (g node).children from hm5t)
              · by_cases hqop : n0.parent_id = op
                · have hropq : t.root ≠ op := fun hc => hqnroot (by rw [hqop, ← hc])
                  obtain ⟨nop, hnop, _⟩ := hopdata hropq
                  refine ReachTd.step hqre (by rw [hqop]; exact hl4OP nop hnop hropq) ?_
                  show some e.1 ∈ opera
                  rw [hqop] at hm5t
                  rw [hoperadef, mem_erase_some_of_ne hki, hotdef,
                    trimNones_mem_some, hctopdef]
                  exact hm5t
                · have hqkeys : n0.parent_id ∈ keys t := by
                    rcases hw4 (e.1, n0) (mem_of_lookupNode_eq_some hn0) with h | h
                    · simp only at h
                      exact absurd h hqnroot
                    · simp only at h
                      exact h
                  have hqsome : (lookupNode t.tree_data n0.parent_id).isSome :=
                    (lookupNode_isSome_iff _ _).mpr hqkeys
                  cases hnq : lookupNode t.tree_data n0.parent_id with
                  | none => rw [hnq] at hqsome; exact absurd hqsome (by simp)
                  | some nq =>
                    have h4q : lookupNode t4C.tree_data n0.parent_id = some nq := by
                      rw [hl4O _ hqop hqid hqnp]
                      exact hnq
                    refine ReachTd.step hqre h4q ?_
                    rw [← childrenOf_of_lookup (fun hc => hqnroot hc.symm) hnq]
                    exact hm5t
            rw [hpp, hdeppres _ hqnr]
            have hdd : e.2.data.depth = n0.data.depth := by rw [hdata]
            rw [hdd, h8]
  refine ⟨hroot5, hgw5p, hgetD3, hpar5, ?_, ?_⟩
  · intro hnone
    obtain ⟨c1x, c2x, c3x, c4x, c5x, c6x, c7x, c8x⟩ := hclauses none hnone
    exact ⟨c1x, c2x, c3x, c4x, fun e he => c5x e he (by simp), c6x, c7x, c8x⟩
  · intro w hw
    obtain ⟨c1x, c2x, c3x, c4x, c5x, c6x, c7x, c8x⟩ := hclauses (some w) hw
    obtain ⟨hw0, hwid, _⟩ := hdisp w hw
    have hwp : ∃ nodeW, lookupNode td5 w = some nodeW ∧ nodeW.parent_id = p := by
      have hsc2 : some w ∈ childrenOf t p := by
        rw [hch0]
        exact hw0
      obtain ⟨n0w, hn0w, hnwp⟩ := hw6 p hprk (some w) hsc2 w rfl
      obtain ⟨m, hm, hmp⟩ := htrans w hwid n0w hn0w
      exact ⟨m, hm, by rw [hmp]; exact hnwp⟩
    exact ⟨⟨c1x, c2x, c3x, c4x, fun e he hne => c5x e he (by simp [hne]), c6x,
      c7x, c8x⟩, hwp⟩

end VirtualWidgetTree

/-- Detaching an absent element is just the trim. -/
theorem detachTrim_of_not_mem {x : Nat} {l : List (Option Nat)}
    (h : some x ∉ l) : detachTrim x l = trimNones l := by
  unfold detachTrim vec_remove_element
  rw [show find_index (some x) l = none from (find_index_eq_none_iff _ _).mpr h]

namespace VirtualWidgetTree

/-- Evicting a stored widget from a tree that is well-formed except at it:
the removal succeeds, restores full well-formedness, erases the widget's
whole recorded subtree, and detaches its slot from its parent's list. -/
theorem evict_spec {tX : VirtualWidgetTree} {w : Nat} (hwf : WFexcept tX w)
    {nodeW : WidgetTreeNode} (hx : lookupNode tX.tree_data w = some nodeW) :
    ∃ t2, remove tX w = some (some nodeW.data, t2) ∧ WF t2 ∧
      t2.root = tX.root ∧
      lookupNode t2.tree_data w = none ∧
      (∀ f y, w ∈ chainToRoot tX f y → lookupNode t2.tree_data y = none) ∧
      ∃ pd2, get_widget_node t2 nodeW.parent_id =
        some (pd2, detachTrim w (childrenOf tX nodeW.parent_id)) := by
  obtain ⟨t2, heq, hroot, hrdata, hrch, hnodup, hxgone, hper, hdeep,
    hchildgone, hcascade, hprov⟩ := remove_spec hwf hx
  have hWF2 : WF t2 := remove_WF hwf hx heq
  have hsub : ∀ f y, w ∈ chainToRoot tX f y → lookupNode t2.tree_data y = none :=
    remove_subtree_gone hwf hx heq
  refine ⟨t2, heq, hWF2, hroot, hxgone, hsub, ?_⟩
  obtain ⟨hnd, hrootk, hrd, hw4, hw5, hw6, hw7, hw8⟩ := hwf
  have hxkeys : w ∈ keys tX :=
    (lookupNode_isSome_iff _ _).mp (by rw [hx]; rfl)
  have hxroot : tX.root ≠ w := fun hc => hrootk (hc ▸ hxkeys)
  by_cases hr : tX.root = nodeW.parent_id
  · refine ⟨t2.root_data, ?_⟩
    unfold get_widget_node
    rw [if_pos (by rw [hroot]; exact hr)]
    rw [hrch, if_pos hr]
    rw [show childrenOf tX nodeW.parent_id = tX.root_children from by
      rw [← hr]; exact childrenOf_root tX]
  · have hpmem : nodeW.parent_id ∈ keys tX := by
      rcases hw4 (w, nodeW) (mem_of_lookupNode_eq_some hx) with h | h
      · simp only at h
        exact absurd h.symm hr
      · simp only at h
        exact h
    have hpsome : (lookupNode tX.tree_data nodeW.parent_id).isSome :=
      (lookupNode_isSome_iff _ _).mpr hpmem
    cases hpn : lookupNode tX.tree_data nodeW.parent_id with
    | none => rw [hpn] at hpsome; exact absurd hpsome (by simp)
    | some pn =>
      rcases hper nodeW.parent_id with hnone | ⟨hne, _⟩ | ⟨_, pn2, hpn2, ht2p⟩
      · exfalso
        have h8 := hw8 (w, nodeW) (mem_of_lookupNode_eq_some hx)
        simp only at h8
        rcases hdeep nodeW.parent_id pn hpn hnone with h | h
        · rw [h] at h8
          rw [depthOf_of_lookup hxroot hx] at h8
          omega
        · rw [depthOf_of_lookup hr hpn] at h8
          omega
      · exact absurd rfl hne
      · rw [hpn] at hpn2
        injection hpn2 with hpn2
        subst hpn2
        refine ⟨pn.data, ?_⟩
        unfold get_widget_node
        rw [if_neg (by rw [hroot]; exact hr)]
        rw [ht2p]
        rw [show childrenOf tX nodeW.parent_id = pn.children from
          childrenOf_of_lookup hr hpn]
        rfl

/-- The eviction step at the end of `insert`: given the mid-tree facts
established by the branch lemmas, the call returns `ok` with a well-formed
tree whose target slot holds the widget, and the displaced occupant's whole
original subtree (outside the re-parented widget's) is gone. -/
theorem insertEvict_spec {t tMid : VirtualWidgetTree} {remopt : Option Nat}
    {p id ci : Nat} {pd : WidgetData} {cl : List (Option Nat)}
    {r : Except WidgetInsertError VirtualWidgetTree}
    (hgw : get_widget_node tMid p = some (pd, cl))
    (hcl : cl.getD ci none = some id)
    (hroot : tMid.root = t.root)
    (hpar : ∀ y, y ≠ id →
      (lookupNode tMid.tree_data y).map (fun n => n.parent_id) =
        (lookupNode t.tree_data y).map (fun n => n.parent_id))
    (hWFnone : remopt = none → WF tMid)
    (hWFsome : ∀ w, remopt = some w → WFexcept tMid w ∧
      ∃ nodeW, lookupNode tMid.tree_data w = some nodeW ∧ nodeW.parent_id = p)
    (hremne : ∀ w, remopt = some w → w ≠ id)
    (hwnotin : ∀ w, remopt = some w → some w ∉ cl)
    (h : insertEvict tMid remopt id = some r) :
    ∃ t2, r = Except.ok t2 ∧ WF t2 ∧ t2.root = t.root ∧
      (∃ pd2 cl2, get_widget_node t2 p = some (pd2, cl2) ∧
        cl2.getD ci none = some id) ∧
      (∀ w, remopt = some w →
        lookupNode t2.tree_data w = none ∧
        ∀ f y, w ∈ chainToRoot t f y → id ∉ chainToRoot t f y →
          lookupNode t2.tree_data y = none) := by
  cases remopt with
  | none =>
    simp only [insertEvict] at h
    injection h with h
    refine ⟨tMid, h.symm, hWFnone rfl, hroot, ⟨pd, cl, hgw, hcl⟩, ?_⟩
    intro w hw
    exact absurd hw (by simp)
  | some w =>
    obtain ⟨hwfX, nodeW, hnw, hnwp⟩ := hWFsome w rfl
    have hwne := hremne w rfl
    simp only [insertEvict] at h
    rw [if_neg hwne] at h
    obtain ⟨t2, hrem, hWF2, hroot2, hwgone, hsub, pd2, hgw2⟩ := evict_spec hwfX hnw
    rw [hrem] at h
    injection h with h
    refine ⟨t2, h.symm, hWF2, by rw [hroot2]; exact hroot, ?_, ?_⟩
    · rw [hnwp] at hgw2
      refine ⟨pd2, _, hgw2, ?_⟩
      rw [show childrenOf tMid p = cl from childrenOf_eq_of_gwn hgw]
      rw [detachTrim_of_not_mem (hwnotin w rfl)]
      exact getD_trimNones hcl
    · intro w2 hw2
      injection hw2 with hw2
      subst hw2
      refine ⟨hwgone, ?_⟩
      intro f y hchain hid
      exact hsub f y (chain_mem_transfer hroot hpar f y w hchain hid)

/-- Specification of a terminating `insert`: it either reports an error, or
returns a well-formed tree with the same root in which the widget occupies
the requested slot of the parent, and any displaced occupant is gone
together with its recorded subtree (save for the re-parented widget's own
new subtree). -/
theorem insert_spec {t : VirtualWidgetTree} (hwf : WF t)
    {p id ci : Nat} {ident : WidgetIdent}
    {r : Except WidgetInsertError VirtualWidgetTree}
    (h : insert t p id ci ident = some r) :
    (∃ e, r = Except.error e) ∨
    (∃ t2, r = Except.ok t2 ∧ WF t2 ∧ t2.root = t.root ∧
      (∃ pd2 cl2, get_widget_node t2 p = some (pd2, cl2) ∧
        cl2.getD ci none = some id) ∧
      (∀ w, displacedAt t p id ci = some w →
        lookupNode t2.tree_data w = none ∧
        ∀ f y, w ∈ chainToRoot t f y → id ∉ chainToRoot t f y →
          lookupNode t2.tree_data y = none)) := by
  unfold insert at h
  by_cases hidr : id = t.root
  · rw [if_pos hidr] at h
    injection h with h
    exact Or.inl ⟨_, h.symm⟩
  · rw [if_neg hidr] at h
    cases hpg : get_widget_node t p with
    | none =>
      rw [hpg] at h
      injection h with h
      exact Or.inl ⟨_, h.symm⟩
    | some pc =>
      obtain ⟨pdata, children0⟩ := pc
      rw [hpg] at h
      simp only at h
      set c1 : List (Option Nat) := (vec_remove_element (some id) children0).2 with hc1g
      set c2 : List (Option Nat) := (if c1.length ≤ ci then
        c1 ++ List.replicate (ci + 1 - c1.length) none else c1) with hc2g
      set c3 : List (Option Nat) := c2.set ci (some id) with hc3g
      set t1 : VirtualWidgetTree := setChildren t p c3 with ht1g
      have hcnt0 : ∀ c : Nat, children0.count (some c) ≤ 1 := by
        intro c
        rw [← childrenOf_eq_of_gwn hpg]
        exact WF.count_bound hwf (by
          rcases gwn_root_or_keys hpg with hx | hx
          · exact hx ▸ List.mem_cons_self _ _
          · exact List.mem_cons_of_mem _ hx) c
      obtain ⟨_, _, _, _, _, _, hgetid, hdisp⟩ :=
        slot_facts hcnt0 hc1g hc2g hc3g
      have hdispAt : displacedAt t p id ci = c2.getD ci none := by
        unfold displacedAt
        simp only
        rw [childrenOf_eq_of_gwn hpg, ← hc1g, ← hc2g]
      have hremne : ∀ w, c2.getD ci none = some w → w ≠ id :=
        fun w hw => (hdisp w hw).2.1
      have hnotin3 : ∀ w, c2.getD ci none = some w → some w ∉ c3 :=
        fun w hw => (hdisp w hw).2.2
      cases hlid : lookupNode t1.tree_data id with
      | none =>
        rw [hlid] at h
        obtain ⟨hrootA, hgwA, hgetDA, hparA, hWFnA, hWFsA⟩ :=
          insert_branchA hwf hidr hpg hc1g.symm hc2g.symm hc3g.symm ht1g.symm hlid
        refine Or.inr ?_
        rw [hdispAt]
        exact insertEvict_spec hgwA hgetDA hrootA hparA hWFnA hWFsA hremne
          hnotin3 h
      | some node =>
        rw [hlid] at h
        simp only at h
        by_cases hbp : node.parent_id = p
        · rw [hbp] at h
          obtain ⟨hgw2m, hrootB, hgwB, hgetDB, hparB, hWFnB, hWFsB⟩ :=
            insert_branchB hwf hidr hpg hc1g.symm hc2g.symm hc3g.symm ht1g.symm
              hlid hbp
          rw [hgw2m] at h
          simp only at h
          rw [if_pos trivial] at h
          refine Or.inr ?_
          rw [hdispAt]
          refine insertEvict_spec hgwB hgetDB hrootB hparB hWFnB hWFsB hremne
            ?_ h
          intro w hw hmem
          exact hnotin3 w hw ((trimNones_mem_some _ _).mp hmem)
        · obtain ⟨⟨opd, hgwn⟩, ⟨j, hfst⟩, hsnd⟩ :=
            insert_branchC_pre hwf hidr hpg hc1g.symm hc2g.symm hc3g.symm
              ht1g.symm hlid hbp
          rw [hgwn] at h
          simp only at h
          rw [if_neg hbp] at h
          have hpair : vec_remove_element (some id)
              (trimNones (childrenOf t node.parent_id)) =
              (some j, (trimNones (childrenOf t node.parent_id)).erase (some id)) := by
            rw [← hfst, ← hsnd]
          rw [hpair] at h
          simp only at h
          set t4C : VirtualWidgetTree := setChildren (setChildren { t1 with tree_data := mapNode t1.tree_data id (fun n => { parent_id := p, children := n.children, data := { ident := ident, depth := n.data.depth } }) } node.parent_id (trimNones (childrenOf t node.parent_id))) node.parent_id ((trimNones (childrenOf t node.parent_id)).erase (some id)) with ht4g
          cases htd5 : update_node_depth (t4C.tree_data.length + 2) t4C.tree_data
              (pdata.depth + 1) id with
          | none =>
            rw [htd5] at h
            exact absurd h (by simp)
          | some td5 =>
            rw [htd5] at h
            obtain ⟨hroot5, hgw5, hgetD5, hpar5, hWFn5, hWFs5⟩ :=
              insert_branchC hwf hidr hpg hc1g.symm hc2g.symm hc3g.symm ht1g.symm
                hlid hbp ht4g.symm htd5
            refine Or.inr ?_
            rw [hdispAt]
            exact insertEvict_spec hgw5 hgetD5 hroot5 hpar5 hWFn5 hWFs5 hremne
              hnotin3 h

end VirtualWidgetTree

namespace VirtualWidgetTree

/-- `WF` holds for `VirtualWidgetTree::new`: the side table is empty and
the root carries depth 0. -/
theorem WF_new (root : Nat) : WF (VirtualWidgetTree.new root) := by
  have hch : ∀ q, childrenOf (VirtualWidgetTree.new root) q = [] := by
    intro q
    unfold childrenOf get_widget_node
    by_cases hr : (VirtualWidgetTree.new root).root = q
    · rw [if_pos hr]
      rfl
    · rw [if_neg hr]
      rfl
  refine ⟨List.nodup_nil, List.not_mem_nil _, rfl, ?_, ?_, ?_, ?_, ?_⟩
  · intro e he
    exact absurd he (List.not_mem_nil e)
  · intro e he
    exact absurd he (List.not_mem_nil e)
  · intro q hq s hs c hsc
    rw [hch q] at hs
    exact absurd hs (List.not_mem_nil s)
  · intro q hq s hs hsn
    rw [hch q] at hs
    exact absurd hs (List.not_mem_nil s)
  · intro e he
    exact absurd he (List.not_mem_nil e)

/-- One applied operation preserves well-formedness. -/
theorem applyOp_WF {t : VirtualWidgetTree} (hwf : WF t) {op : TreeOp}
    {t2 : VirtualWidgetTree} (h : applyOp t op = some t2) : WF t2 := by
  cases op with
  | insert p id ci ident =>
    simp only [applyOp] at h
    cases hi : insert t p id ci ident with
    | none => rw [hi] at h; exact absurd h (by simp)
    | some r =>
      rw [hi] at h
      rcases insert_spec hwf hi with ⟨e, he⟩ | ⟨t3, hr, hWF, _⟩
      · rw [he] at h
        have h2 : some t = some t2 := h
        injection h2 with h2
        exact h2 ▸ hwf
      · rw [hr] at h
        have h2 : some t3 = some t2 := h
        injection h2 with h2
        exact h2 ▸ hWF
  | remove id =>
    simp only [applyOp] at h
    cases hrem : remove t id with
    | none => rw [hrem] at h; exact absurd h (by simp)
    | some pr =>
      obtain ⟨d, t3⟩ := pr
      rw [hrem] at h
      have h2 : some t3 = some t2 := h
      injection h2 with h2
      cases hl : lookupNode t.tree_data id with
      | none =>
        unfold remove at hrem
        rw [hl] at hrem
        injection hrem with hrem
        injection hrem with hd ht
        rw [← h2, ← ht]
        exact hwf
      | some node =>
        exact h2 ▸ remove_WF (WF.toExcept hwf id) hl hrem

/-- A sequence of applied operations preserves well-formedness. -/
theorem applyOps_WF : ∀ (ops : List TreeOp) {t t2 : VirtualWidgetTree},
    WF t → applyOps t ops = some t2 → WF t2 := by
  intro ops
  induction ops with
  | nil =>
    intro t t2 hwf h
    unfold applyOps at h
    injection h with h
    exact h ▸ hwf
  | cons op rest ih =>
    intro t t2 hwf h
    unfold applyOps at h
    cases hop : applyOp t op with
    | none => rw [hop] at h; exact absurd h (by simp)
    | some t3 =>
      rw [hop] at h
      exact ih (applyOp_WF hwf hop) h

end VirtualWidgetTree

namespace VirtualWidgetTree

/-- C1: For every finite sequence of `insert`/`remove` operations applied
to a freshly created `VirtualWidgetTree` (one that completes without
panic/divergence), the root's cached depth is 0 and every widget id present
in the resulting tree other than the root — exactly the keys of the side
table — has a cached depth equal to its recorded parent's cached depth
plus one. -/
theorem depth_invariant_ops (root : Nat) (ops : List TreeOp)
    {t2 : VirtualWidgetTree}
    (h : applyOps (VirtualWidgetTree.new root) ops = some t2) :
    t2.root_data.depth = 0 ∧
    ∀ id n, lookupNode t2.tree_data id = some n →
      n.data.depth = depthOf t2 n.parent_id + 1 := by
  have hwf : WF t2 := applyOps_WF ops (WF_new root) h
  refine ⟨hwf.2.2.1, ?_⟩
  intro id n hn
  have h8 := hwf.2.2.2.2.2.2.2 (id, n) (mem_of_lookupNode_eq_some hn)
  simpa using h8

/-- Witness for C1: inserting 1 under the root, 2 under 1 and removing 2
again ends in `treeInsRem`, where the depth law holds at the root and at
the stored widget 1. -/
theorem depth_invariant_ops_witness :
    applyOps (VirtualWidgetTree.new 0)
      [TreeOp.insert 0 1 0 (WidgetIdent.Num 1),
       TreeOp.insert 1 2 0 (WidgetIdent.Num 2),
       TreeOp.remove 2] = some treeInsRem ∧
    treeInsRem.root_data.depth = 0 ∧
    ({ parent_id := 0, children := [],
       data := { ident := WidgetIdent.Num 1, depth := 1 } }
        : WidgetTreeNode).data.depth = depthOf treeInsRem 0 + 1 := by
  refine ⟨by decide, ?_, ?_⟩
  · exact (depth_invariant_ops 0 [TreeOp.insert 0 1 0 (WidgetIdent.Num 1),
      TreeOp.insert 1 2 0 (WidgetIdent.Num 2),
      TreeOp.remove 2] (by decide)).1
  · exact (depth_invariant_ops 0 [TreeOp.insert 0 1 0 (WidgetIdent.Num 1),
      TreeOp.insert 1 2 0 (WidgetIdent.Num 2),
      TreeOp.remove 2] (by decide)).2 1 _ (by decide)

/-- C2: For every finite sequence of `insert`/`remove` operations applied
to a fresh tree, the parent relation stays acyclic: following `parent_id`
links from any widget present in the resulting tree (the root or a stored
key) yields a chain that starts at the widget, ends at the root, never
revisits a node, and each step follows a stored parent link. -/
theorem parent_chain_acyclic (root : Nat) (ops : List TreeOp)
    {t2 : VirtualWidgetTree}
    (h : applyOps (VirtualWidgetTree.new root) ops = some t2)
    {id : Nat} (hid : id = t2.root ∨ id ∈ keys t2) :
    (chainToRoot t2 (t2.tree_data.length + 1) id).head? = some id ∧
    (chainToRoot t2 (t2.tree_data.length + 1) id).getLast? = some t2.root ∧
    (chainToRoot t2 (t2.tree_data.length + 1) id).Nodup ∧
    List.Chain' (parentLink t2)
      (chainToRoot t2 (t2.tree_data.length + 1) id) := by
  have hwf : WF t2 := applyOps_WF ops (WF_new root) h
  obtain ⟨_, h2, h3, _, h5, h6⟩ := chainToRoot_spec hwf
    (t2.tree_data.length + 1) (depthOf t2 id) id hid rfl
    (Nat.lt_succ_of_le (depthOf_le_length hwf hid))
  exact ⟨h2, h3, h5, h6⟩

/-- Witness for C2: after the insert-insert-remove sequence, widget 1's
parent chain is exactly [1, 0] — it reaches the root with no repetition. -/
theorem parent_chain_acyclic_witness :
    chainToRoot treeInsRem 2 1 = [1, 0] ∧
    (chainToRoot treeInsRem (treeInsRem.tree_data.length + 1) 1).head? =
      some 1 ∧
    (chainToRoot treeInsRem (treeInsRem.tree_data.length + 1) 1).getLast? =
      some treeInsRem.root ∧
    (chainToRoot treeInsRem (treeInsRem.tree_data.length + 1) 1).Nodup ∧
    List.Chain' (parentLink treeInsRem)
      (chainToRoot treeInsRem (treeInsRem.tree_data.length + 1) 1) := by
  obtain ⟨h1, h2, h3, h4⟩ := @parent_chain_acyclic 0
    [TreeOp.insert 0 1 0 (WidgetIdent.Num 1),
     TreeOp.insert 1 2 0 (WidgetIdent.Num 2),
     TreeOp.remove 2] treeInsRem (by decide) 1
    (by decide)
  exact ⟨by decide, h1, h2, h3, h4⟩

/-- C6 (amended): a successful `insert(parent, id, index, ident)` leaves
`id` in slot `index` of the parent, and the occupant examined for eviction
is the one at `index` of the parent's list after the detach-and-pad step
(`displacedAt`) — not necessarily the pre-call occupant of that slot, since
detaching `id` first shifts later siblings left.  When that occupant `w`
exists it is removed together with every widget of its recorded subtree
that did not move under `id`. -/
theorem insert_evict_amended {t : VirtualWidgetTree} (hwf : WF t)
    {p id ci : Nat} {ident : WidgetIdent} {t2 : VirtualWidgetTree}
    (h : insert t p id ci ident = some (Except.ok t2)) :
    (∃ pd2 cl2, get_widget_node t2 p = some (pd2, cl2) ∧
      cl2.getD ci none = some id) ∧
    ∀ w, displacedAt t p id ci = some w →
      lookupNode t2.tree_data w = none ∧
      ∀ y, inSubtree t w y → ¬ inSubtree t id y →
        lookupNode t2.tree_data y = none := by
  rcases insert_spec hwf h with ⟨e, he⟩ | ⟨t3, hr, _, _, hslot, hev⟩
  · exact absurd he (by simp)
  · injection hr with hr
    subst hr
    refine ⟨hslot, ?_⟩
    intro w hw
    obtain ⟨hgone, hsub⟩ := hev w hw
    exact ⟨hgone, fun y hin hnin => hsub (t.tree_data.length + 1) y hin hnin⟩

/-- Witness for C6: on `treeC6`, inserting widget 3 at the root's slot 0
displaces widget 1, which disappears along with its child 4, while 3 takes
the slot. -/
theorem insert_evict_amended_witness :
    displacedAt treeC6 0 3 0 = some 1 ∧
    inSubtree treeC6 1 4 ∧
    ¬ inSubtree treeC6 3 4 ∧
    lookupNode treeC6After.tree_data 1 = none ∧
    lookupNode treeC6After.tree_data 4 = none ∧
    (childrenOf treeC6After 0).getD 0 none = some 3 := by
  obtain ⟨hslot, hev⟩ := @insert_evict_amended treeC6 (by decide) 0 3 0
    (WidgetIdent.Num 3) treeC6After (by decide)
  obtain ⟨hgone, hsub⟩ := hev 1 (by decide)
  exact ⟨by decide, by decide, by decide, hgone,
    hsub 4 (by decide) (by decide), by decide⟩

end VirtualWidgetTree
